import Mathlib

/-!
Verification of the connected-components subsystem of the `hiss` repository
(`src/dicts.py`) against its natural-language specification.

The Python functions operate on edge lists of string vertices.  We embed the
data model shallowly: vertices are `String`, edge lists are `List (Vtx × Vtx)`,
Python `set`/`frozenset` results become `Finset`, and the identity-based
aliasing of mutable lists in the quick-find variants is made explicit through
numeric cell identifiers (resp. representative labels).
-/

namespace Hiss

/-- Vertices are strings, as in `dicts.py`. -/
abbrev Vtx := String

/-- An edge list: ordered pairs of source and destination vertices. -/
abbrev Edges := List (Vtx × Vtx)

/-- All vertices mentioned in the edge list, sources and destinations
interleaved in edge order (the order Python touches them). -/
def vtxList (edges : Edges) : List Vtx :=
  edges.foldr (fun e acc => e.1 :: e.2 :: acc) []

@[simp] lemma vtxList_nil : vtxList [] = [] := rfl

@[simp] lemma vtxList_cons (e : Vtx × Vtx) (es : Edges) :
    vtxList (e :: es) = e.1 :: e.2 :: vtxList es := rfl

lemma mem_vtxList {edges : Edges} {v : Vtx} :
    v ∈ vtxList edges ↔ ∃ e ∈ edges, v = e.1 ∨ v = e.2 := by
  induction edges with
  | nil => simp
  | cons e es ih =>
      simp only [vtxList_cons, List.mem_cons, ih]
      constructor
      · rintro (h | h | ⟨e', he', h⟩)
        · exact ⟨e, Or.inl rfl, Or.inl h⟩
        · exact ⟨e, Or.inl rfl, Or.inr h⟩
        · exact ⟨e', Or.inr he', h⟩
      · rintro ⟨e', (rfl | he'), h⟩
        · rcases h with h | h
          · exact Or.inl h
          · exact Or.inr (Or.inl h)
        · exact Or.inr (Or.inr ⟨e', he', h⟩)

/-- The set of vertices mentioned in the edge list. -/
def vset (edges : Edges) : Finset Vtx := (vtxList edges).toFinset

lemma mem_vset {edges : Edges} {v : Vtx} :
    v ∈ vset edges ↔ ∃ e ∈ edges, v = e.1 ∨ v = e.2 := by
  simp [vset, mem_vtxList]

/-- Two vertices are directly linked if some edge joins them, in either
direction (edge direction is ignored for component purposes). -/
def rel (edges : Edges) (a b : Vtx) : Prop := (a, b) ∈ edges ∨ (b, a) ∈ edges

/-- Undirected reachability: the reflexive-transitive closure of `rel`. -/
def conn (edges : Edges) : Vtx → Vtx → Prop := Relation.ReflTransGen (rel edges)

lemma rel_symm {edges : Edges} {a b : Vtx} (h : rel edges a b) : rel edges b a :=
  h.elim Or.inr Or.inl

lemma rel_fst_mem {edges : Edges} {a b : Vtx} (h : rel edges a b) : a ∈ vset edges := by
  rcases h with h | h
  · exact mem_vset.2 ⟨(a, b), h, Or.inl rfl⟩
  · exact mem_vset.2 ⟨(b, a), h, Or.inr rfl⟩

lemma rel_snd_mem {edges : Edges} {a b : Vtx} (h : rel edges a b) : b ∈ vset edges :=
  rel_fst_mem (rel_symm h)

lemma conn_refl (edges : Edges) (a : Vtx) : conn edges a a :=
  Relation.ReflTransGen.refl

lemma conn_symm {edges : Edges} {a b : Vtx} (h : conn edges a b) : conn edges b a :=
  Relation.ReflTransGen.symmetric (fun _ _ => rel_symm) h

lemma conn_trans {edges : Edges} {a b c : Vtx} (h₁ : conn edges a b)
    (h₂ : conn edges b c) : conn edges a c :=
  Relation.ReflTransGen.trans h₁ h₂

lemma rel_conn {edges : Edges} {a b : Vtx} (h : rel edges a b) : conn edges a b :=
  Relation.ReflTransGen.single h

/-- Links with respect to a sub-edge-list are links with respect to any
edge list with at least the same members. -/
lemma rel_of_subset {edges₁ edges₂ : Edges}
    (hsub : ∀ e, e ∈ edges₁ → e ∈ edges₂) {a b : Vtx}
    (h : rel edges₁ a b) : rel edges₂ a b :=
  h.elim (fun h => Or.inl (hsub _ h)) (fun h => Or.inr (hsub _ h))

lemma conn_of_subset {edges₁ edges₂ : Edges}
    (hsub : ∀ e, e ∈ edges₁ → e ∈ edges₂) {a b : Vtx}
    (h : conn edges₁ a b) : conn edges₂ a b :=
  Relation.ReflTransGen.mono (fun _ _ => rel_of_subset hsub) h

lemma vset_congr {edges₁ edges₂ : Edges}
    (hmem : ∀ e, e ∈ edges₁ ↔ e ∈ edges₂) : vset edges₁ = vset edges₂ := by
  ext v
  simp only [mem_vset]
  constructor
  · rintro ⟨e, he, h⟩; exact ⟨e, (hmem e).1 he, h⟩
  · rintro ⟨e, he, h⟩; exact ⟨e, (hmem e).2 he, h⟩

lemma conn_congr {edges₁ edges₂ : Edges}
    (hmem : ∀ e, e ∈ edges₁ ↔ e ∈ edges₂) {a b : Vtx} :
    conn edges₁ a b ↔ conn edges₂ a b :=
  ⟨conn_of_subset (fun e => (hmem e).1), conn_of_subset (fun e => (hmem e).2)⟩

/-- The full vertex set of a call: vertices mentioned in the edges together
with explicitly supplied extra vertices. -/
def uset (edges : Edges) (extra : List Vtx) : Finset Vtx :=
  vset edges ∪ extra.toFinset

/-- Specification of a correct connected-components answer: the members of
`cs` are nonempty, consist of vertices of the input, jointly cover the
input vertices, are internally connected, and are closed under edges.
These conditions determine `cs` uniquely (`isComponents_unique`), and they
imply that `cs` is a partition of the vertex set. -/
def IsComponents (edges : Edges) (extra : List Vtx) (cs : Finset (Finset Vtx)) : Prop :=
  (∀ C ∈ cs, C.Nonempty) ∧
  (∀ C ∈ cs, ∀ v ∈ C, v ∈ uset edges extra) ∧
  (∀ v ∈ uset edges extra, ∃ C ∈ cs, v ∈ C) ∧
  (∀ C ∈ cs, ∀ u ∈ C, ∀ v ∈ C, conn edges u v) ∧
  (∀ C ∈ cs, ∀ u ∈ C, ∀ v, rel edges u v → v ∈ C)

lemma IsComponents.mem_class_iff {edges : Edges} {extra : List Vtx}
    {cs : Finset (Finset Vtx)} (h : IsComponents edges extra cs)
    {C : Finset Vtx} (hC : C ∈ cs) {u : Vtx} (hu : u ∈ C) {v : Vtx} :
    v ∈ C ↔ v ∈ uset edges extra ∧ conn edges u v := by
  obtain ⟨-, hsub, -, hconn, hclosed⟩ := h
  constructor
  · intro hv
    exact ⟨hsub C hC v hv, hconn C hC u hu v hv⟩
  · rintro ⟨-, hcv⟩
    induction hcv with
    | refl => exact hu
    | tail _ hstep ih => exact hclosed C hC _ ih _ hstep

lemma IsComponents.class_eq {edges : Edges} {extra : List Vtx}
    {cs : Finset (Finset Vtx)} (h : IsComponents edges extra cs)
    {C D : Finset Vtx} (hC : C ∈ cs) (hD : D ∈ cs) {u : Vtx}
    (huC : u ∈ C) (huD : u ∈ D) : C = D := by
  ext v
  rw [h.mem_class_iff hC huC, h.mem_class_iff hD huD]

lemma isComponents_unique {edges : Edges} {extra : List Vtx}
    {cs₁ cs₂ : Finset (Finset Vtx)}
    (h₁ : IsComponents edges extra cs₁) (h₂ : IsComponents edges extra cs₂) :
    cs₁ = cs₂ := by
  have key : ∀ cs cs', IsComponents edges extra cs → IsComponents edges extra cs' →
      ∀ C ∈ cs, C ∈ cs' := by
    intro cs cs' h h' C hC
    obtain ⟨v, hv⟩ := h.1 C hC
    have hvu : v ∈ uset edges extra := h.2.1 C hC v hv
    obtain ⟨D, hD, hvD⟩ := h'.2.2.1 v hvu
    have hCD : C = D := by
      ext w
      rw [h.mem_class_iff hC hv, h'.mem_class_iff hD hvD]
    rw [hCD]
    exact hD
  apply Finset.Subset.antisymm
  · intro C hC; exact key cs₁ cs₂ h₁ h₂ C hC
  · intro C hC; exact key cs₂ cs₁ h₂ h₁ C hC


/-- The union of the components is exactly the full vertex set. -/
lemma IsComponents.biUnion_eq {edges : Edges} {extra : List Vtx}
    {cs : Finset (Finset Vtx)} (h : IsComponents edges extra cs) :
    cs.biUnion id = uset edges extra := by
  apply Finset.Subset.antisymm
  · intro v hv
    obtain ⟨C, hC, hvC⟩ := Finset.mem_biUnion.1 hv
    exact h.2.1 C hC v hvC
  · intro v hv
    obtain ⟨C, hC, hvC⟩ := h.2.2.1 v hv
    exact Finset.mem_biUnion.2 ⟨C, hC, hvC⟩

/-- The specification transfers between edge lists with the same members and
extra-vertex lists with the same members. -/
lemma isComponents_congr {edges₁ edges₂ : Edges} {extra₁ extra₂ : List Vtx}
    (hmem : ∀ e, e ∈ edges₁ ↔ e ∈ edges₂)
    (hext : ∀ v, v ∈ extra₁ ↔ v ∈ extra₂)
    {cs : Finset (Finset Vtx)} (h : IsComponents edges₁ extra₁ cs) :
    IsComponents edges₂ extra₂ cs := by
  have huset : uset edges₁ extra₁ = uset edges₂ extra₂ := by
    unfold uset
    rw [vset_congr hmem]
    congr 1
    ext v
    simp [hext v]
  obtain ⟨h₁, h₂, h₃, h₄, h₅⟩ := h
  refine ⟨h₁, ?_, ?_, ?_, ?_⟩
  · intro C hC v hv; rw [← huset]; exact h₂ C hC v hv
  · intro v hv; rw [← huset] at hv; exact h₃ v hv
  · intro C hC u hu v hv
    exact (conn_congr hmem).1 (h₄ C hC u hu v hv)
  · intro C hC u hu v hrel
    refine h₅ C hC u hu v ?_
    exact rel_of_subset (fun e he => (hmem e).2 he) hrel

/-! ## `distinct` (dicts.py, lines 28-49)

`distinct(values, key=...)` walks the values, keeping a list of kept values
and a set of the keys already seen, and appends a value exactly when its key
is new.  (`key=None` defaults to the identity function, so the keyed model
subsumes the unkeyed call.) -/

/-- One loop iteration of `distinct`: state is the pair of the accumulated
value list and the set of keys seen so far. -/
def distinctStep {α β : Type} [DecidableEq β] (key : α → β)
    (st : List α × Finset β) (val : α) : List α × Finset β :=
  if key val ∈ st.2 then st else (st.1 ++ [val], insert (key val) st.2)

/-- Model of `distinct` from dicts.py: the list of values whose key had not
been seen before, in input order. -/
def distinct {α β : Type} [DecidableEq β] (values : List α) (key : α → β) :
    List α :=
  (values.foldl (distinctStep key) ([], ∅)).1

lemma distinct_invariant {α β : Type} [DecidableEq β] (key : α → β) :
    ∀ (values : List α) (done : List α) (l : List α) (s : Finset β),
      ((l.map key).toFinset = s) →
      l.Sublist done →
      (∀ v ∈ done, key v ∈ s) →
      (l.map key).Nodup →
      (∀ w ∈ l, done.find? (fun v => decide (key v = key w)) = some w) →
      ((values.foldl (distinctStep key) (l, s)).1.map key).toFinset
          = (values.foldl (distinctStep key) (l, s)).2 ∧
      (values.foldl (distinctStep key) (l, s)).1.Sublist (done ++ values) ∧
      (∀ v ∈ done ++ values,
        key v ∈ (values.foldl (distinctStep key) (l, s)).2) ∧
      ((values.foldl (distinctStep key) (l, s)).1.map key).Nodup ∧
      (∀ w ∈ (values.foldl (distinctStep key) (l, s)).1,
        (done ++ values).find? (fun v => decide (key v = key w)) = some w) := by
  intro values
  induction values with
  | nil =>
      intro done l s h₁ h₂ h₃ h₄ h₅
      simpa using ⟨h₁, h₂, h₃, h₄, h₅⟩
  | cons a rest ih =>
      intro done l s h₁ h₂ h₃ h₄ h₅
      rw [List.foldl_cons]
      by_cases hmem : key a ∈ s
      · have hstep : distinctStep key (l, s) a = (l, s) := by
          simp [distinctStep, hmem]
        rw [hstep]
        have hdone : ∀ v ∈ done ++ [a], key v ∈ s := by
          intro v hv
          rcases List.mem_append.1 hv with hv | hv
          · exact h₃ v hv
          · rcases List.mem_singleton.1 hv with rfl; exact hmem
        have hfind : ∀ w ∈ l,
            (done ++ [a]).find? (fun v => decide (key v = key w)) = some w := by
          intro w hw
          rw [List.find?_append, h₅ w hw]
          rfl
        have := ih (done ++ [a]) l s h₁ (h₂.trans (List.sublist_append_left _ _))
          hdone h₄ hfind
        simpa [List.append_assoc] using this
      · have hstep : distinctStep key (l, s) a
            = (l ++ [a], insert (key a) s) := by
          simp [distinctStep, hmem]
        rw [hstep]
        have h₁' : ((l ++ [a]).map key).toFinset = insert (key a) s := by
          rw [List.map_append, List.toFinset_append, h₁]
          rw [Finset.insert_eq, Finset.union_comm]
          simp
        have h₂' : (l ++ [a]).Sublist (done ++ [a]) :=
          h₂.append (List.Sublist.refl [a])
        have h₃' : ∀ v ∈ done ++ [a], key v ∈ insert (key a) s := by
          intro v hv
          rcases List.mem_append.1 hv with hv | hv
          · exact Finset.mem_insert_of_mem (h₃ v hv)
          · rcases List.mem_singleton.1 hv with rfl
            exact Finset.mem_insert_self _ _
        have h₄' : ((l ++ [a]).map key).Nodup := by
          rw [List.map_append]
          refine List.Nodup.append h₄ (by simp) ?_
          intro b hb hb'
          rcases List.mem_singleton.1 hb' with rfl
          exact hmem (by rw [← h₁]; exact List.mem_toFinset.2 hb)
        have h₅' : ∀ w ∈ l ++ [a],
            (done ++ [a]).find? (fun v => decide (key v = key w)) = some w := by
          intro w hw
          rcases List.mem_append.1 hw with hw | hw
          · rw [List.find?_append, h₅ w hw]
            rfl
          · have hwa : w = a := List.mem_singleton.1 hw
            subst hwa
            have hnone : done.find? (fun v => decide (key v = key w)) = none := by
              rw [List.find?_eq_none]
              intro v hv
              simp only [decide_eq_true_eq]
              intro hkey
              exact hmem (hkey ▸ h₃ v hv)
            rw [List.find?_append, hnone]
            simp
        have := ih (done ++ [a]) (l ++ [a]) (insert (key a) s) h₁' h₂' h₃' h₄' h₅'
        simpa [List.append_assoc] using this

/-- Characterization of `distinct`: the result is a subsequence of the input,
has pairwise distinct keys, represents every input key, and each kept value is
the first input value bearing its key. -/
lemma distinct_spec {α β : Type} [DecidableEq β] (values : List α) (key : α → β) :
    (distinct values key).Sublist values ∧
    ((distinct values key).map key).Nodup ∧
    (∀ v ∈ values, ∃ w ∈ distinct values key, key w = key v) ∧
    (∀ w ∈ distinct values key,
      values.find? (fun v => decide (key v = key w)) = some w) := by
  have h := distinct_invariant key values [] [] ∅ (by simp) (by simp)
    (by simp) (by simp) (by simp)
  obtain ⟨h₁, h₂, h₃, h₄, h₅⟩ := h
  simp only [List.nil_append] at h₂ h₃ h₅
  refine ⟨h₂, h₄, ?_, h₅⟩
  intro v hv
  have hkey : key v ∈ (values.foldl (distinctStep key) ([], ∅)).2 := h₃ v hv
  rw [← h₁] at hkey
  obtain ⟨k, hk, hkey⟩ := List.mem_toFinset.1 hkey |> List.mem_map.1
  exact ⟨k, hk, hkey⟩

/-! ## `adjacency` (dicts.py, lines 66-121) and `adjacency_undirected` (125-145)

An adjacency structure is a dictionary from vertices to sets of neighbors.
We model it as the insertion-ordered key list together with the neighbor
function (`[]` for absent keys); Python's `set.add` deduplicates, so neighbor
lists are grown only with members not already present. -/

/-- Adjacency dictionary: keys in insertion order, and the neighbor list of
each vertex (empty for vertices that are not keys). -/
structure Adj where
  keys : List Vtx
  nbr : Vtx → List Vtx

/-- Model of `set.add` on a neighbor set. -/
def addNbrVal (l : List Vtx) (d : Vtx) : List Vtx := if d ∈ l then l else l ++ [d]

/-- Record the directed edge `s → d`: create the key `s` if needed (Python
creates it with `{dest}`, which agrees with adding `d` to the empty default
neighbor list) and add `d` to its neighbor set. -/
def adjInsert (st : Adj) (s d : Vtx) : Adj :=
  { keys := if s ∈ st.keys then st.keys else st.keys ++ [s]
    nbr := fun x => if x = s then addNbrVal (st.nbr s) d else st.nbr x }

/-- Process one edge of `adjacency`: the forward direction always, the
reverse direction as well when `directed` is false. -/
def adjEdgeStep (directed : Bool) (st : Adj) (e : Vtx × Vtx) : Adj :=
  cond directed (adjInsert st e.1 e.2) (adjInsert (adjInsert st e.1 e.2) e.2 e.1)

/-- Process one explicitly supplied vertex of `adjacency`: add it as a key
with an empty neighbor set if it is not a key already. -/
def adjVertexStep (st : Adj) (v : Vtx) : Adj :=
  if v ∈ st.keys then st else { keys := st.keys ++ [v], nbr := st.nbr }

/-- Model of `adjacency` from dicts.py: fold the edges, then the explicitly
supplied vertices. -/
def adjacency (edges : Edges) (vertices : List Vtx) (directed : Bool) : Adj :=
  vertices.foldl adjVertexStep (edges.foldl (adjEdgeStep directed) ⟨[], fun _ => []⟩)

/-- Model of `adjacency_undirected` from dicts.py: a defaultdict fold adding
both directions of every edge.  Its per-edge effect coincides with the
undirected branch of `adjacency`. -/
def adjacency_undirected (edges : Edges) : Adj :=
  edges.foldl (adjEdgeStep false) ⟨[], fun _ => []⟩

lemma mem_addNbrVal {l : List Vtx} {d x : Vtx} :
    x ∈ addNbrVal l d ↔ x ∈ l ∨ x = d := by
  unfold addNbrVal
  by_cases h : d ∈ l
  · simp only [if_pos h]
    constructor
    · exact Or.inl
    · rintro (hx | rfl) <;> assumption
  · simp [if_neg h]

lemma adjInsert_nbr (st : Adj) (s d v x : Vtx) :
    x ∈ (adjInsert st s d).nbr v ↔ x ∈ st.nbr v ∨ (v = s ∧ x = d) := by
  unfold adjInsert
  by_cases hv : v = s
  · subst hv
    simp [mem_addNbrVal]
  · simp [hv]

lemma adjInsert_keys (st : Adj) (s d v : Vtx) :
    v ∈ (adjInsert st s d).keys ↔ v ∈ st.keys ∨ v = s := by
  unfold adjInsert
  by_cases hs : s ∈ st.keys
  · simp only [if_pos hs]
    constructor
    · exact Or.inl
    · rintro (hv | rfl) <;> assumption
  · simp [if_neg hs]

lemma adjEdgeFoldDir_nbr (edges : Edges) :
    ∀ (st : Adj) (v x : Vtx),
      x ∈ (edges.foldl (adjEdgeStep true) st).nbr v ↔
        x ∈ st.nbr v ∨ (v, x) ∈ edges := by
  induction edges with
  | nil => intro st v x; simp
  | cons e es ih =>
      intro st v x
      rw [List.foldl_cons]
      show x ∈ (es.foldl (adjEdgeStep true) (adjInsert st e.1 e.2)).nbr v ↔ _
      rw [ih, adjInsert_nbr]
      constructor
      · rintro ((h | ⟨rfl, rfl⟩) | h)
        · exact Or.inl h
        · exact Or.inr (List.mem_cons_self _ _)
        · exact Or.inr (List.mem_cons_of_mem _ h)
      · rintro (h | h)
        · exact Or.inl (Or.inl h)
        · rcases List.mem_cons.1 h with h | h
          · exact Or.inl (Or.inr ⟨congrArg Prod.fst h, congrArg Prod.snd h⟩)
          · exact Or.inr h

lemma adjEdgeFoldUnd_nbr (edges : Edges) :
    ∀ (st : Adj) (v x : Vtx),
      x ∈ (edges.foldl (adjEdgeStep false) st).nbr v ↔
        x ∈ st.nbr v ∨ rel edges v x := by
  induction edges with
  | nil => intro st v x; simp [rel]
  | cons e es ih =>
      intro st v x
      rw [List.foldl_cons]
      show x ∈ (es.foldl (adjEdgeStep false)
        (adjInsert (adjInsert st e.1 e.2) e.2 e.1)).nbr v ↔ _
      rw [ih, adjInsert_nbr, adjInsert_nbr]
      unfold rel
      constructor
      · rintro (((h | ⟨rfl, rfl⟩) | ⟨rfl, rfl⟩) | h | h)
        · exact Or.inl h
        · exact Or.inr (Or.inl (List.mem_cons_self _ _))
        · exact Or.inr (Or.inr (List.mem_cons_self _ _))
        · exact Or.inr (Or.inl (List.mem_cons_of_mem _ h))
        · exact Or.inr (Or.inr (List.mem_cons_of_mem _ h))
      · rintro (h | h | h)
        · exact Or.inl (Or.inl (Or.inl h))
        · rcases List.mem_cons.1 h with h | h
          · exact Or.inl (Or.inl (Or.inr
              ⟨congrArg Prod.fst h, congrArg Prod.snd h⟩))
          · exact Or.inr (Or.inl h)
        · rcases List.mem_cons.1 h with h | h
          · exact Or.inl (Or.inr ⟨congrArg Prod.snd h, congrArg Prod.fst h⟩)
          · exact Or.inr (Or.inr h)

lemma adjEdgeFoldDir_keys (edges : Edges) :
    ∀ (st : Adj) (v : Vtx),
      v ∈ (edges.foldl (adjEdgeStep true) st).keys ↔
        v ∈ st.keys ∨ ∃ d, (v, d) ∈ edges := by
  induction edges with
  | nil => intro st v; simp
  | cons e es ih =>
      intro st v
      rw [List.foldl_cons]
      show v ∈ (es.foldl (adjEdgeStep true) (adjInsert st e.1 e.2)).keys ↔ _
      rw [ih, adjInsert_keys]
      constructor
      · rintro ((h | rfl) | ⟨d, h⟩)
        · exact Or.inl h
        · exact Or.inr ⟨e.2, List.mem_cons_self _ _⟩
        · exact Or.inr ⟨d, List.mem_cons_of_mem _ h⟩
      · rintro (h | ⟨d, h⟩)
        · exact Or.inl (Or.inl h)
        · rcases List.mem_cons.1 h with h | h
          · exact Or.inl (Or.inr (congrArg Prod.fst h))
          · exact Or.inr ⟨d, h⟩

lemma adjEdgeFoldUnd_keys (edges : Edges) :
    ∀ (st : Adj) (v : Vtx),
      v ∈ (edges.foldl (adjEdgeStep false) st).keys ↔
        v ∈ st.keys ∨ v ∈ vset edges := by
  induction edges with
  | nil => intro st v; simp [vset]
  | cons e es ih =>
      intro st v
      rw [List.foldl_cons]
      show v ∈ (es.foldl (adjEdgeStep false)
        (adjInsert (adjInsert st e.1 e.2) e.2 e.1)).keys ↔ _
      rw [ih, adjInsert_keys, adjInsert_keys]
      simp only [vset, List.mem_toFinset, vtxList_cons, List.mem_cons]
      tauto

lemma adjVertexFold_nbr (vertices : List Vtx) :
    ∀ st : Adj, (vertices.foldl adjVertexStep st).nbr = st.nbr := by
  induction vertices with
  | nil => intro st; rfl
  | cons v vs ih =>
      intro st
      rw [List.foldl_cons, ih]
      unfold adjVertexStep
      by_cases h : v ∈ st.keys <;> simp [h]

lemma adjVertexFold_keys (vertices : List Vtx) :
    ∀ (st : Adj) (v : Vtx),
      v ∈ (vertices.foldl adjVertexStep st).keys ↔ v ∈ st.keys ∨ v ∈ vertices := by
  induction vertices with
  | nil => intro st v; simp
  | cons w ws ih =>
      intro st v
      rw [List.foldl_cons, ih]
      unfold adjVertexStep
      by_cases h : w ∈ st.keys
      · rw [if_pos h]
        constructor
        · rintro (hv | hv)
          · exact Or.inl hv
          · exact Or.inr (List.mem_cons_of_mem _ hv)
        · rintro (hv | hv)
          · exact Or.inl hv
          · rcases List.mem_cons.1 hv with rfl | hv
            · exact Or.inl h
            · exact Or.inr hv
      · rw [if_neg h]
        simp only [List.mem_append, List.mem_singleton, List.mem_cons]
        tauto

/-- Neighbor membership for directed `adjacency`: exactly the edge targets. -/
lemma adjacency_dir_nbr (edges : Edges) (vertices : List Vtx) (v x : Vtx) :
    x ∈ (adjacency edges vertices true).nbr v ↔ (v, x) ∈ edges := by
  unfold adjacency
  rw [adjVertexFold_nbr, adjEdgeFoldDir_nbr]
  simp

/-- Neighbor membership for undirected `adjacency`: both edge directions. -/
lemma adjacency_und_nbr (edges : Edges) (vertices : List Vtx) (v x : Vtx) :
    x ∈ (adjacency edges vertices false).nbr v ↔ rel edges v x := by
  unfold adjacency
  rw [adjVertexFold_nbr, adjEdgeFoldUnd_nbr]
  simp

lemma adjacency_dir_keys (edges : Edges) (vertices : List Vtx) (v : Vtx) :
    v ∈ (adjacency edges vertices true).keys ↔
      (∃ d, (v, d) ∈ edges) ∨ v ∈ vertices := by
  unfold adjacency
  rw [adjVertexFold_keys, adjEdgeFoldDir_keys]
  simp

lemma adjacency_und_keys (edges : Edges) (vertices : List Vtx) (v : Vtx) :
    v ∈ (adjacency edges vertices false).keys ↔ v ∈ vset edges ∨ v ∈ vertices := by
  unfold adjacency
  rw [adjVertexFold_keys, adjEdgeFoldUnd_keys]
  simp

lemma adjacency_undirected_nbr (edges : Edges) (v x : Vtx) :
    x ∈ (adjacency_undirected edges).nbr v ↔ rel edges v x := by
  unfold adjacency_undirected
  rw [adjEdgeFoldUnd_nbr]
  simp

lemma adjacency_undirected_keys (edges : Edges) (v : Vtx) :
    v ∈ (adjacency_undirected edges).keys ↔ v ∈ vset edges := by
  unfold adjacency_undirected
  rw [adjEdgeFoldUnd_keys]
  simp

/-! ## Worklist traversal shared by `components_stack` (630-670) and
`components_bfs` (674-710)

Both functions run the same loop: pop a vertex, append it to the current
component, and push every unvisited neighbor after marking it visited.  They
differ only in where the worklist is popped/pushed (LIFO vs FIFO); we model
the worklist with its next-popped element at the head, so the stack pushes at
the head and the queue pushes at the tail.  The Python `while` loop becomes a
fuel-indexed recursion; the fuel is provably sufficient (`searchGo_spec`). -/

/-- Push for `components_stack`: `list.append` paired with `list.pop`. -/
def stackPush (w : List Vtx) (v : Vtx) : List Vtx := v :: w

/-- Push for `components_bfs`: `deque.append` paired with `deque.popleft`. -/
def queuePush (w : List Vtx) (v : Vtx) : List Vtx := w ++ [v]

/-- One pass over the popped vertex's neighbors: each unvisited neighbor is
marked visited and pushed onto the worklist. -/
def pushStep (push : List Vtx → Vtx → List Vtx)
    (p : Finset Vtx × List Vtx) (d : Vtx) : Finset Vtx × List Vtx :=
  if d ∈ p.1 then p else (insert d p.1, push p.2 d)

/-- The worklist loop of `stack_search` / `bfs`: pop the head, emit it into
the component, then process its neighbors.  Runs on fuel; `none` models a
loop that was not given enough fuel (never happens for the fuel we supply). -/
def searchGo (push : List Vtx → Vtx → List Vtx) (adj : Vtx → List Vtx) :
    Nat → Finset Vtx → List Vtx → List Vtx → Option (Finset Vtx × List Vtx)
  | _, visited, [], acc => some (visited, acc)
  | 0, _, _ :: _, _ => none
  | fuel + 1, visited, src :: work, acc =>
      let p := (adj src).foldl (pushStep push) (visited, work)
      searchGo push adj fuel p.1 p.2 (acc ++ [src])

/-- Effect of the neighbor pass: all neighbors become visited; the worklist
gains exactly the previously unvisited ones; the length grows by their
number. -/
lemma pushFold_spec (push : List Vtx → Vtx → List Vtx)
    (hpmem : ∀ w v x, x ∈ push w v ↔ x ∈ w ∨ x = v)
    (hplen : ∀ w v, (push w v).length = w.length + 1) (l : List Vtx) :
    ∀ (vis : Finset Vtx) (work : List Vtx),
      (l.foldl (pushStep push) (vis, work)).1 = vis ∪ l.toFinset ∧
      (∀ x, x ∈ (l.foldl (pushStep push) (vis, work)).2 ↔
        x ∈ work ∨ (x ∈ l ∧ x ∉ vis)) ∧
      (l.foldl (pushStep push) (vis, work)).2.length
        = work.length + (l.toFinset \ vis).card := by
  induction l with
  | nil => intro vis work; simp
  | cons d l ih =>
      intro vis work
      rw [List.foldl_cons]
      by_cases hd : d ∈ vis
      · have hstep : pushStep push (vis, work) d = (vis, work) := by
          simp [pushStep, hd]
        rw [hstep]
        obtain ⟨h₁, h₂, h₃⟩ := ih vis work
        refine ⟨?_, ?_, ?_⟩
        · rw [h₁]
          ext x
          simp only [Finset.mem_union, List.mem_toFinset, List.mem_cons]
          constructor
          · rintro (h | h)
            · exact Or.inl h
            · exact Or.inr (Or.inr h)
          · rintro (h | rfl | h)
            · exact Or.inl h
            · exact Or.inl hd
            · exact Or.inr h
        · intro x
          rw [h₂ x]
          constructor
          · rintro (h | ⟨hx, hxv⟩)
            · exact Or.inl h
            · exact Or.inr ⟨List.mem_cons_of_mem _ hx, hxv⟩
          · rintro (h | ⟨hx, hxv⟩)
            · exact Or.inl h
            · rcases List.mem_cons.1 hx with rfl | hx
              · exact absurd hd hxv
              · exact Or.inr ⟨hx, hxv⟩
        · rw [h₃]
          congr 2
          ext x
          simp only [Finset.mem_sdiff, List.mem_toFinset, List.mem_cons]
          constructor
          · rintro ⟨hx, hxv⟩; exact ⟨Or.inr hx, hxv⟩
          · rintro ⟨rfl | hx, hxv⟩
            · exact absurd hd hxv
            · exact ⟨hx, hxv⟩
      · have hstep : pushStep push (vis, work) d = (insert d vis, push work d) := by
          simp [pushStep, hd]
        rw [hstep]
        obtain ⟨h₁, h₂, h₃⟩ := ih (insert d vis) (push work d)
        refine ⟨?_, ?_, ?_⟩
        · rw [h₁]
          ext x
          simp only [Finset.mem_union, Finset.mem_insert, List.mem_toFinset,
            List.mem_cons]
          tauto
        · intro x
          rw [h₂ x, hpmem]
          constructor
          · rintro ((h | rfl) | ⟨hx, hxv⟩)
            · exact Or.inl h
            · exact Or.inr ⟨List.mem_cons_self _ _, hd⟩
            · refine Or.inr ⟨List.mem_cons_of_mem _ hx, fun hc => hxv ?_⟩
              exact Finset.mem_insert_of_mem hc
          · rintro (h | ⟨hx, hxv⟩)
            · exact Or.inl (Or.inl h)
            · rcases List.mem_cons.1 hx with rfl | hx
              · exact Or.inl (Or.inr rfl)
              · by_cases hxd : x = d
                · exact Or.inl (Or.inr hxd)
                · refine Or.inr ⟨hx, fun hc => ?_⟩
                  rcases Finset.mem_insert.1 hc with h | h
                  · exact hxd h
                  · exact hxv h
        · rw [h₃, hplen]
          have hset : (d :: l).toFinset \ vis
              = insert d (l.toFinset \ insert d vis) := by
            ext x
            simp only [Finset.mem_sdiff, List.mem_toFinset, List.mem_cons,
              Finset.mem_insert]
            constructor
            · rintro ⟨rfl | hx, hxv⟩
              · exact Or.inl rfl
              · by_cases hxd : x = d
                · exact Or.inl hxd
                · exact Or.inr ⟨hx, fun h => h.elim hxd hxv⟩
            · rintro (rfl | ⟨hx, hxv⟩)
              · exact ⟨Or.inl rfl, hd⟩
              · exact ⟨Or.inr hx, fun h => hxv (Or.inr h)⟩
          rw [hset, Finset.card_insert_of_not_mem (by simp)]
          omega

/-- Main correctness of the worklist loop: with enough fuel it terminates and
returns the visited set extended by the emitted vertices `δ`, where `δ`
absorbs the initial worklist, consists of vertices that were unvisited or on
the worklist, stays inside `U`, is reachable from the worklist, and is closed
under the adjacency function. -/
lemma searchGo_spec (push : List Vtx → Vtx → List Vtx)
    (hpmem : ∀ w v x, x ∈ push w v ↔ x ∈ w ∨ x = v)
    (hplen : ∀ w v, (push w v).length = w.length + 1)
    (adj : Vtx → List Vtx) (R : Vtx → Vtx → Prop)
    (hadjR : ∀ v w, w ∈ adj v → R v w)
    (U : Finset Vtx) (hadjU : ∀ v w, w ∈ adj v → w ∈ U) :
    ∀ (fuel : Nat) (visited : Finset Vtx) (work acc : List Vtx),
      (∀ v ∈ work, v ∈ visited) →
      (∀ v ∈ work, v ∈ U) →
      visited ⊆ U →
      2 * (U \ visited).card + work.length ≤ fuel →
      ∃ δ : List Vtx,
        searchGo push adj fuel visited work acc
          = some (visited ∪ δ.toFinset, acc ++ δ) ∧
        (∀ w ∈ work, w ∈ δ) ∧
        (∀ w ∈ δ, w ∈ work ∨ w ∉ visited) ∧
        (∀ w ∈ δ, w ∈ U) ∧
        (∀ w ∈ δ, ∃ s ∈ work, Relation.ReflTransGen R s w) ∧
        (∀ w ∈ δ, ∀ x ∈ adj w, x ∈ visited ∪ δ.toFinset) := by
  intro fuel
  induction fuel with
  | zero =>
      intro visited work acc hwv hwU hvU hfuel
      match work with
      | [] =>
          refine ⟨[], ?_⟩
          simp [searchGo]
      | w :: ws => simp at hfuel
  | succ fuel ih =>
      intro visited work acc hwv hwU hvU hfuel
      match work with
      | [] =>
          refine ⟨[], ?_⟩
          simp [searchGo]
      | src :: work =>
          obtain ⟨h₁, h₂, h₃⟩ :=
            pushFold_spec push hpmem hplen (adj src) visited work
          set p := (adj src).foldl (pushStep push) (visited, work) with hp
          have hstep : searchGo push adj (fuel + 1) visited (src :: work) acc
              = searchGo push adj fuel p.1 p.2 (acc ++ [src]) := rfl
          have hsrcU : src ∈ U := hwU src (List.mem_cons_self _ _)
          have hsrcv : src ∈ visited := hwv src (List.mem_cons_self _ _)
          have hadjsub : (adj src).toFinset ⊆ U := by
            intro x hx
            exact hadjU src x (List.mem_toFinset.1 hx)
          -- fuel accounting
          have hksub : (adj src).toFinset \ visited ⊆ U \ visited := by
            intro x hx
            rcases Finset.mem_sdiff.1 hx with ⟨hx₁, hx₂⟩
            exact Finset.mem_sdiff.2 ⟨hadjsub hx₁, hx₂⟩
          have hcard : (U \ p.1).card + ((adj src).toFinset \ visited).card
              = (U \ visited).card := by
            rw [h₁]
            have hdiff : U \ (visited ∪ (adj src).toFinset)
                = (U \ visited) \ ((adj src).toFinset \ visited) := by
              ext x
              simp only [Finset.mem_sdiff, Finset.mem_union]
              tauto
            rw [hdiff, Finset.card_sdiff hksub]
            have := Finset.card_le_card hksub
            omega
          have hfuel' : 2 * (U \ p.1).card + p.2.length ≤ fuel := by
            rw [h₃]
            simp only [List.length_cons] at hfuel
            omega
          have hwv' : ∀ v ∈ p.2, v ∈ p.1 := by
            intro v hv
            rw [h₁]
            rcases (h₂ v).1 hv with hv | ⟨hv, -⟩
            · exact Finset.mem_union_left _ (hwv v (List.mem_cons_of_mem _ hv))
            · exact Finset.mem_union_right _ (List.mem_toFinset.2 hv)
          have hwU' : ∀ v ∈ p.2, v ∈ U := by
            intro v hv
            rcases (h₂ v).1 hv with hv | ⟨hv, -⟩
            · exact hwU v (List.mem_cons_of_mem _ hv)
            · exact hadjU src v hv
          have hvU' : p.1 ⊆ U := by
            rw [h₁]
            intro x hx
            rcases Finset.mem_union.1 hx with hx | hx
            · exact hvU hx
            · exact hadjsub hx
          obtain ⟨δ, hrun, hpop, hfresh, hδU, hreach, hclosed⟩ :=
            ih p.1 p.2 (acc ++ [src]) hwv' hwU' hvU' hfuel'
          refine ⟨src :: δ, ?_, ?_, ?_, ?_, ?_, ?_⟩
          · rw [hstep, hrun, h₁]
            have hacc : acc ++ [src] ++ δ = acc ++ src :: δ := by simp
            have hvis : visited ∪ (adj src).toFinset ∪ δ.toFinset
                = visited ∪ (src :: δ).toFinset := by
              ext x
              simp only [Finset.mem_union, List.mem_toFinset, List.mem_cons]
              constructor
              · rintro ((hx | hx) | hx)
                · exact Or.inl hx
                · by_cases hxv : x ∈ visited
                  · exact Or.inl hxv
                  · refine Or.inr (Or.inr ?_)
                    exact hpop x ((h₂ x).2 (Or.inr ⟨hx, hxv⟩))
                · exact Or.inr (Or.inr hx)
              · rintro (hx | rfl | hx)
                · exact Or.inl (Or.inl hx)
                · exact Or.inl (Or.inl hsrcv)
                · exact Or.inr hx
            rw [hacc, hvis]
          · intro w hw
            rcases List.mem_cons.1 hw with rfl | hw
            · exact List.mem_cons_self _ _
            · refine List.mem_cons_of_mem _ (hpop w ?_)
              exact (h₂ w).2 (Or.inl hw)
          · intro w hw
            rcases List.mem_cons.1 hw with rfl | hw
            · exact Or.inl (List.mem_cons_self _ _)
            · rcases hfresh w hw with hw' | hw'
              · rcases (h₂ w).1 hw' with hw'' | ⟨-, hw''⟩
                · exact Or.inl (List.mem_cons_of_mem _ hw'')
                · exact Or.inr hw''
              · refine Or.inr fun hc => hw' ?_
                rw [h₁]
                exact Finset.mem_union_left _ hc
          · intro w hw
            rcases List.mem_cons.1 hw with rfl | hw
            · exact hsrcU
            · exact hδU w hw
          · intro w hw
            rcases List.mem_cons.1 hw with rfl | hw
            · exact ⟨w, List.mem_cons_self _ _, Relation.ReflTransGen.refl⟩
            · obtain ⟨s, hs, hreach'⟩ := hreach w hw
              rcases (h₂ s).1 hs with hs' | ⟨hs', -⟩
              · exact ⟨s, List.mem_cons_of_mem _ hs', hreach'⟩
              · refine ⟨src, List.mem_cons_self _ _, ?_⟩
                exact Relation.ReflTransGen.trans
                  (Relation.ReflTransGen.single (hadjR src s hs')) hreach'
          · intro w hw x hx
            have hsub : p.1 ∪ δ.toFinset ⊆
                visited ∪ (src :: δ).toFinset := by
              rw [h₁]
              intro y hy
              simp only [Finset.mem_union, List.mem_toFinset, List.mem_cons] at hy ⊢
              rcases hy with (hy | hy) | hy
              · exact Or.inl hy
              · by_cases hyv : y ∈ visited
                · exact Or.inl hyv
                · exact Or.inr (Or.inr (hpop y ((h₂ y).2 (Or.inr ⟨hy, hyv⟩))))
              · exact Or.inr (Or.inr hy)
            rcases List.mem_cons.1 hw with rfl | hw
            · refine hsub ?_
              rw [h₁]
              exact Finset.mem_union_left _
                (Finset.mem_union_right _ (List.mem_toFinset.2 hx))
            · exact hsub (hclosed w hw x hx)

/-- Outer loop of the traversal-based variants: for each key of the adjacency
structure in order, if unvisited, run one search and append the produced
component. -/
def componentsLoop (search : Finset Vtx → Vtx → Option (Finset Vtx × List Vtx)) :
    List Vtx → Finset Vtx → List (List Vtx) → Option (List (List Vtx))
  | [], _, comps => some comps
  | k :: ks, visited, comps =>
      if k ∈ visited then componentsLoop search ks visited comps
      else
        match search visited k with
        | none => none
        | some st => componentsLoop search ks st.1 (comps ++ [st.2])

/-- Contract of one search call, shared by the stack search, the BFS and the
recursive DFS: starting from an unvisited vertex it returns the visited set
extended by one new component that contains the start, is fresh, stays in
`U`, is reachable from the start, and is closed under `R` up to previously
visited vertices. -/
def SearchSpec (U : Finset Vtx) (R : Vtx → Vtx → Prop)
    (search : Finset Vtx → Vtx → Option (Finset Vtx × List Vtx)) : Prop :=
  ∀ visited start, visited ⊆ U → start ∈ U → start ∉ visited →
    ∃ comp : List Vtx,
      search visited start = some (visited ∪ comp.toFinset, comp) ∧
      start ∈ comp ∧
      (∀ w ∈ comp, w ∉ visited) ∧
      (∀ w ∈ comp, w ∈ U) ∧
      (∀ w ∈ comp, Relation.ReflTransGen R start w) ∧
      (∀ w ∈ comp, ∀ x, R w x → x ∈ visited ∪ comp.toFinset)

lemma rtg_symm {R : Vtx → Vtx → Prop} (hsym : ∀ a b, R a b → R b a)
    {a b : Vtx} (h : Relation.ReflTransGen R a b) :
    Relation.ReflTransGen R b a :=
  Relation.ReflTransGen.symmetric (fun _ _ => hsym _ _) h

/-- Correctness of the outer loop: assuming the search contract, the loop
succeeds and yields components that cover all keys, stay in `U`, are
internally connected, closed under `R`, and nonempty. -/
lemma componentsLoop_spec (U : Finset Vtx) (R : Vtx → Vtx → Prop)
    (hsym : ∀ a b, R a b → R b a)
    (search : Finset Vtx → Vtx → Option (Finset Vtx × List Vtx))
    (hs : SearchSpec U R search) :
    ∀ (keys : List Vtx) (visited : Finset Vtx) (comps : List (List Vtx)),
      (∀ k ∈ keys, k ∈ U) →
      visited ⊆ U →
      (∀ v ∈ visited, ∃ c ∈ comps, v ∈ c) →
      (∀ c ∈ comps, ∀ v ∈ c, v ∈ visited) →
      (∀ c ∈ comps, ∀ u ∈ c, ∀ v ∈ c, Relation.ReflTransGen R u v) →
      (∀ c ∈ comps, ∀ u ∈ c, ∀ x, R u x → x ∈ c) →
      (∀ c ∈ comps, c ≠ []) →
      (∀ c ∈ comps, ∀ v ∈ c, v ∈ U) →
      ∃ comps2, componentsLoop search keys visited comps = some comps2 ∧
        (∀ c ∈ comps, c ∈ comps2) ∧
        (∀ k ∈ keys, ∃ c ∈ comps2, k ∈ c) ∧
        (∀ c ∈ comps2, ∀ v ∈ c, v ∈ U) ∧
        (∀ c ∈ comps2, ∀ u ∈ c, ∀ v ∈ c, Relation.ReflTransGen R u v) ∧
        (∀ c ∈ comps2, ∀ u ∈ c, ∀ x, R u x → x ∈ c) ∧
        (∀ c ∈ comps2, c ≠ []) := by
  intro keys
  induction keys with
  | nil =>
      intro visited comps hkU hvU hcover hsub hconn hclosed hne hcU
      exact ⟨comps, rfl, fun c hc => hc, by simp, hcU, hconn, hclosed, hne⟩
  | cons k ks ih =>
      intro visited comps hkU hvU hcover hsub hconn hclosed hne hcU
      by_cases hk : k ∈ visited
      · have hrun : componentsLoop search (k :: ks) visited comps
            = componentsLoop search ks visited comps := by
          simp [componentsLoop, hk]
        obtain ⟨comps2, h₁, hold, hkey, h₃, h₄, h₅, h₆⟩ :=
          ih visited comps (fun x hx => hkU x (List.mem_cons_of_mem _ hx))
            hvU hcover hsub hconn hclosed hne hcU
        refine ⟨comps2, hrun ▸ h₁, hold, ?_, h₃, h₄, h₅, h₆⟩
        intro x hx
        rcases List.mem_cons.1 hx with rfl | hx
        · obtain ⟨c, hc, hxc⟩ := hcover x hk
          exact ⟨c, hold c hc, hxc⟩
        · exact hkey x hx
      · have hkU' : k ∈ U := hkU k (List.mem_cons_self _ _)
        obtain ⟨comp, hsearch, hstart, hfresh, hcompU, hreach, hcl⟩ :=
          hs visited k hvU hkU' hk
        have hrun : componentsLoop search (k :: ks) visited comps
            = componentsLoop search ks (visited ∪ comp.toFinset)
                (comps ++ [comp]) := by
          simp [componentsLoop, hk, hsearch]
        -- closure of the new component can be strengthened: a neighbor in
        -- the old visited set would put a fresh vertex in an old component.
        have hclcomp : ∀ u ∈ comp, ∀ x, R u x → x ∈ comp := by
          intro u hu x hR
          rcases Finset.mem_union.1 (hcl u hu x hR) with hx | hx
          · obtain ⟨c, hc, hxc⟩ := hcover x hx
            have hux : u ∈ c := hclosed c hc x hxc u (hsym _ _ hR)
            exact absurd (hsub c hc u hux) (hfresh u hu)
          · exact List.mem_toFinset.1 hx
        have hvU' : visited ∪ comp.toFinset ⊆ U := by
          intro x hx
          rcases Finset.mem_union.1 hx with hx | hx
          · exact hvU hx
          · exact hcompU x (List.mem_toFinset.1 hx)
        have hcover' : ∀ v ∈ visited ∪ comp.toFinset,
            ∃ c ∈ comps ++ [comp], v ∈ c := by
          intro v hv
          rcases Finset.mem_union.1 hv with hv | hv
          · obtain ⟨c, hc, hvc⟩ := hcover v hv
            exact ⟨c, List.mem_append.2 (Or.inl hc), hvc⟩
          · exact ⟨comp, List.mem_append.2 (Or.inr (List.mem_singleton.2 rfl)),
              List.mem_toFinset.1 hv⟩
        have hsub' : ∀ c ∈ comps ++ [comp], ∀ v ∈ c,
            v ∈ visited ∪ comp.toFinset := by
          intro c hc v hv
          rcases List.mem_append.1 hc with hc | hc
          · exact Finset.mem_union_left _ (hsub c hc v hv)
          · rcases List.mem_singleton.1 hc with rfl
            exact Finset.mem_union_right _ (List.mem_toFinset.2 hv)
        have hconn' : ∀ c ∈ comps ++ [comp], ∀ u ∈ c, ∀ v ∈ c,
            Relation.ReflTransGen R u v := by
          intro c hc u hu v hv
          rcases List.mem_append.1 hc with hc | hc
          · exact hconn c hc u hu v hv
          · rcases List.mem_singleton.1 hc with rfl
            exact Relation.ReflTransGen.trans
              (rtg_symm hsym (hreach u hu)) (hreach v hv)
        have hclosed' : ∀ c ∈ comps ++ [comp], ∀ u ∈ c, ∀ x, R u x → x ∈ c := by
          intro c hc u hu x hR
          rcases List.mem_append.1 hc with hc | hc
          · exact hclosed c hc u hu x hR
          · rcases List.mem_singleton.1 hc with rfl
            exact hclcomp u hu x hR
        have hne' : ∀ c ∈ comps ++ [comp], c ≠ [] := by
          intro c hc
          rcases List.mem_append.1 hc with hc | hc
          · exact hne c hc
          · rcases List.mem_singleton.1 hc with rfl
            intro hceq
            rw [hceq] at hstart
            exact List.not_mem_nil _ hstart
        have hcU' : ∀ c ∈ comps ++ [comp], ∀ v ∈ c, v ∈ U := by
          intro c hc v hv
          rcases List.mem_append.1 hc with hc | hc
          · exact hcU c hc v hv
          · rcases List.mem_singleton.1 hc with rfl
            exact hcompU v hv
        obtain ⟨comps2, h₁, hold, hkey, h₃, h₄, h₅, h₆⟩ :=
          ih (visited ∪ comp.toFinset) (comps ++ [comp])
            (fun x hx => hkU x (List.mem_cons_of_mem _ hx))
            hvU' hcover' hsub' hconn' hclosed' hne' hcU'
        refine ⟨comps2, hrun ▸ h₁, ?_, ?_, h₃, h₄, h₅, h₆⟩
        · intro c hc
          exact hold c (List.mem_append.2 (Or.inl hc))
        · intro x hx
          rcases List.mem_cons.1 hx with rfl | hx
          · exact ⟨comp,
              hold comp (List.mem_append.2 (Or.inr (List.mem_singleton.2 rfl))),
              hstart⟩
          · exact hkey x hx

/-- Packaging: a successful loop over keys that enumerate the full vertex set
produces a valid `IsComponents` answer. -/
lemma componentsLoop_isComponents (edges : Edges) (extra : List Vtx)
    (search : Finset Vtx → Vtx → Option (Finset Vtx × List Vtx))
    (hs : SearchSpec (uset edges extra) (rel edges) search)
    (keys : List Vtx) (hkeys : ∀ k, k ∈ keys ↔ k ∈ uset edges extra) :
    ∃ comps2, componentsLoop search keys ∅ [] = some comps2 ∧
      IsComponents edges extra ((comps2.map List.toFinset).toFinset) := by
  obtain ⟨comps2, h₁, -, hkey, h₃, h₄, h₅, h₆⟩ :=
    componentsLoop_spec (uset edges extra) (rel edges)
      (fun _ _ => rel_symm) search hs keys ∅ []
      (fun k hk => (hkeys k).1 hk) (by simp) (by simp) (by simp)
      (by simp) (by simp) (by simp) (by simp)
  refine ⟨comps2, h₁, ?_, ?_, ?_, ?_, ?_⟩
  · intro C hC
    obtain ⟨c, hc, rfl⟩ := List.mem_map.1 (List.mem_toFinset.1 hC)
    obtain hne := h₆ c hc
    rcases c with _ | ⟨v, c⟩
    · exact absurd rfl hne
    · exact ⟨v, by simp⟩
  · intro C hC v hv
    obtain ⟨c, hc, rfl⟩ := List.mem_map.1 (List.mem_toFinset.1 hC)
    exact h₃ c hc v (List.mem_toFinset.1 hv)
  · intro v hv
    obtain ⟨c, hc, hvc⟩ := hkey v ((hkeys v).2 hv)
    exact ⟨c.toFinset, List.mem_toFinset.2 (List.mem_map.2 ⟨c, hc, rfl⟩),
      List.mem_toFinset.2 hvc⟩
  · intro C hC u hu v hv
    obtain ⟨c, hc, rfl⟩ := List.mem_map.1 (List.mem_toFinset.1 hC)
    exact h₄ c hc u (List.mem_toFinset.1 hu) v (List.mem_toFinset.1 hv)
  · intro C hC u hu v hrel
    obtain ⟨c, hc, rfl⟩ := List.mem_map.1 (List.mem_toFinset.1 hC)
    exact List.mem_toFinset.2 (h₅ c hc u (List.mem_toFinset.1 hu) v hrel)

/-- Fuel that provably suffices for every worklist search on this edge list. -/
def searchFuel (edges : Edges) : Nat := 2 * (vtxList edges).length + 1

/-- Model of `stack_search` inside `components_stack`: mark and push the
start, then run the worklist loop LIFO. -/
def stack_search (edges : Edges) (visited : Finset Vtx) (start : Vtx) :
    Option (Finset Vtx × List Vtx) :=
  searchGo stackPush (adjacency_undirected edges).nbr (searchFuel edges)
    (insert start visited) [start] []

/-- Model of `bfs` inside `components_bfs`: mark and enqueue the start, then
run the worklist loop FIFO. -/
def bfs_search (edges : Edges) (visited : Finset Vtx) (start : Vtx) :
    Option (Finset Vtx × List Vtx) :=
  searchGo queuePush (adjacency_undirected edges).nbr (searchFuel edges)
    (insert start visited) [start] []

/-- Model of `components_stack` from dicts.py (the `none` branch is provably
never taken: the fuel suffices). -/
def components_stack (edges : Edges) : Finset (Finset Vtx) :=
  match componentsLoop (stack_search edges) (adjacency_undirected edges).keys ∅ [] with
  | some comps => (comps.map List.toFinset).toFinset
  | none => ∅

/-- Model of `components_bfs` from dicts.py (the `none` branch is provably
never taken: the fuel suffices). -/
def components_bfs (edges : Edges) : Finset (Finset Vtx) :=
  match componentsLoop (bfs_search edges) (adjacency_undirected edges).keys ∅ [] with
  | some comps => (comps.map List.toFinset).toFinset
  | none => ∅

/-- Both worklist searches satisfy the search contract with respect to the
undirected link relation and the mentioned-vertex set. -/
lemma searchGo_searchSpec (edges : Edges) (push : List Vtx → Vtx → List Vtx)
    (hpmem : ∀ w v x, x ∈ push w v ↔ x ∈ w ∨ x = v)
    (hplen : ∀ w v, (push w v).length = w.length + 1) :
    SearchSpec (vset edges) (rel edges)
      (fun visited start =>
        searchGo push (adjacency_undirected edges).nbr (searchFuel edges)
          (insert start visited) [start] []) := by
  intro visited start hvU hstartU hstart
  have hadjR : ∀ v w, w ∈ (adjacency_undirected edges).nbr v → rel edges v w :=
    fun v w hw => (adjacency_undirected_nbr edges v w).1 hw
  have hadjU : ∀ v w, w ∈ (adjacency_undirected edges).nbr v → w ∈ vset edges :=
    fun v w hw => rel_snd_mem (hadjR v w hw)
  have hins : insert start visited ⊆ vset edges := by
    intro x hx
    rcases Finset.mem_insert.1 hx with rfl | hx
    · exact hstartU
    · exact hvU hx
  have hfuel : 2 * (vset edges \ insert start visited).card + [start].length
      ≤ searchFuel edges := by
    have h₁ : (vset edges \ insert start visited).card ≤ (vset edges).card :=
      Finset.card_le_card (Finset.sdiff_subset)
    have h₂ : (vset edges).card ≤ (vtxList edges).length :=
      List.toFinset_card_le _
    simp only [List.length_singleton, searchFuel]
    omega
  obtain ⟨δ, hrun, hpop, hfresh, hδU, hreach, hclosed⟩ :=
    searchGo_spec push hpmem hplen (adjacency_undirected edges).nbr
      (rel edges) hadjR (vset edges) hadjU (searchFuel edges)
      (insert start visited) [start] []
      (by intro v hv; rcases List.mem_singleton.1 hv with rfl; simp)
      (by intro v hv; rcases List.mem_singleton.1 hv with rfl; exact hstartU)
      hins hfuel
  have hstartδ : start ∈ δ := hpop start (List.mem_singleton.2 rfl)
  refine ⟨δ, ?_, hstartδ, ?_, hδU, ?_, ?_⟩
  · show searchGo push (adjacency_undirected edges).nbr (searchFuel edges)
        (insert start visited) [start] [] = some (visited ∪ δ.toFinset, δ)
    rw [hrun]
    have : insert start visited ∪ δ.toFinset = visited ∪ δ.toFinset := by
      ext x
      simp only [Finset.mem_union, Finset.mem_insert]
      constructor
      · rintro ((rfl | hx) | hx)
        · exact Or.inr (List.mem_toFinset.2 hstartδ)
        · exact Or.inl hx
        · exact Or.inr hx
      · rintro (hx | hx)
        · exact Or.inl (Or.inr hx)
        · exact Or.inr hx
    rw [this]
    simp
  · intro w hw
    rcases hfresh w hw with hw' | hw'
    · rcases List.mem_singleton.1 hw' with rfl
      exact hstart
    · exact fun hc => hw' (Finset.mem_insert_of_mem hc)
  · intro w hw
    obtain ⟨s, hs, hr⟩ := hreach w hw
    rcases List.mem_singleton.1 hs with rfl
    exact hr
  · intro w hw x hR
    have hx : x ∈ (adjacency_undirected edges).nbr w :=
      (adjacency_undirected_nbr edges w x).2 hR
    have := hclosed w hw x hx
    rcases Finset.mem_union.1 this with hx' | hx'
    · rcases Finset.mem_insert.1 hx' with rfl | hx'
      · exact Finset.mem_union_right _ (List.mem_toFinset.2 hstartδ)
      · exact Finset.mem_union_left _ hx'
    · exact Finset.mem_union_right _ hx'

lemma uset_nil (edges : Edges) : uset edges [] = vset edges := by
  simp [uset]

/-- Correctness of `components_stack` against the canonical specification. -/
theorem components_stack_isComponents (edges : Edges) :
    IsComponents edges [] (components_stack edges) := by
  have hs : SearchSpec (uset edges []) (rel edges) (stack_search edges) := by
    rw [uset_nil]
    exact searchGo_searchSpec edges stackPush
      (fun w v x => by simp [stackPush, List.mem_cons, or_comm])
      (fun w v => by simp [stackPush])
  obtain ⟨comps2, h₁, h₂⟩ :=
    componentsLoop_isComponents edges [] (stack_search edges) hs
      (adjacency_undirected edges).keys
      (fun k => by rw [adjacency_undirected_keys, uset_nil])
  unfold components_stack
  rw [h₁]
  exact h₂

/-- Correctness of `components_bfs` against the canonical specification. -/
theorem components_bfs_isComponents (edges : Edges) :
    IsComponents edges [] (components_bfs edges) := by
  have hs : SearchSpec (uset edges []) (rel edges) (bfs_search edges) := by
    rw [uset_nil]
    exact searchGo_searchSpec edges queuePush
      (fun w v x => by simp [queuePush])
      (fun w v => by simp [queuePush])
  obtain ⟨comps2, h₁, h₂⟩ :=
    componentsLoop_isComponents edges [] (bfs_search edges) hs
      (adjacency_undirected edges).keys
      (fun k => by rw [adjacency_undirected_keys, uset_nil])
  unfold components_bfs
  rw [h₁]
  exact h₂

/-! ## Recursive DFS variants: `components_dfs_rec` (537-569) and
`components_dfs` (499-533)

Python executes these with a bounded call stack (RecursionError beyond the
interpreter's recursion limit, 1000 by default).  We model the recursion
depth explicitly with fuel: a call with exhausted fuel returns `none`, which
models the `RecursionError` propagating out of the call.  `dfs` of
`components_dfs_rec` checks the visited set at entry; `explore` of
`components_dfs` checks it at each call site instead. -/

/-- Model of `dfs` inside `components_dfs_rec`: return if visited, else mark,
emit, and recurse into every neighbor at one less depth. -/
def dfsRec (adj : Vtx → List Vtx) :
    Nat → Vtx → Finset Vtx × List Vtx → Option (Finset Vtx × List Vtx)
  | 0, _, _ => none
  | fuel + 1, src, st =>
      if src ∈ st.1 then some st
      else (adj src).foldl (fun ost d => ost.bind (dfsRec adj fuel d))
        (some (insert src st.1, st.2 ++ [src]))

/-- Model of `explore` inside `components_dfs`: mark, emit, and recurse into
every neighbor that is unvisited at its turn. -/
def exploreRec (adj : Vtx → List Vtx) :
    Nat → Vtx → Finset Vtx × List Vtx → Option (Finset Vtx × List Vtx)
  | 0, _, _ => none
  | fuel + 1, src, st =>
      (adj src).foldl
        (fun ost d => ost.bind
          (fun st2 => if d ∈ st2.1 then some st2 else exploreRec adj fuel d st2))
        (some (insert src st.1, st.2 ++ [src]))

lemma bindFold_none (g : Vtx → Finset Vtx × List Vtx → Option (Finset Vtx × List Vtx))
    (l : List Vtx) :
    l.foldl (fun ost d => ost.bind (g d)) none = none := by
  induction l with
  | nil => rfl
  | cons d rest ih => simpa using ih

/-- Correctness of `dfs` whenever it returns: the result extends the state by
a block `δ` of previously unvisited vertices, all reachable from `src`, each
with all its neighbors visited afterwards; `src` itself ends up visited. -/
lemma dfsRec_spec (adj : Vtx → List Vtx) (R : Vtx → Vtx → Prop)
    (hadjR : ∀ v w, w ∈ adj v → R v w) :
    ∀ (fuel : Nat) (src : Vtx) (st out : Finset Vtx × List Vtx),
      dfsRec adj fuel src st = some out →
      ∃ δ : List Vtx, out = (st.1 ∪ δ.toFinset, st.2 ++ δ) ∧
        (∀ w ∈ δ, w ∉ st.1) ∧
        (∀ w ∈ δ, Relation.ReflTransGen R src w) ∧
        (∀ w ∈ δ, ∀ x ∈ adj w, x ∈ st.1 ∪ δ.toFinset) ∧
        src ∈ st.1 ∪ δ.toFinset := by
  intro fuel
  induction fuel with
  | zero =>
      intro src st out h
      simp [dfsRec] at h
  | succ fuel ih =>
      have hQ : ∀ (l : List Vtx) (st out : Finset Vtx × List Vtx),
          l.foldl (fun ost d => ost.bind (dfsRec adj fuel d)) (some st)
            = some out →
          ∃ δ : List Vtx, out = (st.1 ∪ δ.toFinset, st.2 ++ δ) ∧
            (∀ w ∈ δ, w ∉ st.1) ∧
            (∀ w ∈ δ, ∃ d ∈ l, Relation.ReflTransGen R d w) ∧
            (∀ w ∈ δ, ∀ x ∈ adj w, x ∈ st.1 ∪ δ.toFinset) ∧
            (∀ d ∈ l, d ∈ st.1 ∪ δ.toFinset) := by
        intro l
        induction l with
        | nil =>
            intro st out h
            simp only [List.foldl_nil, Option.some.injEq] at h
            refine ⟨[], ?_, by simp, by simp, by simp, by simp⟩
            simp [← h]
        | cons d rest ihl =>
            intro st out h
            rw [List.foldl_cons] at h
            simp only [Option.some_bind] at h
            rcases hcall : dfsRec adj fuel d st with _ | st₁
            · rw [hcall, bindFold_none] at h
              exact absurd h (by simp)
            · rw [hcall] at h
              obtain ⟨δ₁, hst₁, hfresh₁, hreach₁, hclosed₁, hd₁⟩ :=
                ih d st st₁ hcall
              obtain ⟨δ₂, hout, hfresh₂, hreach₂, hclosed₂, hd₂⟩ :=
                ihl st₁ out h
              subst hst₁
              refine ⟨δ₁ ++ δ₂, ?_, ?_, ?_, ?_, ?_⟩
              · rw [hout]
                simp [Finset.union_assoc]
              · intro w hw
                rcases List.mem_append.1 hw with hw | hw
                · exact hfresh₁ w hw
                · intro hc
                  exact hfresh₂ w hw (Finset.mem_union_left _ hc)
              · intro w hw
                rcases List.mem_append.1 hw with hw | hw
                · exact ⟨d, List.mem_cons_self _ _, hreach₁ w hw⟩
                · obtain ⟨d', hd', hr⟩ := hreach₂ w hw
                  exact ⟨d', List.mem_cons_of_mem _ hd', hr⟩
              · intro w hw x hx
                simp only [List.toFinset_append, ← Finset.union_assoc]
                rcases List.mem_append.1 hw with hw | hw
                · exact Finset.mem_union_left _ (hclosed₁ w hw x hx)
                · exact hclosed₂ w hw x hx
              · intro d' hd'
                simp only [List.toFinset_append, ← Finset.union_assoc]
                rcases List.mem_cons.1 hd' with rfl | hd'
                · exact Finset.mem_union_left _ hd₁
                · exact hd₂ d' hd'
      intro src st out h
      by_cases hsrc : src ∈ st.1
      · rw [show dfsRec adj (fuel + 1) src st = some st by simp [dfsRec, hsrc]]
          at h
        refine ⟨[], ?_, by simp, by simp, by simp, by simp [hsrc]⟩
        simp only [Option.some.injEq] at h
        simp [← h]
      · rw [show dfsRec adj (fuel + 1) src st
            = (adj src).foldl (fun ost d => ost.bind (dfsRec adj fuel d))
                (some (insert src st.1, st.2 ++ [src])) by simp [dfsRec, hsrc]]
          at h
        obtain ⟨δ', hout, hfresh, hreach, hclosed, hvis⟩ := hQ (adj src) _ out h
        have hset : ∀ s : Finset Vtx, insert src s ∪ δ'.toFinset
            = s ∪ (src :: δ').toFinset := by
          intro s
          simp [Finset.insert_union, Finset.union_insert]
        refine ⟨src :: δ', ?_, ?_, ?_, ?_, ?_⟩
        · rw [hout]
          simp only [hset]
          simp
        · intro w hw
          rcases List.mem_cons.1 hw with rfl | hw
          · exact hsrc
          · intro hc
            exact hfresh w hw (Finset.mem_insert_of_mem hc)
        · intro w hw
          rcases List.mem_cons.1 hw with rfl | hw
          · exact Relation.ReflTransGen.refl
          · obtain ⟨d, hd, hr⟩ := hreach w hw
            exact Relation.ReflTransGen.trans
              (Relation.ReflTransGen.single (hadjR src d hd)) hr
        · intro w hw x hx
          rw [← hset]
          rcases List.mem_cons.1 hw with rfl | hw
          · exact hvis x hx
          · exact hclosed w hw x hx
        · rw [← hset]
          exact Finset.mem_union_left _ (Finset.mem_insert_self _ _)

/-- Correctness of `explore` whenever it returns: like `dfs`, except that the
start vertex is always (re)visited and emitted. -/
lemma exploreRec_spec (adj : Vtx → List Vtx) (R : Vtx → Vtx → Prop)
    (hadjR : ∀ v w, w ∈ adj v → R v w) :
    ∀ (fuel : Nat) (src : Vtx) (st out : Finset Vtx × List Vtx),
      exploreRec adj fuel src st = some out →
      ∃ δ : List Vtx, out = (st.1 ∪ δ.toFinset, st.2 ++ δ) ∧
        (∀ w ∈ δ, w = src ∨ w ∉ st.1) ∧
        (∀ w ∈ δ, Relation.ReflTransGen R src w) ∧
        (∀ w ∈ δ, ∀ x ∈ adj w, x ∈ st.1 ∪ δ.toFinset) ∧
        src ∈ δ := by
  intro fuel
  induction fuel with
  | zero =>
      intro src st out h
      simp [exploreRec] at h
  | succ fuel ih =>
      have hQ : ∀ (l : List Vtx) (st out : Finset Vtx × List Vtx),
          l.foldl (fun ost d => ost.bind
              (fun st2 => if d ∈ st2.1 then some st2
                else exploreRec adj fuel d st2)) (some st) = some out →
          ∃ δ : List Vtx, out = (st.1 ∪ δ.toFinset, st.2 ++ δ) ∧
            (∀ w ∈ δ, w ∉ st.1) ∧
            (∀ w ∈ δ, ∃ d ∈ l, Relation.ReflTransGen R d w) ∧
            (∀ w ∈ δ, ∀ x ∈ adj w, x ∈ st.1 ∪ δ.toFinset) ∧
            (∀ d ∈ l, d ∈ st.1 ∪ δ.toFinset) := by
        intro l
        induction l with
        | nil =>
            intro st out h
            simp only [List.foldl_nil, Option.some.injEq] at h
            refine ⟨[], ?_, by simp, by simp, by simp, by simp⟩
            simp [← h]
        | cons d rest ihl =>
            intro st out h
            rw [List.foldl_cons] at h
            simp only [Option.some_bind] at h
            by_cases hd : d ∈ st.1
            · rw [if_pos hd] at h
              obtain ⟨δ, hout, hfresh, hreach, hclosed, hrest⟩ := ihl st out h
              refine ⟨δ, hout, hfresh, ?_, hclosed, ?_⟩
              · intro w hw
                obtain ⟨d', hd', hr⟩ := hreach w hw
                exact ⟨d', List.mem_cons_of_mem _ hd', hr⟩
              · intro d' hd'
                rcases List.mem_cons.1 hd' with rfl | hd'
                · exact Finset.mem_union_left _ hd
                · exact hrest d' hd'
            · rw [if_neg hd] at h
              rcases hcall : exploreRec adj fuel d st with _ | st₁
              · rw [hcall, bindFold_none] at h
                exact absurd h (by simp)
              · rw [hcall] at h
                obtain ⟨δ₁, hst₁, hfresh₁, hreach₁, hclosed₁, hd₁⟩ :=
                  ih d st st₁ hcall
                obtain ⟨δ₂, hout, hfresh₂, hreach₂, hclosed₂, hd₂⟩ :=
                  ihl st₁ out h
                subst hst₁
                refine ⟨δ₁ ++ δ₂, ?_, ?_, ?_, ?_, ?_⟩
                · rw [hout]
                  simp [Finset.union_assoc]
                · intro w hw
                  rcases List.mem_append.1 hw with hw | hw
                  · rcases hfresh₁ w hw with rfl | hw'
                    · exact hd
                    · exact hw'
                  · intro hc
                    exact hfresh₂ w hw (Finset.mem_union_left _ hc)
                · intro w hw
                  rcases List.mem_append.1 hw with hw | hw
                  · exact ⟨d, List.mem_cons_self _ _, hreach₁ w hw⟩
                  · obtain ⟨d', hd', hr⟩ := hreach₂ w hw
                    exact ⟨d', List.mem_cons_of_mem _ hd', hr⟩
                · intro w hw x hx
                  simp only [List.toFinset_append, ← Finset.union_assoc]
                  rcases List.mem_append.1 hw with hw | hw
                  · exact Finset.mem_union_left _ (hclosed₁ w hw x hx)
                  · exact hclosed₂ w hw x hx
                · intro d' hd'
                  simp only [List.toFinset_append, ← Finset.union_assoc]
                  rcases List.mem_cons.1 hd' with rfl | hd'
                  · exact Finset.mem_union_left _
                      (Finset.mem_union_right _ (List.mem_toFinset.2 hd₁))
                  · exact hd₂ d' hd'
      intro src st out h
      rw [show exploreRec adj (fuel + 1) src st
          = (adj src).foldl (fun ost d => ost.bind
              (fun st2 => if d ∈ st2.1 then some st2
                else exploreRec adj fuel d st2))
            (some (insert src st.1, st.2 ++ [src])) from rfl] at h
      obtain ⟨δ', hout, hfresh, hreach, hclosed, hvis⟩ := hQ (adj src) _ out h
      have hset : ∀ s : Finset Vtx, insert src s ∪ δ'.toFinset
          = s ∪ (src :: δ').toFinset := by
        intro s
        simp [Finset.insert_union, Finset.union_insert]
      refine ⟨src :: δ', ?_, ?_, ?_, ?_, List.mem_cons_self _ _⟩
      · rw [hout]
        simp only [hset]
        simp
      · intro w hw
        rcases List.mem_cons.1 hw with rfl | hw
        · exact Or.inl rfl
        · exact Or.inr fun hc => hfresh w hw (Finset.mem_insert_of_mem hc)
      · intro w hw
        rcases List.mem_cons.1 hw with rfl | hw
        · exact Relation.ReflTransGen.refl
        · obtain ⟨d, hd, hr⟩ := hreach w hw
          exact Relation.ReflTransGen.trans
            (Relation.ReflTransGen.single (hadjR src d hd)) hr
      · intro w hw x hx
        rw [← hset]
        rcases List.mem_cons.1 hw with rfl | hw
        · exact hvis x hx
        · exact hclosed w hw x hx

/-- Sufficiency of fuel for `explore`: at least as much fuel as there are
vertices of `U` left to visit guarantees a result. -/
lemma exploreRec_some (adj : Vtx → List Vtx) (U : Finset Vtx)
    (hadjU : ∀ v w, w ∈ adj v → w ∈ U) :
    ∀ (fuel : Nat) (src : Vtx) (st : Finset Vtx × List Vtx),
      src ∈ U → src ∉ st.1 → (U \ st.1).card ≤ fuel →
      ∃ out, exploreRec adj fuel src st = some out := by
  intro fuel
  induction fuel with
  | zero =>
      intro src st hsrcU hsrc hcard
      exfalso
      have : src ∈ U \ st.1 := Finset.mem_sdiff.2 ⟨hsrcU, hsrc⟩
      have := Finset.card_pos.2 ⟨src, this⟩
      omega
  | succ fuel ih =>
      intro src st hsrcU hsrc hcard
      have hQ : ∀ (l : List Vtx) (st2 : Finset Vtx × List Vtx),
          (∀ d ∈ l, d ∈ U) → (U \ st2.1).card ≤ fuel →
          ∃ out, l.foldl (fun ost d => ost.bind
              (fun st2 => if d ∈ st2.1 then some st2
                else exploreRec adj fuel d st2)) (some st2) = some out ∧
            (U \ out.1).card ≤ (U \ st2.1).card := by
        intro l
        induction l with
        | nil =>
            intro st2 hl hcard2
            exact ⟨st2, rfl, le_refl _⟩
        | cons d rest ihl =>
            intro st2 hl hcard2
            rw [List.foldl_cons]
            simp only [Option.some_bind]
            by_cases hd : d ∈ st2.1
            · rw [if_pos hd]
              exact ihl st2 (fun x hx => hl x (List.mem_cons_of_mem _ hx)) hcard2
            · rw [if_neg hd]
              obtain ⟨st₁, hst₁⟩ :=
                ih d st2 (hl d (List.mem_cons_self _ _)) hd hcard2
              rw [hst₁]
              obtain ⟨δ, hout, -, -, -, -⟩ :=
                exploreRec_spec adj (fun a b => b ∈ U)
                  (fun v w hw => hadjU v w hw) fuel d st2 st₁ hst₁
              have hmono : (U \ st₁.1).card ≤ (U \ st2.1).card := by
                apply Finset.card_le_card
                intro x hx
                rcases Finset.mem_sdiff.1 hx with ⟨hx₁, hx₂⟩
                refine Finset.mem_sdiff.2 ⟨hx₁, fun hc => hx₂ ?_⟩
                rw [hout]
                exact Finset.mem_union_left _ hc
              obtain ⟨out, hrun, hcard3⟩ := ihl st₁
                (fun x hx => hl x (List.mem_cons_of_mem _ hx))
                (le_trans hmono hcard2)
              exact ⟨out, hrun, le_trans hcard3 hmono⟩
      have hstep : (U \ (insert src st.1, st.2 ++ [src]).1).card ≤ fuel := by
        have herase : U \ insert src st.1 = (U \ st.1).erase src := by
          ext x
          simp only [Finset.mem_sdiff, Finset.mem_insert, Finset.mem_erase]
          tauto
        have hmem : src ∈ U \ st.1 := Finset.mem_sdiff.2 ⟨hsrcU, hsrc⟩
        have := Finset.card_erase_of_mem hmem
        have hpos := Finset.card_pos.2 ⟨src, hmem⟩
        simp only [herase]
        omega
      obtain ⟨out, hrun, -⟩ := hQ (adj src) (insert src st.1, st.2 ++ [src])
        (fun d hd => hadjU src d hd) hstep
      exact ⟨out, hrun⟩

/-- Contract of one search call for searches that may run out of fuel: the
conclusions of `SearchSpec` hold whenever the call returns a value. -/
def SearchSpecWhen (U : Finset Vtx) (R : Vtx → Vtx → Prop)
    (search : Finset Vtx → Vtx → Option (Finset Vtx × List Vtx)) : Prop :=
  ∀ visited start out, visited ⊆ U → start ∈ U → start ∉ visited →
    search visited start = some out →
    ∃ comp : List Vtx,
      out = (visited ∪ comp.toFinset, comp) ∧
      start ∈ comp ∧
      (∀ w ∈ comp, w ∉ visited) ∧
      (∀ w ∈ comp, w ∈ U) ∧
      (∀ w ∈ comp, Relation.ReflTransGen R start w) ∧
      (∀ w ∈ comp, ∀ x, R w x → x ∈ visited ∪ comp.toFinset)

lemma rtg_mem {R : Vtx → Vtx → Prop} {U : Finset Vtx}
    (hR : ∀ a b, R a b → b ∈ U) {a b : Vtx} (ha : a ∈ U)
    (h : Relation.ReflTransGen R a b) : b ∈ U := by
  induction h with
  | refl => exact ha
  | tail _ hstep ih => exact hR _ _ hstep

/-- Conditional correctness of the outer loop: whenever the loop returns, its
components have all the properties guaranteed by `componentsLoop_spec`. -/
lemma componentsLoopWhen_spec (U : Finset Vtx) (R : Vtx → Vtx → Prop)
    (hsym : ∀ a b, R a b → R b a)
    (search : Finset Vtx → Vtx → Option (Finset Vtx × List Vtx))
    (hs : SearchSpecWhen U R search) :
    ∀ (keys : List Vtx) (visited : Finset Vtx) (comps comps2 : List (List Vtx)),
      (∀ k ∈ keys, k ∈ U) →
      visited ⊆ U →
      (∀ v ∈ visited, ∃ c ∈ comps, v ∈ c) →
      (∀ c ∈ comps, ∀ v ∈ c, v ∈ visited) →
      (∀ c ∈ comps, ∀ u ∈ c, ∀ v ∈ c, Relation.ReflTransGen R u v) →
      (∀ c ∈ comps, ∀ u ∈ c, ∀ x, R u x → x ∈ c) →
      (∀ c ∈ comps, c ≠ []) →
      (∀ c ∈ comps, ∀ v ∈ c, v ∈ U) →
      componentsLoop search keys visited comps = some comps2 →
        (∀ c ∈ comps, c ∈ comps2) ∧
        (∀ k ∈ keys, ∃ c ∈ comps2, k ∈ c) ∧
        (∀ c ∈ comps2, ∀ v ∈ c, v ∈ U) ∧
        (∀ c ∈ comps2, ∀ u ∈ c, ∀ v ∈ c, Relation.ReflTransGen R u v) ∧
        (∀ c ∈ comps2, ∀ u ∈ c, ∀ x, R u x → x ∈ c) ∧
        (∀ c ∈ comps2, c ≠ []) := by
  intro keys
  induction keys with
  | nil =>
      intro visited comps comps2 hkU hvU hcover hsub hconn hclosed hne hcU hrun
      simp only [componentsLoop, Option.some.injEq] at hrun
      subst hrun
      exact ⟨fun c hc => hc, by simp, hcU, hconn, hclosed, hne⟩
  | cons k ks ih =>
      intro visited comps comps2 hkU hvU hcover hsub hconn hclosed hne hcU hrun
      by_cases hk : k ∈ visited
      · rw [show componentsLoop search (k :: ks) visited comps
            = componentsLoop search ks visited comps by
              simp [componentsLoop, hk]] at hrun
        obtain ⟨hold, hkey, h₃, h₄, h₅, h₆⟩ :=
          ih visited comps comps2 (fun x hx => hkU x (List.mem_cons_of_mem _ hx))
            hvU hcover hsub hconn hclosed hne hcU hrun
        refine ⟨hold, ?_, h₃, h₄, h₅, h₆⟩
        intro x hx
        rcases List.mem_cons.1 hx with rfl | hx
        · obtain ⟨c, hc, hxc⟩ := hcover x hk
          exact ⟨c, hold c hc, hxc⟩
        · exact hkey x hx
      · have hkU' : k ∈ U := hkU k (List.mem_cons_self _ _)
        rcases hsearch : search visited k with _ | out
        · rw [show componentsLoop search (k :: ks) visited comps = none by
            simp [componentsLoop, hk, hsearch]] at hrun
          exact absurd hrun (by simp)
        · obtain ⟨comp, hout, hstart, hfresh, hcompU, hreach, hcl⟩ :=
            hs visited k out hvU hkU' hk hsearch
          subst hout
          rw [show componentsLoop search (k :: ks) visited comps
              = componentsLoop search ks (visited ∪ comp.toFinset)
                  (comps ++ [comp]) by
              simp [componentsLoop, hk, hsearch]] at hrun
          have hclcomp : ∀ u ∈ comp, ∀ x, R u x → x ∈ comp := by
            intro u hu x hR
            rcases Finset.mem_union.1 (hcl u hu x hR) with hx | hx
            · obtain ⟨c, hc, hxc⟩ := hcover x hx
              have hux : u ∈ c := hclosed c hc x hxc u (hsym _ _ hR)
              exact absurd (hsub c hc u hux) (hfresh u hu)
            · exact List.mem_toFinset.1 hx
          have hvU' : visited ∪ comp.toFinset ⊆ U := by
            intro x hx
            rcases Finset.mem_union.1 hx with hx | hx
            · exact hvU hx
            · exact hcompU x (List.mem_toFinset.1 hx)
          have hcover' : ∀ v ∈ visited ∪ comp.toFinset,
              ∃ c ∈ comps ++ [comp], v ∈ c := by
            intro v hv
            rcases Finset.mem_union.1 hv with hv | hv
            · obtain ⟨c, hc, hvc⟩ := hcover v hv
              exact ⟨c, List.mem_append.2 (Or.inl hc), hvc⟩
            · exact ⟨comp, List.mem_append.2 (Or.inr (List.mem_singleton.2 rfl)),
                List.mem_toFinset.1 hv⟩
          have hsub' : ∀ c ∈ comps ++ [comp], ∀ v ∈ c,
              v ∈ visited ∪ comp.toFinset := by
            intro c hc v hv
            rcases List.mem_append.1 hc with hc | hc
            · exact Finset.mem_union_left _ (hsub c hc v hv)
            · rcases List.mem_singleton.1 hc with rfl
              exact Finset.mem_union_right _ (List.mem_toFinset.2 hv)
          have hconn' : ∀ c ∈ comps ++ [comp], ∀ u ∈ c, ∀ v ∈ c,
              Relation.ReflTransGen R u v := by
            intro c hc u hu v hv
            rcases List.mem_append.1 hc with hc | hc
            · exact hconn c hc u hu v hv
            · rcases List.mem_singleton.1 hc with rfl
              exact Relation.ReflTransGen.trans
                (rtg_symm hsym (hreach u hu)) (hreach v hv)
          have hclosed' : ∀ c ∈ comps ++ [comp], ∀ u ∈ c, ∀ x,
              R u x → x ∈ c := by
            intro c hc u hu x hR
            rcases List.mem_append.1 hc with hc | hc
            · exact hclosed c hc u hu x hR
            · rcases List.mem_singleton.1 hc with rfl
              exact hclcomp u hu x hR
          have hne' : ∀ c ∈ comps ++ [comp], c ≠ [] := by
            intro c hc
            rcases List.mem_append.1 hc with hc | hc
            · exact hne c hc
            · rcases List.mem_singleton.1 hc with rfl
              intro hceq
              rw [hceq] at hstart
              exact List.not_mem_nil _ hstart
          have hcU' : ∀ c ∈ comps ++ [comp], ∀ v ∈ c, v ∈ U := by
            intro c hc v hv
            rcases List.mem_append.1 hc with hc | hc
            · exact hcU c hc v hv
            · rcases List.mem_singleton.1 hc with rfl
              exact hcompU v hv
          obtain ⟨hold, hkey, h₃, h₄, h₅, h₆⟩ :=
            ih (visited ∪ comp.toFinset) (comps ++ [comp]) comps2
              (fun x hx => hkU x (List.mem_cons_of_mem _ hx))
              hvU' hcover' hsub' hconn' hclosed' hne' hcU' hrun
          refine ⟨?_, ?_, h₃, h₄, h₅, h₆⟩
          · intro c hc
            exact hold c (List.mem_append.2 (Or.inl hc))
          · intro x hx
            rcases List.mem_cons.1 hx with rfl | hx
            · exact ⟨comp,
                hold comp (List.mem_append.2 (Or.inr (List.mem_singleton.2 rfl))),
                hstart⟩
            · exact hkey x hx

/-- Packaging of the conditional loop correctness as an `IsComponents`
statement. -/
lemma componentsLoopWhen_isComponents (edges : Edges) (extra : List Vtx)
    (search : Finset Vtx → Vtx → Option (Finset Vtx × List Vtx))
    (hs : SearchSpecWhen (uset edges extra) (rel edges) search)
    (keys : List Vtx) (hkeys : ∀ k, k ∈ keys ↔ k ∈ uset edges extra)
    (comps2 : List (List Vtx))
    (hrun : componentsLoop search keys ∅ [] = some comps2) :
    IsComponents edges extra ((comps2.map List.toFinset).toFinset) := by
  obtain ⟨-, hkey, h₃, h₄, h₅, h₆⟩ :=
    componentsLoopWhen_spec (uset edges extra) (rel edges)
      (fun _ _ => rel_symm) search hs keys ∅ [] comps2
      (fun k hk => (hkeys k).1 hk) (by simp) (by simp) (by simp)
      (by simp) (by simp) (by simp) (by simp) hrun
  refine ⟨?_, ?_, ?_, ?_, ?_⟩
  · intro C hC
    obtain ⟨c, hc, rfl⟩ := List.mem_map.1 (List.mem_toFinset.1 hC)
    obtain hne := h₆ c hc
    rcases c with _ | ⟨v, c⟩
    · exact absurd rfl hne
    · exact ⟨v, by simp⟩
  · intro C hC v hv
    obtain ⟨c, hc, rfl⟩ := List.mem_map.1 (List.mem_toFinset.1 hC)
    exact h₃ c hc v (List.mem_toFinset.1 hv)
  · intro v hv
    obtain ⟨c, hc, hvc⟩ := hkey v ((hkeys v).2 hv)
    exact ⟨c.toFinset, List.mem_toFinset.2 (List.mem_map.2 ⟨c, hc, rfl⟩),
      List.mem_toFinset.2 hvc⟩
  · intro C hC u hu v hv
    obtain ⟨c, hc, rfl⟩ := List.mem_map.1 (List.mem_toFinset.1 hC)
    exact h₄ c hc u (List.mem_toFinset.1 hu) v (List.mem_toFinset.1 hv)
  · intro C hC u hu v hrel
    obtain ⟨c, hc, rfl⟩ := List.mem_map.1 (List.mem_toFinset.1 hC)
    exact List.mem_toFinset.2 (h₅ c hc u (List.mem_toFinset.1 hu) v hrel)

lemma mem_uset {edges : Edges} {extra : List Vtx} {v : Vtx} :
    v ∈ uset edges extra ↔ v ∈ vset edges ∨ v ∈ extra := by
  simp [uset]

/-- Model of `components_dfs_rec` at recursion limit `fuel`: `none` models a
`RecursionError` escaping the call. -/
def components_dfs_rec (fuel : Nat) (edges : Edges) :
    Option (Finset (Finset Vtx)) :=
  match componentsLoop
      (fun vis start => dfsRec (adjacency_undirected edges).nbr fuel start (vis, []))
      (adjacency_undirected edges).keys ∅ [] with
  | some comps => some ((comps.map List.toFinset).toFinset)
  | none => none

/-- Model of `components_dfs` at recursion limit `fuel`: `none` models a
`RecursionError` escaping the call. -/
def components_dfs (fuel : Nat) (edges : Edges) (vertices : List Vtx) :
    Option (Finset (Finset Vtx)) :=
  match componentsLoop
      (fun vis start =>
        exploreRec (adjacency edges vertices false).nbr fuel start (vis, []))
      (adjacency edges vertices false).keys ∅ [] with
  | some comps => some ((comps.map List.toFinset).toFinset)
  | none => none

lemma dfsRec_searchSpecWhen (edges : Edges) (fuel : Nat) :
    SearchSpecWhen (vset edges) (rel edges)
      (fun vis start =>
        dfsRec (adjacency_undirected edges).nbr fuel start (vis, [])) := by
  intro visited start out hvU hstartU hstart hrun
  obtain ⟨δ, hout, hfresh, hreach, hclosed, hvis⟩ :=
    dfsRec_spec (adjacency_undirected edges).nbr (rel edges)
      (fun v w hw => (adjacency_undirected_nbr edges v w).1 hw)
      fuel start (visited, []) out hrun
  simp only [List.nil_append] at hout
  refine ⟨δ, hout, ?_, hfresh, ?_, hreach, ?_⟩
  · rcases Finset.mem_union.1 hvis with hv | hv
    · exact absurd hv hstart
    · exact List.mem_toFinset.1 hv
  · intro w hw
    exact rtg_mem (fun a b hab => rel_snd_mem hab) hstartU (hreach w hw)
  · intro w hw x hR
    exact hclosed w hw x ((adjacency_undirected_nbr edges w x).2 hR)

/-- Conditional correctness of `components_dfs_rec`: whenever the recursion
depth permits a result, the result is the canonical components. -/
theorem components_dfs_rec_isComponents {fuel : Nat} {edges : Edges}
    {cs : Finset (Finset Vtx)} (h : components_dfs_rec fuel edges = some cs) :
    IsComponents edges [] cs := by
  unfold components_dfs_rec at h
  rcases hrun : componentsLoop
      (fun vis start => dfsRec (adjacency_undirected edges).nbr fuel start (vis, []))
      (adjacency_undirected edges).keys ∅ [] with _ | comps
  · rw [hrun] at h
    exact absurd h (by simp)
  · rw [hrun] at h
    simp only [Option.some.injEq] at h
    subst h
    refine componentsLoopWhen_isComponents edges [] _ ?_ _ ?_ comps hrun
    · have := dfsRec_searchSpecWhen edges fuel
      rw [show uset edges [] = vset edges from uset_nil edges]
      exact this
    · intro k
      rw [adjacency_undirected_keys, uset_nil]

lemma explore_searchSpec (edges : Edges) (vertices : List Vtx) (fuel : Nat)
    (hfuel : (uset edges vertices).card ≤ fuel) :
    SearchSpec (uset edges vertices) (rel edges)
      (fun vis start =>
        exploreRec (adjacency edges vertices false).nbr fuel start (vis, [])) := by
  intro visited start hvU hstartU hstart
  have hadjR : ∀ v w, w ∈ (adjacency edges vertices false).nbr v → rel edges v w :=
    fun v w hw => (adjacency_und_nbr edges vertices v w).1 hw
  have hadjU : ∀ v w, w ∈ (adjacency edges vertices false).nbr v →
      w ∈ uset edges vertices :=
    fun v w hw => mem_uset.2 (Or.inl (rel_snd_mem (hadjR v w hw)))
  have hcard : ((uset edges vertices) \ visited).card ≤ fuel :=
    le_trans (Finset.card_le_card (Finset.sdiff_subset)) hfuel
  obtain ⟨out, hrun⟩ :=
    exploreRec_some (adjacency edges vertices false).nbr (uset edges vertices)
      hadjU fuel start (visited, []) hstartU hstart hcard
  obtain ⟨δ, hout, hfresh, hreach, hclosed, hstartδ⟩ :=
    exploreRec_spec (adjacency edges vertices false).nbr (rel edges)
      hadjR fuel start (visited, []) out hrun
  simp only [List.nil_append] at hout
  subst hout
  refine ⟨δ, hrun, hstartδ, ?_, ?_, hreach, ?_⟩
  · intro w hw
    rcases hfresh w hw with rfl | hw'
    · exact hstart
    · exact hw'
  · intro w hw
    exact rtg_mem (fun a b hab => mem_uset.2 (Or.inl (rel_snd_mem hab)))
      hstartU (hreach w hw)
  · intro w hw x hR
    exact hclosed w hw x ((adjacency_und_nbr edges vertices w x).2 hR)

/-- With enough recursion depth, `components_dfs` returns the canonical
components of the edges together with the explicitly supplied vertices. -/
theorem components_dfs_some (fuel : Nat) (edges : Edges) (vertices : List Vtx)
    (hfuel : (uset edges vertices).card ≤ fuel) :
    ∃ cs, components_dfs fuel edges vertices = some cs ∧
      IsComponents edges vertices cs := by
  obtain ⟨comps2, h₁, h₂⟩ :=
    componentsLoop_isComponents edges vertices _
      (explore_searchSpec edges vertices fuel hfuel)
      (adjacency edges vertices false).keys
      (fun k => by rw [adjacency_und_keys, mem_uset])
  refine ⟨(comps2.map List.toFinset).toFinset, ?_, h₂⟩
  unfold components_dfs
  rw [h₁]

/-! ## Quick-find variants: `components_quickfind` (333-366) and
`components_quickfind_classic` (407-449)

Both maintain a mapping from each vertex to a shared collection of the
vertices of its component.  `components_quickfind` keys the collections by
Python object identity of mutable lists; `components_quickfind_classic` keys
them by representative vertices.  We capture both with one structure over an
abstract label type: `Nat` cell identifiers model object identity, `Vtx`
labels model representatives.  Melding repoints every member of the source
collection and appends it to the target collection, exactly as `join` /
`join_to` do. -/

/-- Generic labelled quick-find state: each vertex carries a label, each
label owns the member list of its collection. -/
structure UF (L : Type) where
  lab : Vtx → L
  grp : L → List Vtx

/-- Meld the collection labelled `fromL` into the one labelled `toL`:
repoint all its members, then extend the target list. -/
def ufMeld {L : Type} [DecidableEq L] (st : UF L) (toL fromL : L) : UF L :=
  { lab := fun x => if x ∈ st.grp fromL then toL else st.lab x
    grp := fun i => if i = toL then st.grp toL ++ st.grp fromL else st.grp i }

/-- Process one edge: skip if both endpoints share a label, otherwise meld
the smaller collection into the larger (ties meld the destination side into
the source side, as in the Python `if len(u_set) < len(v_set)` test). -/
def ufStep {L : Type} [DecidableEq L] (st : UF L) (e : Vtx × Vtx) : UF L :=
  let lu := st.lab e.1
  let lv := st.lab e.2
  if lu = lv then st
  else if (st.grp lu).length < (st.grp lv).length then ufMeld st lv lu
  else ufMeld st lu lv

/-- Run the union loop over all edges. -/
def ufRun {L : Type} [DecidableEq L] (edges : Edges) (init : UF L) : UF L :=
  edges.foldl ufStep init

/-- Collect the final components: the set of frozen collections reachable
from the keys.  (Python deduplicates the collections by identity before
freezing; the resulting set of frozensets is the same.) -/
def ufResult {L : Type} (st : UF L) (verts : List Vtx) : Finset (Finset Vtx) :=
  (verts.map (fun v => (st.grp (st.lab v)).toFinset)).toFinset

/-- Invariant of the union loop: every tracked vertex is in its collection,
collections point back at their label, collections are connected via the
processed edges, and processed edges have equal endpoint labels. -/
def UFInv {L : Type} (V : Finset Vtx) (done : Edges) (st : UF L) : Prop :=
  (∀ v ∈ V, v ∈ st.grp (st.lab v)) ∧
  (∀ v ∈ V, ∀ w ∈ st.grp (st.lab v), w ∈ V ∧ st.lab w = st.lab v) ∧
  (∀ v ∈ V, ∀ w ∈ st.grp (st.lab v), conn done v w) ∧
  (∀ e ∈ done, st.lab e.1 = st.lab e.2)

lemma UFInv.mem_grp_iff {L : Type} {V : Finset Vtx} {done : Edges} {st : UF L}
    (h : UFInv V done st) {a : Vtx} (ha : a ∈ V) {x : Vtx} :
    x ∈ st.grp (st.lab a) ↔ x ∈ V ∧ st.lab x = st.lab a := by
  constructor
  · intro hx
    exact h.2.1 a ha x hx
  · rintro ⟨hxV, hlab⟩
    have := h.1 x hxV
    rw [hlab] at this
    exact this

/-- Melding across a connecting pair preserves the invariant components and
relabels exactly the source-labelled vertices. -/
lemma ufMeld_inv {L : Type} [DecidableEq L] {V : Finset Vtx}
    {done done2 : Edges} {st : UF L} {a b : Vtx}
    (ha : a ∈ V) (hb : b ∈ V) (hinv : UFInv V done st)
    (hne : st.lab a ≠ st.lab b)
    (hsub : ∀ x, x ∈ done → x ∈ done2) (hab : conn done2 a b) :
    (∀ x ∈ V, (ufMeld st (st.lab b) (st.lab a)).lab x
      = if st.lab x = st.lab a then st.lab b else st.lab x) ∧
    (∀ v ∈ V, v ∈ (ufMeld st (st.lab b) (st.lab a)).grp
      ((ufMeld st (st.lab b) (st.lab a)).lab v)) ∧
    (∀ v ∈ V, ∀ w ∈ (ufMeld st (st.lab b) (st.lab a)).grp
      ((ufMeld st (st.lab b) (st.lab a)).lab v),
      w ∈ V ∧ (ufMeld st (st.lab b) (st.lab a)).lab w
        = (ufMeld st (st.lab b) (st.lab a)).lab v) ∧
    (∀ v ∈ V, ∀ w ∈ (ufMeld st (st.lab b) (st.lab a)).grp
      ((ufMeld st (st.lab b) (st.lab a)).lab v), conn done2 v w) := by
  set st2 := ufMeld st (st.lab b) (st.lab a) with hst2
  have hlab2 : ∀ x ∈ V, st2.lab x
      = if st.lab x = st.lab a then st.lab b else st.lab x := by
    intro x hxV
    show (if x ∈ st.grp (st.lab a) then st.lab b else st.lab x) = _
    by_cases hx : st.lab x = st.lab a
    · rw [if_pos ((hinv.mem_grp_iff ha).2 ⟨hxV, hx⟩), if_pos hx]
    · rw [if_neg (fun hc => hx (hinv.mem_grp_iff ha |>.1 hc).2), if_neg hx]
  have hgrp_b : st2.grp (st.lab b) = st.grp (st.lab b) ++ st.grp (st.lab a) := by
    show (if st.lab b = st.lab b then _ else _) = _
    rw [if_pos rfl]
  have hgrp_other : ∀ i, i ≠ st.lab b → st2.grp i = st.grp i := by
    intro i hi
    show (if i = st.lab b then _ else _) = _
    rw [if_neg hi]
  have hconn_done : ∀ {x y : Vtx}, conn done x y → conn done2 x y :=
    fun hxy => conn_of_subset hsub hxy
  -- membership in the merged collection
  have hmerged : ∀ w ∈ st2.grp (st.lab b), w ∈ V ∧ st2.lab w = st.lab b := by
    intro w hw
    rw [hgrp_b] at hw
    rcases List.mem_append.1 hw with hw | hw
    · obtain ⟨hwV, hwl⟩ := (hinv.mem_grp_iff hb).1 hw
      refine ⟨hwV, ?_⟩
      rw [hlab2 w hwV, hwl, if_neg (fun hc => hne hc.symm)]
    · obtain ⟨hwV, hwl⟩ := (hinv.mem_grp_iff ha).1 hw
      refine ⟨hwV, ?_⟩
      rw [hlab2 w hwV, if_pos hwl]
  have hmergedconn : ∀ v ∈ V, (st.lab v = st.lab a ∨ st.lab v = st.lab b) →
      ∀ w ∈ st2.grp (st.lab b), conn done2 v w := by
    intro v hvV hvl w hw
    have hconn_va : st.lab v = st.lab a → conn done2 v a := by
      intro hvla
      have hvmem : v ∈ st.grp (st.lab a) := (hinv.mem_grp_iff ha).2 ⟨hvV, hvla⟩
      exact conn_symm (hconn_done (hinv.2.2.1 a ha v hvmem))
    have hconn_vb : st.lab v = st.lab b → conn done2 v b := by
      intro hvlb
      have hvmem : v ∈ st.grp (st.lab b) := (hinv.mem_grp_iff hb).2 ⟨hvV, hvlb⟩
      exact conn_symm (hconn_done (hinv.2.2.1 b hb v hvmem))
    have hvb : conn done2 v b := by
      rcases hvl with hvl | hvl
      · exact conn_trans (hconn_va hvl) hab
      · exact hconn_vb hvl
    rw [hgrp_b] at hw
    rcases List.mem_append.1 hw with hw | hw
    · exact conn_trans hvb (hconn_done (hinv.2.2.1 b hb w hw))
    · exact conn_trans (conn_trans hvb (conn_symm hab))
        (hconn_done (hinv.2.2.1 a ha w hw))
  -- the collection owned by the (possibly updated) label of a vertex
  have hgrp_of_lab : ∀ v ∈ V, st2.grp (st2.lab v)
      = if st.lab v = st.lab a ∨ st.lab v = st.lab b
        then st2.grp (st.lab b) else st.grp (st.lab v) := by
    intro v hvV
    rw [hlab2 v hvV]
    by_cases hvl : st.lab v = st.lab a
    · rw [if_pos hvl, if_pos (Or.inl hvl)]
    · rw [if_neg hvl]
      by_cases hvb : st.lab v = st.lab b
      · rw [if_pos (Or.inr hvb), hvb]
      · rw [if_neg (by tauto), hgrp_other _ hvb]
  refine ⟨hlab2, ?_, ?_, ?_⟩
  · intro v hv
    rw [hgrp_of_lab v hv]
    by_cases hvl : st.lab v = st.lab a ∨ st.lab v = st.lab b
    · rw [if_pos hvl, hgrp_b]
      rcases hvl with hvl | hvl
      · exact List.mem_append.2 (Or.inr ((hinv.mem_grp_iff ha).2 ⟨hv, hvl⟩))
      · exact List.mem_append.2 (Or.inl ((hinv.mem_grp_iff hb).2 ⟨hv, hvl⟩))
    · rw [if_neg hvl]
      exact hinv.1 v hv
  · intro v hv w hw
    rw [hgrp_of_lab v hv] at hw
    by_cases hvl : st.lab v = st.lab a ∨ st.lab v = st.lab b
    · rw [if_pos hvl] at hw
      obtain ⟨hwV, hwlab⟩ := hmerged w hw
      refine ⟨hwV, ?_⟩
      rw [hwlab, hlab2 v hv]
      rcases hvl with hvl | hvl
      · rw [if_pos hvl]
      · have hva : st.lab v ≠ st.lab a := by
          rw [hvl]
          exact fun hc => hne hc.symm
        rw [if_neg hva]
        exact hvl.symm
    · rw [if_neg hvl] at hw
      obtain ⟨hwV, hwlab⟩ := (hinv.mem_grp_iff hv).1 hw
      refine ⟨hwV, ?_⟩
      rw [hlab2 w hwV, hlab2 v hv, hwlab]
  · intro v hv w hw
    rw [hgrp_of_lab v hv] at hw
    by_cases hvl : st.lab v = st.lab a ∨ st.lab v = st.lab b
    · rw [if_pos hvl] at hw
      exact hmergedconn v hv hvl w hw
    · rw [if_neg hvl] at hw
      exact hconn_done (hinv.2.2.1 v hv w hw)

lemma ufStep_inv {L : Type} [DecidableEq L] {V : Finset Vtx} {done : Edges}
    {st : UF L} {e : Vtx × Vtx}
    (hu : e.1 ∈ V) (hv : e.2 ∈ V) (hinv : UFInv V done st)
    (hdoneV : ∀ e' ∈ done, e'.1 ∈ V ∧ e'.2 ∈ V) :
    UFInv V (done ++ [e]) (ufStep st e) := by
  have hsub : ∀ x, x ∈ done → x ∈ done ++ [e] :=
    fun x hx => List.mem_append.2 (Or.inl hx)
  have hedge : rel (done ++ [e]) e.1 e.2 :=
    Or.inl (List.mem_append.2 (Or.inr (List.mem_singleton.2 rfl)))
  by_cases heq : st.lab e.1 = st.lab e.2
  · rw [show ufStep st e = st by simp [ufStep, heq]]
    refine ⟨hinv.1, hinv.2.1, ?_, ?_⟩
    · intro v hvV w hw
      exact conn_of_subset hsub (hinv.2.2.1 v hvV w hw)
    · intro e' he'
      rcases List.mem_append.1 he' with he' | he'
      · exact hinv.2.2.2 e' he'
      · rcases List.mem_singleton.1 he' with rfl
        exact heq
  · by_cases hlen : (st.grp (st.lab e.1)).length < (st.grp (st.lab e.2)).length
    · rw [show ufStep st e = ufMeld st (st.lab e.2) (st.lab e.1) by
        simp [ufStep, heq, hlen]]
      obtain ⟨hlab2, h₁, h₂, h₃⟩ :=
        ufMeld_inv hu hv hinv heq hsub (rel_conn hedge)
      refine ⟨h₁, h₂, h₃, ?_⟩
      intro e' he'
      rcases List.mem_append.1 he' with he' | he'
      · obtain ⟨he1, he2⟩ := hdoneV e' he'
        rw [hlab2 _ he1, hlab2 _ he2, hinv.2.2.2 e' he']
      · rcases List.mem_singleton.1 he' with rfl
        rw [hlab2 _ hu, hlab2 _ hv, if_pos rfl,
          if_neg (fun hc => heq hc.symm)]
    · rw [show ufStep st e = ufMeld st (st.lab e.1) (st.lab e.2) by
        simp [ufStep, heq, hlen]]
      obtain ⟨hlab2, h₁, h₂, h₃⟩ :=
        ufMeld_inv hv hu hinv (fun hc => heq hc.symm) hsub
          (conn_symm (rel_conn hedge))
      refine ⟨h₁, h₂, h₃, ?_⟩
      intro e' he'
      rcases List.mem_append.1 he' with he' | he'
      · obtain ⟨he1, he2⟩ := hdoneV e' he'
        rw [hlab2 _ he1, hlab2 _ he2, hinv.2.2.2 e' he']
      · rcases List.mem_singleton.1 he' with rfl
        rw [hlab2 _ hu, hlab2 _ hv, if_pos rfl, if_neg heq]

lemma ufFold_inv {L : Type} [DecidableEq L] (V : Finset Vtx) :
    ∀ (suf pre : Edges) (st : UF L),
      (∀ e ∈ suf, e.1 ∈ V ∧ e.2 ∈ V) →
      (∀ e ∈ pre, e.1 ∈ V ∧ e.2 ∈ V) →
      UFInv V pre st →
      UFInv V (pre ++ suf) (suf.foldl ufStep st) := by
  intro suf
  induction suf with
  | nil =>
      intro pre st hsuf hpre hinv
      simpa using hinv
  | cons e suf ih =>
      intro pre st hsuf hpre hinv
      rw [List.foldl_cons]
      have he := hsuf e (List.mem_cons_self _ _)
      have hstep := ufStep_inv he.1 he.2 hinv hpre
      have hpre' : ∀ e' ∈ pre ++ [e], e'.1 ∈ V ∧ e'.2 ∈ V := by
        intro e' he'
        rcases List.mem_append.1 he' with he' | he'
        · exact hpre e' he'
        · rcases List.mem_singleton.1 he' with rfl
          exact he
      have := ih (pre ++ [e]) (ufStep st e)
        (fun x hx => hsuf x (List.mem_cons_of_mem _ hx)) hpre' hstep
      simpa [List.append_assoc] using this

lemma ufInit_inv {L : Type} (edges : Edges) (init : UF L)
    (hA : ∀ v ∈ vset edges, init.grp (init.lab v) = [v]) :
    UFInv (vset edges) [] init := by
  refine ⟨?_, ?_, ?_, by simp⟩
  · intro v hv
    rw [hA v hv]
    exact List.mem_singleton.2 rfl
  · intro v hv w hw
    rw [hA v hv] at hw
    rcases List.mem_singleton.1 hw with rfl
    exact ⟨hv, rfl⟩
  · intro v hv w hw
    rw [hA v hv] at hw
    rcases List.mem_singleton.1 hw with rfl
    exact conn_refl _ _

/-- Generic correctness of the labelled quick-find loop: any initialization
that gives each mentioned vertex its own singleton collection produces the
canonical components. -/
lemma ufRun_isComponents {L : Type} [DecidableEq L] (edges : Edges)
    (init : UF L) (hA : ∀ v ∈ vset edges, init.grp (init.lab v) = [v]) :
    IsComponents edges [] (ufResult (ufRun edges init) (vtxList edges)) := by
  have hend : ∀ e ∈ edges, e.1 ∈ vset edges ∧ e.2 ∈ vset edges := by
    intro e he
    exact ⟨mem_vset.2 ⟨e, he, Or.inl rfl⟩, mem_vset.2 ⟨e, he, Or.inr rfl⟩⟩
  have hinv : UFInv (vset edges) edges (ufRun edges init) := by
    have := ufFold_inv (vset edges) edges [] init hend (by simp)
      (ufInit_inv edges init hA)
    simpa using this
  set st := ufRun edges init with hst
  have hmemres : ∀ C, C ∈ ufResult st (vtxList edges) ↔
      ∃ v ∈ vtxList edges, (st.grp (st.lab v)).toFinset = C := by
    intro C
    simp [ufResult]
  have hVv : ∀ v, v ∈ vtxList edges ↔ v ∈ vset edges := by
    intro v
    simp [vset]
  refine ⟨?_, ?_, ?_, ?_, ?_⟩
  · intro C hC
    obtain ⟨v, hv, rfl⟩ := (hmemres C).1 hC
    exact ⟨v, List.mem_toFinset.2 (hinv.1 v ((hVv v).1 hv))⟩
  · intro C hC w hw
    obtain ⟨v, hv, rfl⟩ := (hmemres C).1 hC
    rw [uset_nil]
    exact (hinv.2.1 v ((hVv v).1 hv) w (List.mem_toFinset.1 hw)).1
  · intro v hv
    rw [uset_nil] at hv
    refine ⟨(st.grp (st.lab v)).toFinset, (hmemres _).2 ⟨v, (hVv v).2 hv, rfl⟩, ?_⟩
    exact List.mem_toFinset.2 (hinv.1 v hv)
  · intro C hC u hu w hw
    obtain ⟨v, hv, rfl⟩ := (hmemres C).1 hC
    have hvV := (hVv v).1 hv
    obtain ⟨huV, hulab⟩ := hinv.2.1 v hvV u (List.mem_toFinset.1 hu)
    have hw' : w ∈ st.grp (st.lab u) := by
      rw [hulab]
      exact List.mem_toFinset.1 hw
    exact hinv.2.2.1 u huV w hw'
  · intro C hC u hu w hrel
    obtain ⟨v, hv, rfl⟩ := (hmemres C).1 hC
    have hvV := (hVv v).1 hv
    obtain ⟨huV, hulab⟩ := hinv.2.1 v hvV u (List.mem_toFinset.1 hu)
    have hwV : w ∈ vset edges := rel_snd_mem hrel
    have hlabuw : st.lab u = st.lab w := by
      rcases hrel with hrel | hrel
      · exact hinv.2.2.2 (u, w) hrel
      · exact (hinv.2.2.2 (w, u) hrel).symm
    refine List.mem_toFinset.2 ?_
    rw [← hulab, hlabuw]
    exact hinv.1 w hwV

/-- Initialization of `components_quickfind`: the dict comprehension gives
every distinct endpoint its own fresh singleton list; distinct cell
identifiers (indices into the deduplicated vertex list) model the distinct
list objects. -/
def qfInit (edges : Edges) : UF Nat :=
  { lab := fun v => ((vtxList edges).dedup).indexOf v
    grp := fun i =>
      match ((vtxList edges).dedup)[i]? with
      | some v => [v]
      | none => [] }

/-- Model of `components_quickfind` from dicts.py. -/
def components_quickfind (edges : Edges) : Finset (Finset Vtx) :=
  ufResult (ufRun edges (qfInit edges)) (vtxList edges)

/-- Initialization of `components_quickfind_classic`: every endpoint is its
own representative with a singleton chain. -/
def qfcInit : UF Vtx := { lab := fun v => v, grp := fun v => [v] }

/-- Model of `components_quickfind_classic` from dicts.py. -/
def components_quickfind_classic (edges : Edges) : Finset (Finset Vtx) :=
  ufResult (ufRun edges qfcInit) (vtxList edges)

lemma qfInit_singleton (edges : Edges) :
    ∀ v ∈ vset edges, (qfInit edges).grp ((qfInit edges).lab v) = [v] := by
  intro v hv
  have hvmem : v ∈ (vtxList edges).dedup := by
    rw [List.mem_dedup]
    exact (by simpa [vset] using hv)
  have hlt : ((vtxList edges).dedup).indexOf v < ((vtxList edges).dedup).length :=
    List.indexOf_lt_length.2 hvmem
  show (match ((vtxList edges).dedup)[((vtxList edges).dedup).indexOf v]? with
    | some w => [w]
    | none => []) = [v]
  rw [List.getElem?_eq_getElem hlt, List.getElem_indexOf hlt]

/-- Correctness of `components_quickfind` against the canonical
specification. -/
theorem components_quickfind_isComponents (edges : Edges) :
    IsComponents edges [] (components_quickfind edges) :=
  ufRun_isComponents edges (qfInit edges) (qfInit_singleton edges)

/-- Correctness of `components_quickfind_classic` against the canonical
specification. -/
theorem components_quickfind_classic_isComponents (edges : Edges) :
    IsComponents edges [] (components_quickfind_classic edges) :=
  ufRun_isComponents edges qfcInit (fun _ _ => rfl)

/-! ## `components` (dicts.py, lines 180-219)

The naive merge algorithm scans the component list per edge.  The scan has
two phases: before a component containing an endpooint is found, and after
(where a second matching component is merged into the first and deleted).
We model the second phase with `componentsMergeB`, carrying the
already-updated first match. -/

/-- Scan phase after the first match (`found is not None`): a second match
merges into the carried component and stops; the both-endpoints branch just
stops. -/
def componentsMergeB (a b : Vtx) (found : Finset Vtx) :
    List (Finset Vtx) → Finset Vtx × List (Finset Vtx)
  | [] => (found, [])
  | c :: rest =>
      if a ∈ c ∧ b ∉ c then (found ∪ insert b c, rest)
      else if a ∉ c ∧ b ∈ c then (found ∪ insert a c, rest)
      else if a ∈ c ∧ b ∈ c then (found, c :: rest)
      else
        let p := componentsMergeB a b found rest
        (p.1, c :: p.2)

/-- Scan phase before any match, entering phase two at the first component
meeting an endpoint; a component holding both endpoints stops the scan; if
nothing matches, a fresh two-element component is appended. -/
def componentsStep (a b : Vtx) : List (Finset Vtx) → List (Finset Vtx)
  | [] => [{a, b}]
  | c :: rest =>
      if a ∈ c ∧ b ∉ c then
        let p := componentsMergeB a b (insert b c) rest
        p.1 :: p.2
      else if a ∉ c ∧ b ∈ c then
        let p := componentsMergeB a b (insert a c) rest
        p.1 :: p.2
      else if a ∈ c ∧ b ∈ c then c :: rest
      else c :: componentsStep a b rest

/-- Model of `components` from dicts.py: run the scan per edge, then freeze
the component list into a set. -/
def components (edges : Edges) : Finset (Finset Vtx) :=
  (edges.foldl (fun cl e => componentsStep e.1 e.2 cl) []).toFinset

lemma componentsMergeB_no_match (a b : Vtx) (found : Finset Vtx) :
    ∀ l : List (Finset Vtx), (∀ c ∈ l, a ∉ c ∧ b ∉ c) →
      componentsMergeB a b found l = (found, l) := by
  intro l
  induction l with
  | nil => intro h; rfl
  | cons c rest ih =>
      intro h
      obtain ⟨ha, hb⟩ := h c (List.mem_cons_self _ _)
      have hrest := ih (fun d hd => h d (List.mem_cons_of_mem _ hd))
      show (if a ∈ c ∧ b ∉ c then _ else _) = _
      rw [if_neg (fun hc => ha hc.1), if_neg (fun hc => hb hc.2),
        if_neg (fun hc => ha hc.1)]
      simp [hrest]

lemma componentsMergeB_finds_b (a b : Vtx) (found : Finset Vtx)
    (l₁ : List (Finset Vtx)) (d : Finset Vtx) (l₂ : List (Finset Vtx))
    (h₁ : ∀ c ∈ l₁, a ∉ c ∧ b ∉ c) (had : a ∉ d) (hbd : b ∈ d) :
    componentsMergeB a b found (l₁ ++ d :: l₂)
      = (found ∪ insert a d, l₁ ++ l₂) := by
  induction l₁ with
  | nil =>
      show (if a ∈ d ∧ b ∉ d then _ else _) = _
      rw [if_neg (fun hc => had hc.1), if_pos ⟨had, hbd⟩]
      rfl
  | cons c rest ih =>
      obtain ⟨ha, hb⟩ := h₁ c (List.mem_cons_self _ _)
      have hrest := ih (fun x hx => h₁ x (List.mem_cons_of_mem _ hx))
      show (if a ∈ c ∧ b ∉ c then _ else _) = _
      rw [if_neg (fun hc => ha hc.1), if_neg (fun hc => hb hc.2),
        if_neg (fun hc => ha hc.1)]
      simp [hrest]

lemma componentsMergeB_finds_a (a b : Vtx) (found : Finset Vtx)
    (l₁ : List (Finset Vtx)) (d : Finset Vtx) (l₂ : List (Finset Vtx))
    (h₁ : ∀ c ∈ l₁, a ∉ c ∧ b ∉ c) (had : a ∈ d) (hbd : b ∉ d) :
    componentsMergeB a b found (l₁ ++ d :: l₂)
      = (found ∪ insert b d, l₁ ++ l₂) := by
  induction l₁ with
  | nil =>
      show (if a ∈ d ∧ b ∉ d then _ else _) = _
      rw [if_pos ⟨had, hbd⟩]
      rfl
  | cons c rest ih =>
      obtain ⟨ha, hb⟩ := h₁ c (List.mem_cons_self _ _)
      have hrest := ih (fun x hx => h₁ x (List.mem_cons_of_mem _ hx))
      show (if a ∈ c ∧ b ∉ c then _ else _) = _
      rw [if_neg (fun hc => ha hc.1), if_neg (fun hc => hb hc.2),
        if_neg (fun hc => ha hc.1)]
      simp [hrest]

lemma componentsStep_no_match (a b : Vtx) :
    ∀ l : List (Finset Vtx), (∀ c ∈ l, a ∉ c ∧ b ∉ c) →
      componentsStep a b l = l ++ [{a, b}] := by
  intro l
  induction l with
  | nil => intro h; rfl
  | cons c rest ih =>
      intro h
      obtain ⟨ha, hb⟩ := h c (List.mem_cons_self _ _)
      have hrest := ih (fun d hd => h d (List.mem_cons_of_mem _ hd))
      show (if a ∈ c ∧ b ∉ c then _ else _) = _
      rw [if_neg (fun hc => ha hc.1), if_neg (fun hc => hb hc.2),
        if_neg (fun hc => ha hc.1)]
      show c :: componentsStep a b rest = c :: rest ++ [{a, b}]
      rw [hrest]
      rfl

lemma componentsStep_first (a b : Vtx) (l₁ : List (Finset Vtx))
    (c : Finset Vtx) (l₂ : List (Finset Vtx))
    (h₁ : ∀ d ∈ l₁, a ∉ d ∧ b ∉ d) :
    componentsStep a b (l₁ ++ c :: l₂)
      = l₁ ++ componentsStep a b (c :: l₂) := by
  induction l₁ with
  | nil => rfl
  | cons d rest ih =>
      obtain ⟨ha, hb⟩ := h₁ d (List.mem_cons_self _ _)
      have hrest := ih (fun x hx => h₁ x (List.mem_cons_of_mem _ hx))
      show (if a ∈ d ∧ b ∉ d then _ else _) = _
      rw [if_neg (fun hc => ha hc.1), if_neg (fun hc => hb hc.2),
        if_neg (fun hc => ha hc.1)]
      show d :: componentsStep a b (rest ++ c :: l₂)
        = d :: rest ++ componentsStep a b (c :: l₂)
      rw [hrest]
      rfl

/-- Split a list at the first element satisfying a decidable predicate. -/
lemma firstSplit {α : Type} (p : α → Prop) [DecidablePred p] :
    ∀ l : List α, (∃ x ∈ l, p x) →
      ∃ (l₁ : List α) (x : α) (l₂ : List α),
        l = l₁ ++ x :: l₂ ∧ p x ∧ ∀ y ∈ l₁, ¬ p y := by
  intro l
  induction l with
  | nil => rintro ⟨x, hx, -⟩; exact absurd hx (List.not_mem_nil _)
  | cons c rest ih =>
      intro hex
      by_cases hc : p c
      · exact ⟨[], c, rest, rfl, hc, by simp⟩
      · have hex' : ∃ x ∈ rest, p x := by
          obtain ⟨x, hx, hpx⟩ := hex
          rcases List.mem_cons.1 hx with rfl | hx
          · exact absurd hpx hc
          · exact ⟨x, hx, hpx⟩
        obtain ⟨l₁, x, l₂, rfl, hpx, hmiss⟩ := ih hex'
        refine ⟨c :: l₁, x, l₂, rfl, hpx, ?_⟩
        intro y hy
        rcases List.mem_cons.1 hy with rfl | hy
        · exact hc
        · exact hmiss y hy

/-- Disjointness of two component sets (used positionally along the list). -/
def ListDisj (c d : Finset Vtx) : Prop := ∀ x, x ∈ c → x ∉ d

lemma listDisj_symm {c d : Finset Vtx} (h : ListDisj c d) : ListDisj d c :=
  fun x hxd hxc => h x hxc hxd

/-- Loop invariant of `components`: the component list is a family of
nonempty, vertex-covering, internally connected, edge-closed, pairwise
disjoint sets. -/
def NaiveInv (done : Edges) (cl : List (Finset Vtx)) : Prop :=
  (∀ c ∈ cl, c.Nonempty) ∧
  (∀ c ∈ cl, ∀ v ∈ c, v ∈ vset done) ∧
  (∀ v ∈ vset done, ∃ c ∈ cl, v ∈ c) ∧
  (∀ c ∈ cl, ∀ u ∈ c, ∀ v ∈ c, conn done u v) ∧
  (∀ c ∈ cl, ∀ u ∈ c, ∀ x, rel done u x → x ∈ c) ∧
  cl.Pairwise ListDisj

lemma pairwise_extract {cl l₁ l₂ : List (Finset Vtx)} {c : Finset Vtx}
    (h : cl.Pairwise ListDisj) (he : cl = l₁ ++ c :: l₂) :
    (∀ d ∈ l₁, ListDisj d c) ∧ (∀ d ∈ l₂, ListDisj c d) ∧
    ((l₁ ++ l₂).Pairwise ListDisj) := by
  subst he
  rw [List.pairwise_append] at h
  obtain ⟨h₁, h₂, h₃⟩ := h
  rw [List.pairwise_cons] at h₂
  refine ⟨?_, h₂.1, ?_⟩
  · intro d hd
    exact h₃ d hd c (List.mem_cons_self _ _)
  · rw [List.pairwise_append]
    refine ⟨h₁, h₂.2, ?_⟩
    intro d₁ hd₁ d₂ hd₂
    exact h₃ d₁ hd₁ d₂ (List.mem_cons_of_mem _ hd₂)

lemma pairwise_rebuild {l₁ l₂ : List (Finset Vtx)} {M : Finset Vtx}
    (h : (l₁ ++ l₂).Pairwise ListDisj)
    (hM : ∀ d, d ∈ l₁ ∨ d ∈ l₂ → ListDisj d M) :
    (l₁ ++ M :: l₂).Pairwise ListDisj := by
  rw [List.pairwise_append] at h
  obtain ⟨h₁, h₂, h₃⟩ := h
  rw [List.pairwise_append]
  refine ⟨h₁, ?_, ?_⟩
  · rw [List.pairwise_cons]
    refine ⟨?_, h₂⟩
    intro d hd
    exact listDisj_symm (hM d (Or.inr hd))
  · intro d₁ hd₁ d₂ hd₂
    rcases List.mem_cons.1 hd₂ with rfl | hd₂
    · exact hM d₁ (Or.inl hd₁)
    · exact h₃ d₁ hd₁ d₂ hd₂

section NaiveCases

variable {done done2 : Edges} {p q : Vtx}

/-- Case analysis helpers for one `components` scan, stated for an edge
`(p, q)` in either orientation via the two characterization hypotheses. -/
lemma naiveStep_fresh
    (hvs : ∀ x, x ∈ vset done2 ↔ x ∈ vset done ∨ x = p ∨ x = q)
    (hrel2 : ∀ u x, rel done2 u x ↔
      rel done u x ∨ (u = p ∧ x = q) ∨ (u = q ∧ x = p))
    {cl : List (Finset Vtx)} (hinv : NaiveInv done cl)
    (hfresh : ∀ c ∈ cl, p ∉ c ∧ q ∉ c) :
    NaiveInv done2 (cl ++ [{p, q}]) := by
  obtain ⟨hne, hsub, hcov, hconn, hclosed, hpair⟩ := hinv
  have hlift : ∀ {u v : Vtx}, conn done u v → conn done2 u v :=
    fun h => Relation.ReflTransGen.mono
      (fun x y hxy => (hrel2 x y).2 (Or.inl hxy)) h
  have hpq2 : conn done2 p q :=
    rel_conn ((hrel2 p q).2 (Or.inr (Or.inl ⟨rfl, rfl⟩)))
  have hmempq : ∀ x, x ∈ ({p, q} : Finset Vtx) ↔ x = p ∨ x = q := by
    intro x
    simp
  refine ⟨?_, ?_, ?_, ?_, ?_, ?_⟩
  · intro c hc
    rcases List.mem_append.1 hc with hc | hc
    · exact hne c hc
    · rcases List.mem_singleton.1 hc with rfl
      exact ⟨p, (hmempq p).2 (Or.inl rfl)⟩
  · intro c hc v hv
    rcases List.mem_append.1 hc with hc | hc
    · exact (hvs v).2 (Or.inl (hsub c hc v hv))
    · rcases List.mem_singleton.1 hc with rfl
      rcases (hmempq v).1 hv with hv' | hv'
      · exact (hvs v).2 (Or.inr (Or.inl hv'))
      · exact (hvs v).2 (Or.inr (Or.inr hv'))
  · intro x hx
    rcases (hvs x).1 hx with hx' | hx' | hx'
    · obtain ⟨c, hc, hxc⟩ := hcov x hx'
      exact ⟨c, List.mem_append.2 (Or.inl hc), hxc⟩
    · subst x
      exact ⟨{p, q}, List.mem_append.2 (Or.inr (List.mem_singleton.2 rfl)),
        (hmempq p).2 (Or.inl rfl)⟩
    · subst x
      exact ⟨{p, q}, List.mem_append.2 (Or.inr (List.mem_singleton.2 rfl)),
        (hmempq q).2 (Or.inr rfl)⟩
  · intro c hc u hu v hv
    rcases List.mem_append.1 hc with hc | hc
    · exact hlift (hconn c hc u hu v hv)
    · rcases List.mem_singleton.1 hc with rfl
      rcases (hmempq u).1 hu with hu' | hu' <;>
        rcases (hmempq v).1 hv with hv' | hv' <;> subst hu' <;> subst hv'
      · exact conn_refl _ _
      · exact hpq2
      · exact conn_symm hpq2
      · exact conn_refl _ _
  · intro c hc u hu x hx
    rcases List.mem_append.1 hc with hc | hc
    · rcases (hrel2 u x).1 hx with hx' | ⟨hu', hx'⟩ | ⟨hu', hx'⟩
      · exact hclosed c hc u hu x hx'
      · exact absurd (hu' ▸ hu) (hfresh c hc).1
      · exact absurd (hu' ▸ hu) (hfresh c hc).2
    · rcases List.mem_singleton.1 hc with rfl
      rcases (hrel2 u x).1 hx with hx' | ⟨hu', hx'⟩ | ⟨hu', hx'⟩
      · exfalso
        obtain ⟨d, hd, hud⟩ := hcov u (rel_fst_mem hx')
        rcases (hmempq u).1 hu with hu' | hu'
        · subst hu'
          exact (hfresh d hd).1 hud
        · subst hu'
          exact (hfresh d hd).2 hud
      · subst hx'
        exact (hmempq x).2 (Or.inr rfl)
      · subst hx'
        exact (hmempq x).2 (Or.inl rfl)
  · rw [List.pairwise_append]
    refine ⟨hpair, List.pairwise_singleton _ _, ?_⟩
    intro d hd e he
    rcases List.mem_singleton.1 he with rfl
    intro x hxd hxpq
    rcases (hmempq x).1 hxpq with hx' | hx'
    · subst hx'
      exact (hfresh d hd).1 hxd
    · subst hx'
      exact (hfresh d hd).2 hxd

lemma naiveStep_both
    (hvs : ∀ x, x ∈ vset done2 ↔ x ∈ vset done ∨ x = p ∨ x = q)
    (hrel2 : ∀ u x, rel done2 u x ↔
      rel done u x ∨ (u = p ∧ x = q) ∨ (u = q ∧ x = p))
    {cl : List (Finset Vtx)} (hinv : NaiveInv done cl)
    (hshare : ∀ d ∈ cl, (p ∈ d ↔ q ∈ d)) (hex : ∃ c ∈ cl, p ∈ c) :
    NaiveInv done2 cl := by
  obtain ⟨hne, hsub, hcov, hconn, hclosed, hpair⟩ := hinv
  have hlift : ∀ {u v : Vtx}, conn done u v → conn done2 u v :=
    fun h => Relation.ReflTransGen.mono
      (fun x y hxy => (hrel2 x y).2 (Or.inl hxy)) h
  refine ⟨hne, ?_, ?_, ?_, ?_, hpair⟩
  · intro c hc v hv
    exact (hvs v).2 (Or.inl (hsub c hc v hv))
  · intro x hx
    rcases (hvs x).1 hx with hx' | hx' | hx'
    · exact hcov x hx'
    · subst x
      exact hex
    · subst x
      obtain ⟨c, hc, hpc⟩ := hex
      exact ⟨c, hc, (hshare c hc).1 hpc⟩
  · intro c hc u hu v hv
    exact hlift (hconn c hc u hu v hv)
  · intro c hc u hu x hx
    rcases (hrel2 u x).1 hx with hx' | ⟨hu', hx'⟩ | ⟨hu', hx'⟩
    · exact hclosed c hc u hu x hx'
    · subst hu'
      subst hx'
      exact (hshare c hc).1 hu
    · subst hu'
      subst hx'
      exact (hshare c hc).2 hu

lemma naiveStep_attach
    (hvs : ∀ x, x ∈ vset done2 ↔ x ∈ vset done ∨ x = p ∨ x = q)
    (hrel2 : ∀ u x, rel done2 u x ↔
      rel done u x ∨ (u = p ∧ x = q) ∨ (u = q ∧ x = p))
    {l₁ l₂ : List (Finset Vtx)} {c : Finset Vtx}
    (hinv : NaiveInv done (l₁ ++ c :: l₂)) (hpc : p ∈ c)
    (hq : ∀ d ∈ l₁ ++ c :: l₂, q ∉ d) :
    NaiveInv done2 (l₁ ++ insert q c :: l₂) := by
  obtain ⟨hne, hsub, hcov, hconn, hclosed, hpair⟩ := hinv
  have hlift : ∀ {u v : Vtx}, conn done u v → conn done2 u v :=
    fun h => Relation.ReflTransGen.mono
      (fun x y hxy => (hrel2 x y).2 (Or.inl hxy)) h
  have hpq2 : conn done2 p q :=
    rel_conn ((hrel2 p q).2 (Or.inr (Or.inl ⟨rfl, rfl⟩)))
  have hcl : c ∈ l₁ ++ c :: l₂ :=
    List.mem_append.2 (Or.inr (List.mem_cons_self _ _))
  have hnepq : p ≠ q := fun h => hq c hcl (h ▸ hpc)
  have hqv : q ∉ vset done := by
    intro hc2
    obtain ⟨d, hd, hqd⟩ := hcov q hc2
    exact hq d hd hqd
  obtain ⟨hd₁, hd₂, hrest⟩ := pairwise_extract hpair rfl
  refine ⟨?_, ?_, ?_, ?_, ?_, ?_⟩
  · intro e he
    rcases List.mem_append.1 he with he | he
    · exact hne e (List.mem_append.2 (Or.inl he))
    · rcases List.mem_cons.1 he with rfl | he
      · exact ⟨q, Finset.mem_insert_self _ _⟩
      · exact hne e (List.mem_append.2 (Or.inr (List.mem_cons_of_mem _ he)))
  · intro e he v hv
    rcases List.mem_append.1 he with he | he
    · exact (hvs v).2 (Or.inl (hsub e (List.mem_append.2 (Or.inl he)) v hv))
    · rcases List.mem_cons.1 he with rfl | he
      · rcases Finset.mem_insert.1 hv with hv' | hv'
        · exact (hvs v).2 (Or.inr (Or.inr hv'))
        · exact (hvs v).2 (Or.inl (hsub c hcl v hv'))
      · exact (hvs v).2 (Or.inl (hsub e
          (List.mem_append.2 (Or.inr (List.mem_cons_of_mem _ he))) v hv))
  · intro x hx
    have hins : insert q c ∈ l₁ ++ insert q c :: l₂ :=
      List.mem_append.2 (Or.inr (List.mem_cons_self _ _))
    rcases (hvs x).1 hx with hx' | hx' | hx'
    · obtain ⟨d, hd, hxd⟩ := hcov x hx'
      rcases List.mem_append.1 hd with hd | hd
      · exact ⟨d, List.mem_append.2 (Or.inl hd), hxd⟩
      · rcases List.mem_cons.1 hd with hd' | hd
        · exact ⟨insert q c, hins, Finset.mem_insert_of_mem (hd' ▸ hxd)⟩
        · exact ⟨d, List.mem_append.2 (Or.inr (List.mem_cons_of_mem _ hd)), hxd⟩
    · subst x
      exact ⟨insert q c, hins, Finset.mem_insert_of_mem hpc⟩
    · subst x
      exact ⟨insert q c, hins, Finset.mem_insert_self _ _⟩
  · intro e he u hu v hv
    rcases List.mem_append.1 he with he | he
    · exact hlift (hconn e (List.mem_append.2 (Or.inl he)) u hu v hv)
    · rcases List.mem_cons.1 he with rfl | he
      · have hcside : ∀ w ∈ c, conn done2 q w := by
          intro w hw
          exact conn_trans (conn_symm hpq2) (hlift (hconn c hcl p hpc w hw))
        rcases Finset.mem_insert.1 hu with hu' | hu' <;>
          rcases Finset.mem_insert.1 hv with hv' | hv'
        · rw [hu', hv']
          exact conn_refl _ _
        · rw [hu']
          exact hcside v hv'
        · rw [hv']
          exact conn_symm (hcside u hu')
        · exact hlift (hconn c hcl u hu' v hv')
      · exact hlift (hconn e
          (List.mem_append.2 (Or.inr (List.mem_cons_of_mem _ he))) u hu v hv)
  · intro e he u hu x hx
    rcases List.mem_append.1 he with he | he
    · rcases (hrel2 u x).1 hx with hx' | ⟨hu', hx'⟩ | ⟨hu', hx'⟩
      · exact hclosed e (List.mem_append.2 (Or.inl he)) u hu x hx'
      · exact absurd hpc (hd₁ e he p (hu' ▸ hu))
      · exact absurd (hu' ▸ hu) (hq e (List.mem_append.2 (Or.inl he)))
    · rcases List.mem_cons.1 he with rfl | he
      · rcases Finset.mem_insert.1 hu with hu' | hu'
        · rcases (hrel2 u x).1 hx with hx' | ⟨hu2, hx'⟩ | ⟨-, hx'⟩
          · exact absurd (hu' ▸ rel_fst_mem hx') hqv
          · exact absurd (hu'.symm.trans hu2) hnepq.symm
          · rw [hx']
            exact Finset.mem_insert_of_mem hpc
        · rcases (hrel2 u x).1 hx with hx' | ⟨hu2, hx'⟩ | ⟨hu2, hx'⟩
          · exact Finset.mem_insert_of_mem (hclosed c hcl u hu' x hx')
          · rw [hx']
            exact Finset.mem_insert_self _ _
          · exact absurd (hu2 ▸ hu') (hq c hcl)
      · rcases (hrel2 u x).1 hx with hx' | ⟨hu', hx'⟩ | ⟨hu', hx'⟩
        · exact hclosed e
            (List.mem_append.2 (Or.inr (List.mem_cons_of_mem _ he))) u hu x hx'
        · exact absurd (hu' ▸ hu) (hd₂ e he p hpc)
        · exact absurd (hu' ▸ hu) (hq e
            (List.mem_append.2 (Or.inr (List.mem_cons_of_mem _ he))))
  · refine pairwise_rebuild hrest ?_
    intro e he x hxe hxins
    rcases Finset.mem_insert.1 hxins with hx' | hx'
    · rcases he with he | he
      · exact hq e (List.mem_append.2 (Or.inl he)) (hx' ▸ hxe)
      · exact hq e (List.mem_append.2 (Or.inr (List.mem_cons_of_mem _ he)))
          (hx' ▸ hxe)
    · rcases he with he | he
      · exact hd₁ e he x hxe hx'
      · exact hd₂ e he x hx' hxe

lemma naiveStep_merge
    (hvs : ∀ x, x ∈ vset done2 ↔ x ∈ vset done ∨ x = p ∨ x = q)
    (hrel2 : ∀ u x, rel done2 u x ↔
      rel done u x ∨ (u = p ∧ x = q) ∨ (u = q ∧ x = p))
    {l₁ l₂₁ l₂₂ : List (Finset Vtx)} {c d : Finset Vtx}
    (hinv : NaiveInv done (l₁ ++ c :: (l₂₁ ++ d :: l₂₂)))
    (hpc : p ∈ c) (hqd : q ∈ d) (hqc : q ∉ c) (hpd : p ∉ d) :
    NaiveInv done2 (l₁ ++ (insert q c ∪ insert p d) :: (l₂₁ ++ l₂₂)) := by
  obtain ⟨hne, hsub, hcov, hconn, hclosed, hpair⟩ := hinv
  have hlift : ∀ {u v : Vtx}, conn done u v → conn done2 u v :=
    fun h => Relation.ReflTransGen.mono
      (fun x y hxy => (hrel2 x y).2 (Or.inl hxy)) h
  have hpq2 : conn done2 p q :=
    rel_conn ((hrel2 p q).2 (Or.inr (Or.inl ⟨rfl, rfl⟩)))
  have hcl : c ∈ l₁ ++ c :: (l₂₁ ++ d :: l₂₂) :=
    List.mem_append.2 (Or.inr (List.mem_cons_self _ _))
  have hdmid : d ∈ l₂₁ ++ d :: l₂₂ :=
    List.mem_append.2 (Or.inr (List.mem_cons_self _ _))
  have hdl : d ∈ l₁ ++ c :: (l₂₁ ++ d :: l₂₂) :=
    List.mem_append.2 (Or.inr (List.mem_cons_of_mem _ hdmid))
  obtain ⟨hd₁, hd₂, hrest1⟩ := pairwise_extract hpair rfl
  have hassoc : l₁ ++ (l₂₁ ++ d :: l₂₂) = (l₁ ++ l₂₁) ++ d :: l₂₂ := by
    rw [List.append_assoc]
  obtain ⟨he₁, he₂, hrest2⟩ := pairwise_extract hrest1 hassoc
  set M := insert q c ∪ insert p d with hMdef
  have hM : ∀ x, x ∈ M ↔ x ∈ c ∨ x ∈ d := by
    intro x
    simp only [hMdef, Finset.mem_union, Finset.mem_insert]
    constructor
    · rintro ((h | h) | (h | h))
      · exact Or.inr (h ▸ hqd)
      · exact Or.inl h
      · exact Or.inl (h ▸ hpc)
      · exact Or.inr h
    · rintro (h | h)
      · exact Or.inl (Or.inr h)
      · exact Or.inr (Or.inr h)
  have hMmem : M ∈ l₁ ++ M :: (l₂₁ ++ l₂₂) :=
    List.mem_append.2 (Or.inr (List.mem_cons_self _ _))
  have hmem_old : ∀ e, (e ∈ l₁ ∨ e ∈ l₂₁ ∨ e ∈ l₂₂) →
      e ∈ l₁ ++ c :: (l₂₁ ++ d :: l₂₂) := by
    rintro e (he | he | he)
    · exact List.mem_append.2 (Or.inl he)
    · exact List.mem_append.2 (Or.inr (List.mem_cons_of_mem _
        (List.mem_append.2 (Or.inl he))))
    · exact List.mem_append.2 (Or.inr (List.mem_cons_of_mem _
        (List.mem_append.2 (Or.inr (List.mem_cons_of_mem _ he)))))
  have hmem_new : ∀ e, (e ∈ l₁ ∨ e ∈ l₂₁ ∨ e ∈ l₂₂) →
      e ∈ l₁ ++ M :: (l₂₁ ++ l₂₂) := by
    rintro e (he | he | he)
    · exact List.mem_append.2 (Or.inl he)
    · exact List.mem_append.2 (Or.inr (List.mem_cons_of_mem _
        (List.mem_append.2 (Or.inl he))))
    · exact List.mem_append.2 (Or.inr (List.mem_cons_of_mem _
        (List.mem_append.2 (Or.inr he))))
  have hcase_new : ∀ e, e ∈ l₁ ++ M :: (l₂₁ ++ l₂₂) →
      e = M ∨ (e ∈ l₁ ∨ e ∈ l₂₁ ∨ e ∈ l₂₂) := by
    intro e he
    rcases List.mem_append.1 he with he | he
    · exact Or.inr (Or.inl he)
    · rcases List.mem_cons.1 he with he | he
      · exact Or.inl he
      · rcases List.mem_append.1 he with he | he
        · exact Or.inr (Or.inr (Or.inl he))
        · exact Or.inr (Or.inr (Or.inr he))
  have hpnot : ∀ e, (e ∈ l₁ ∨ e ∈ l₂₁ ∨ e ∈ l₂₂) → p ∉ e := by
    rintro e (he | he | he) hp
    · exact hd₁ e he p hp hpc
    · exact hd₂ e (List.mem_append.2 (Or.inl he)) p hpc hp
    · exact hd₂ e (List.mem_append.2 (Or.inr (List.mem_cons_of_mem _ he)))
        p hpc hp
  have hqnot : ∀ e, (e ∈ l₁ ∨ e ∈ l₂₁ ∨ e ∈ l₂₂) → q ∉ e := by
    rintro e (he | he | he) hq
    · exact he₁ e (List.mem_append.2 (Or.inl he)) q hq hqd
    · exact he₁ e (List.mem_append.2 (Or.inr he)) q hq hqd
    · exact he₂ e he q hqd hq
  have hconnpM : ∀ w, w ∈ M → conn done2 p w := by
    intro w hw
    rcases (hM w).1 hw with hw | hw
    · exact hlift (hconn c hcl p hpc w hw)
    · exact conn_trans hpq2 (hlift (hconn d hdl q hqd w hw))
  refine ⟨?_, ?_, ?_, ?_, ?_, ?_⟩
  · intro e he
    rcases hcase_new e he with rfl | he
    · exact ⟨p, (hM p).2 (Or.inl hpc)⟩
    · exact hne e (hmem_old e he)
  · intro e he v hv
    rcases hcase_new e he with rfl | he
    · rcases (hM v).1 hv with hv | hv
      · exact (hvs v).2 (Or.inl (hsub c hcl v hv))
      · exact (hvs v).2 (Or.inl (hsub d hdl v hv))
    · exact (hvs v).2 (Or.inl (hsub e (hmem_old e he) v hv))
  · intro x hx
    rcases (hvs x).1 hx with hx' | hx' | hx'
    · obtain ⟨e, he, hxe⟩ := hcov x hx'
      rcases List.mem_append.1 he with he | he
      · exact ⟨e, hmem_new e (Or.inl he), hxe⟩
      · rcases List.mem_cons.1 he with he' | he
        · exact ⟨M, hMmem, (hM x).2 (Or.inl (he' ▸ hxe))⟩
        · rcases List.mem_append.1 he with he | he
          · exact ⟨e, hmem_new e (Or.inr (Or.inl he)), hxe⟩
          · rcases List.mem_cons.1 he with he' | he
            · exact ⟨M, hMmem, (hM x).2 (Or.inr (he' ▸ hxe))⟩
            · exact ⟨e, hmem_new e (Or.inr (Or.inr he)), hxe⟩
    · exact ⟨M, hMmem, hx' ▸ (hM p).2 (Or.inl hpc)⟩
    · exact ⟨M, hMmem, hx' ▸ (hM q).2 (Or.inr hqd)⟩
  · intro e he u hu v hv
    rcases hcase_new e he with rfl | he
    · exact conn_trans (conn_symm (hconnpM u hu)) (hconnpM v hv)
    · exact hlift (hconn e (hmem_old e he) u hu v hv)
  · intro e he u hu x hx
    rcases hcase_new e he with rfl | he
    · rcases (hM u).1 hu with hu' | hu'
      · rcases (hrel2 u x).1 hx with hx' | ⟨hu2, hx'⟩ | ⟨hu2, hx'⟩
        · exact (hM x).2 (Or.inl (hclosed c hcl u hu' x hx'))
        · exact (hM x).2 (Or.inr (hx' ▸ hqd))
        · exact absurd (hu2 ▸ hu') hqc
      · rcases (hrel2 u x).1 hx with hx' | ⟨hu2, hx'⟩ | ⟨hu2, hx'⟩
        · exact (hM x).2 (Or.inr (hclosed d hdl u hu' x hx'))
        · exact absurd (hu2 ▸ hu') hpd
        · exact (hM x).2 (Or.inl (hx' ▸ hpc))
    · rcases (hrel2 u x).1 hx with hx' | ⟨hu2, hx'⟩ | ⟨hu2, hx'⟩
      · exact hclosed e (hmem_old e he) u hu x hx'
      · exact absurd (hu2 ▸ hu) (hpnot e he)
      · exact absurd (hu2 ▸ hu) (hqnot e he)
  · have hrest : (l₁ ++ (l₂₁ ++ l₂₂)).Pairwise ListDisj := by
      rw [← List.append_assoc]
      exact hrest2
    refine pairwise_rebuild hrest ?_
    intro e he x hxe hxM
    have he3 : e ∈ l₁ ∨ e ∈ l₂₁ ∨ e ∈ l₂₂ := by
      rcases he with he | he
      · exact Or.inl he
      · rcases List.mem_append.1 he with he | he
        · exact Or.inr (Or.inl he)
        · exact Or.inr (Or.inr he)
    rcases (hM x).1 hxM with hx' | hx'
    · rcases he3 with he' | he' | he'
      · exact hd₁ e he' x hxe hx'
      · exact hd₂ e (List.mem_append.2 (Or.inl he')) x hx' hxe
      · exact hd₂ e (List.mem_append.2 (Or.inr (List.mem_cons_of_mem _ he')))
          x hx' hxe
    · rcases he3 with he' | he' | he'
      · exact he₁ e (List.mem_append.2 (Or.inl he')) x hxe hx'
      · exact he₁ e (List.mem_append.2 (Or.inr he')) x hxe hx'
      · exact he₂ e he' x hx' hxe

end NaiveCases

lemma vtxList_append (l₁ l₂ : Edges) :
    vtxList (l₁ ++ l₂) = vtxList l₁ ++ vtxList l₂ := by
  induction l₁ with
  | nil => simp
  | cons e es ih => simp [ih]

lemma vset_snoc (done : Edges) (a b : Vtx) :
    ∀ x, x ∈ vset (done ++ [(a, b)]) ↔ x ∈ vset done ∨ x = a ∨ x = b := by
  intro x
  simp only [vset, vtxList_append, List.toFinset_append, Finset.mem_union,
    List.mem_toFinset, vtxList_cons, vtxList_nil, List.mem_cons,
    List.not_mem_nil, or_false]

lemma rel_snoc (done : Edges) (a b : Vtx) :
    ∀ u x, rel (done ++ [(a, b)]) u x ↔
      rel done u x ∨ (u = a ∧ x = b) ∨ (u = b ∧ x = a) := by
  intro u x
  simp only [rel, List.mem_append, List.mem_singleton, Prod.mk.injEq]
  tauto

/-- One scan of `components` preserves the loop invariant. -/
lemma naiveStep_inv (done : Edges) (a b : Vtx) {cl : List (Finset Vtx)}
    (hinv : NaiveInv done cl) :
    NaiveInv (done ++ [(a, b)]) (componentsStep a b cl) := by
  have hvsab := vset_snoc done a b
  have hrelsnoc := rel_snoc done a b
  have hvsba : ∀ x, x ∈ vset (done ++ [(a, b)]) ↔
      x ∈ vset done ∨ x = b ∨ x = a := by
    intro x
    rw [hvsab x]
    tauto
  have hrelba : ∀ u x, rel (done ++ [(a, b)]) u x ↔
      rel done u x ∨ (u = b ∧ x = a) ∨ (u = a ∧ x = b) := by
    intro u x
    rw [hrelsnoc u x]
    tauto
  by_cases hex : ∃ c ∈ cl, a ∈ c ∨ b ∈ c
  · obtain ⟨l₁, c, l₂, heq, hc, hmiss⟩ :=
      firstSplit (fun c => a ∈ c ∨ b ∈ c) cl hex
    subst heq
    have hmiss' : ∀ d ∈ l₁, a ∉ d ∧ b ∉ d := fun d hd =>
      ⟨fun h => hmiss d hd (Or.inl h), fun h => hmiss d hd (Or.inr h)⟩
    rw [componentsStep_first a b l₁ c l₂ hmiss']
    obtain ⟨hd₁, hd₂, -⟩ := pairwise_extract hinv.2.2.2.2.2 rfl
    by_cases hac : a ∈ c
    · by_cases hbc : b ∈ c
      · have hstep : componentsStep a b (c :: l₂) = c :: l₂ := by
          show (if a ∈ c ∧ b ∉ c then _ else _) = _
          rw [if_neg (fun h => h.2 hbc), if_neg (fun h => h.1 hac),
            if_pos ⟨hac, hbc⟩]
        rw [hstep]
        refine naiveStep_both hvsab hrelsnoc hinv ?_
          ⟨c, List.mem_append.2 (Or.inr (List.mem_cons_self _ _)), hac⟩
        intro d hd
        rcases List.mem_append.1 hd with hd | hd
        · exact ⟨fun h => absurd h (hmiss' d hd).1,
            fun h => absurd h (hmiss' d hd).2⟩
        · rcases List.mem_cons.1 hd with hd' | hd
          · rw [hd']
            exact ⟨fun _ => hbc, fun _ => hac⟩
          · exact ⟨fun h => absurd h ((hd₂ d hd) a hac),
              fun h => absurd h ((hd₂ d hd) b hbc)⟩
      · have hstep : componentsStep a b (c :: l₂)
            = (componentsMergeB a b (insert b c) l₂).1
              :: (componentsMergeB a b (insert b c) l₂).2 := by
          show (if a ∈ c ∧ b ∉ c then _ else _) = _
          rw [if_pos ⟨hac, hbc⟩]
        rw [hstep]
        have hal₂ : ∀ d ∈ l₂, a ∉ d := fun d hd => (hd₂ d hd) a hac
        by_cases hbl₂ : ∃ d ∈ l₂, b ∈ d
        · obtain ⟨l₂₁, d, l₂₂, heq₂, hbd, hmiss₂⟩ :=
            firstSplit (fun d => b ∈ d) l₂ hbl₂
          subst heq₂
          have had : a ∉ d := hal₂ d
            (List.mem_append.2 (Or.inr (List.mem_cons_self _ _)))
          rw [componentsMergeB_finds_b a b (insert b c) l₂₁ d l₂₂
            (fun x hx => ⟨hal₂ x (List.mem_append.2 (Or.inl hx)),
              hmiss₂ x hx⟩) had hbd]
          exact naiveStep_merge hvsab hrelsnoc hinv hac hbd hbc had
        · have hnob : ∀ d ∈ l₁ ++ c :: l₂, b ∉ d := by
            intro d hd
            rcases List.mem_append.1 hd with hd | hd
            · exact (hmiss' d hd).2
            · rcases List.mem_cons.1 hd with hd' | hd
              · rw [hd']
                exact hbc
              · exact fun h => hbl₂ ⟨d, hd, h⟩
          rw [componentsMergeB_no_match a b (insert b c) l₂
            (fun d hd => ⟨hal₂ d hd, fun h => hbl₂ ⟨d, hd, h⟩⟩)]
          exact naiveStep_attach hvsab hrelsnoc hinv hac hnob
    · have hbc : b ∈ c := hc.resolve_left hac
      have hstep : componentsStep a b (c :: l₂)
          = (componentsMergeB a b (insert a c) l₂).1
            :: (componentsMergeB a b (insert a c) l₂).2 := by
        show (if a ∈ c ∧ b ∉ c then _ else _) = _
        rw [if_neg (fun h => hac h.1), if_pos ⟨hac, hbc⟩]
      rw [hstep]
      have hbl₂ : ∀ d ∈ l₂, b ∉ d := fun d hd => (hd₂ d hd) b hbc
      by_cases hal₂ : ∃ d ∈ l₂, a ∈ d
      · obtain ⟨l₂₁, d, l₂₂, heq₂, had, hmiss₂⟩ :=
          firstSplit (fun d => a ∈ d) l₂ hal₂
        subst heq₂
        have hbd : b ∉ d := hbl₂ d
          (List.mem_append.2 (Or.inr (List.mem_cons_self _ _)))
        rw [componentsMergeB_finds_a a b (insert a c) l₂₁ d l₂₂
          (fun x hx => ⟨hmiss₂ x hx,
            hbl₂ x (List.mem_append.2 (Or.inl hx))⟩) had hbd]
        exact naiveStep_merge hvsba hrelba hinv hbc had hac hbd
      · have hnoa : ∀ d ∈ l₁ ++ c :: l₂, a ∉ d := by
          intro d hd
          rcases List.mem_append.1 hd with hd | hd
          · exact (hmiss' d hd).1
          · rcases List.mem_cons.1 hd with hd' | hd
            · rw [hd']
              exact hac
            · exact fun h => hal₂ ⟨d, hd, h⟩
        rw [componentsMergeB_no_match a b (insert a c) l₂
          (fun d hd => ⟨fun h => hal₂ ⟨d, hd, h⟩, hbl₂ d hd⟩)]
        exact naiveStep_attach hvsba hrelba hinv hbc hnoa
  · push_neg at hex
    rw [componentsStep_no_match a b cl hex]
    exact naiveStep_fresh hvsab hrelsnoc hinv hex

lemma naiveFold_inv :
    ∀ (suf pre : Edges) (cl : List (Finset Vtx)),
      NaiveInv pre cl →
      NaiveInv (pre ++ suf)
        (suf.foldl (fun cl e => componentsStep e.1 e.2 cl) cl) := by
  intro suf
  induction suf with
  | nil =>
      intro pre cl hinv
      simpa using hinv
  | cons e suf ih =>
      intro pre cl hinv
      rw [List.foldl_cons]
      have hstep : NaiveInv (pre ++ [(e.1, e.2)]) (componentsStep e.1 e.2 cl) :=
        naiveStep_inv pre e.1 e.2 hinv
      have := ih (pre ++ [(e.1, e.2)]) (componentsStep e.1 e.2 cl) hstep
      simpa [List.append_assoc] using this

/-- Correctness of `components` against the canonical specification. -/
theorem components_isComponents (edges : Edges) :
    IsComponents edges [] (components edges) := by
  have hbase : NaiveInv [] [] := by
    refine ⟨by simp, by simp, ?_, by simp, by simp, by simp⟩
    intro v hv
    simp [vset] at hv
  have hinv := naiveFold_inv edges [] [] hbase
  rw [List.nil_append] at hinv
  obtain ⟨hne, hsub, hcov, hconn, hclosed, -⟩ := hinv
  refine ⟨?_, ?_, ?_, ?_, ?_⟩
  · intro C hC
    exact hne C (List.mem_toFinset.1 hC)
  · intro C hC v hv
    rw [uset_nil]
    exact hsub C (List.mem_toFinset.1 hC) v hv
  · intro v hv
    rw [uset_nil] at hv
    obtain ⟨c, hc, hvc⟩ := hcov v hv
    exact ⟨c, List.mem_toFinset.2 hc, hvc⟩
  · intro C hC u hu v hv
    exact hconn C (List.mem_toFinset.1 hC) u hu v hv
  · intro C hC u hu v hrel
    exact hclosed C (List.mem_toFinset.1 hC) u hu v hrel

/-! ## `components_quickunion` (dicts.py, lines 453-496)

Union by rank with full path compression.  `find` follows parent pointers
recursively, repointing every visited vertex at the root.  We model the
parent map as a function, the recursion with fuel (provably sufficient under
the rank invariant), and root-finding by the inductive relation `Reaches`. -/

/-- Pointwise update of a parent map. -/
def fupd (p : Vtx → Vtx) (v r : Vtx) : Vtx → Vtx :=
  fun x => if x = v then r else p x

lemma fupd_self (p : Vtx → Vtx) (v r : Vtx) : fupd p v r v = r := if_pos rfl

lemma fupd_other (p : Vtx → Vtx) {v x : Vtx} (r : Vtx) (h : x ≠ v) :
    fupd p v r x = p x := if_neg h

/-- The parent chain from `v` terminates at the fixpoint `r`. -/
inductive Reaches (p : Vtx → Vtx) : Vtx → Vtx → Prop
  | root : ∀ {v}, p v = v → Reaches p v v
  | step : ∀ {v r}, Reaches p (p v) r → Reaches p v r

lemma reaches_fix {p : Vtx → Vtx} {v r : Vtx} (h : Reaches p v r) : p r = r := by
  induction h with
  | root h => exact h
  | step _ ih => exact ih

lemma reaches_of_fix {p : Vtx → Vtx} {v r : Vtx} (hfix : p v = v)
    (h : Reaches p v r) : r = v := by
  revert hfix
  induction h with
  | root _ => intro _; rfl
  | step _ ih =>
      intro hfix
      rw [hfix] at ih
      exact ih hfix

lemma reaches_tail {p : Vtx → Vtx} {v r : Vtx} (h : Reaches p v r) :
    Reaches p (p v) r := by
  cases h with
  | root h =>
      rw [h]
      exact Reaches.root h
  | step h => exact h

lemma reaches_unique {p : Vtx → Vtx} {v r₁ r₂ : Vtx}
    (h₁ : Reaches p v r₁) (h₂ : Reaches p v r₂) : r₁ = r₂ := by
  revert h₂
  induction h₁ with
  | root h => exact fun h₂ => (reaches_of_fix h h₂).symm
  | step _ ih => exact fun h₂ => ih (reaches_tail h₂)

lemma reaches_mem {p : Vtx → Vtx} {V : Finset Vtx}
    (hcl : ∀ w ∈ V, p w ∈ V) {v r : Vtx} (hv : v ∈ V)
    (h : Reaches p v r) : r ∈ V := by
  revert hv
  induction h with
  | root _ => exact fun hv => hv
  | step _ ih =>
      rename_i w r2 h2
      exact fun hv => ih (hcl w hv)

lemma reaches_rank_le {p : Vtx → Vtx} {rnk : Vtx → Nat}
    (hrk : ∀ w, p w ≠ w → rnk w < rnk (p w)) {v r : Vtx}
    (h : Reaches p v r) : rnk v ≤ rnk r := by
  induction h with
  | root _ => exact le_refl _
  | step h2 ih =>
      rename_i w r2
      by_cases hw : p w = w
      · rw [hw] at ih
        exact ih
      · exact le_trans (le_of_lt (hrk w hw)) ih

lemma reaches_rank_lt {p : Vtx → Vtx} {rnk : Vtx → Nat}
    (hrk : ∀ w, p w ≠ w → rnk w < rnk (p w)) {v r : Vtx}
    (h : Reaches p v r) (hne : v ≠ r) : rnk v < rnk r := by
  by_cases hw : p v = v
  · exact absurd (reaches_of_fix hw h).symm hne
  · exact lt_of_lt_of_le (hrk v hw) (reaches_rank_le hrk (reaches_tail h))

/-- Path compression preserves roots: repointing `v` at its own root does
not change which root any vertex reaches. -/
lemma reaches_update {p : Vtx → Vtx} {v r : Vtx} (hvr : Reaches p v r) :
    ∀ x s, Reaches (fupd p v r) x s ↔ Reaches p x s := by
  have hfixr : p r = r := reaches_fix hvr
  have hfixr2 : fupd p v r r = r := by
    by_cases hr : r = v
    · rw [show fupd p v r r = fupd p v r v from by rw [hr], fupd_self, hr]
    · rw [fupd_other p r hr, hfixr]
  have hvr2 : Reaches (fupd p v r) v r := by
    by_cases hrv : r = v
    · subst hrv
      exact Reaches.root hfixr2
    · refine Reaches.step ?_
      rw [fupd_self]
      exact Reaches.root hfixr2
  intro x s
  constructor
  · intro h
    induction h with
    | root hfix =>
        rename_i w
        by_cases hw : w = v
        · subst hw
          rw [fupd_self] at hfix
          exact hfix ▸ hvr
        · rw [fupd_other p r hw] at hfix
          exact Reaches.root hfix
    | step h ih =>
        rename_i w s2
        by_cases hw : w = v
        · subst hw
          rw [fupd_self] at ih
          have hs : s2 = r := reaches_of_fix hfixr ih
          exact hs ▸ hvr
        · rw [fupd_other p r hw] at ih
          exact Reaches.step ih
  · intro h
    induction h with
    | root hfix =>
        rename_i w
        by_cases hw : w = v
        · subst hw
          have hr : r = w := reaches_of_fix hfix hvr
          exact hr ▸ hvr2
        · exact Reaches.root (by rw [fupd_other p r hw, hfix])
    | step h ih =>
        rename_i w s2
        by_cases hw : w = v
        · subst hw
          have hs : s2 = r := reaches_unique (Reaches.step h) hvr
          exact hs ▸ hvr2
        · refine Reaches.step ?_
          rw [fupd_other p r hw]
          exact ih

/-- Linking root `a` under root `b` reroutes exactly the vertices that used
to reach `a`; every other vertex keeps its root. -/
lemma reaches_link {p : Vtx → Vtx} {a b : Vtx}
    (hfa : p a = a) (hfb : p b = b) (hab : a ≠ b) :
    ∀ x s, Reaches (fupd p a b) x s ↔
      ((Reaches p x s ∧ s ≠ a) ∨ (Reaches p x a ∧ s = b)) := by
  have hfb2 : fupd p a b b = b := by
    rw [fupd_other p b (Ne.symm hab), hfb]
  have hab2 : Reaches (fupd p a b) a b :=
    Reaches.step (by rw [fupd_self]; exact Reaches.root hfb2)
  have aux1 : ∀ x s, Reaches p x s → s ≠ a → Reaches (fupd p a b) x s := by
    intro x s h
    induction h with
    | root hfix =>
        rename_i w
        intro hsa
        exact Reaches.root (by rw [fupd_other p b hsa, hfix])
    | step h ih =>
        rename_i w s2
        intro hsa
        by_cases hw : w = a
        · subst hw
          rw [hfa] at h
          exact absurd (reaches_of_fix hfa h) hsa
        · refine Reaches.step ?_
          rw [fupd_other p b hw]
          exact ih hsa
  have aux2 : ∀ x s, Reaches p x s → s = a → Reaches (fupd p a b) x b := by
    intro x s h
    induction h with
    | root hfix =>
        rename_i w
        intro hsa
        exact hsa ▸ hab2
    | step h ih =>
        rename_i w s2
        intro hsa
        by_cases hw : w = a
        · subst hw
          exact hab2
        · refine Reaches.step ?_
          rw [fupd_other p b hw]
          exact ih hsa
  intro x s
  constructor
  · intro h
    induction h with
    | root hfix =>
        rename_i w
        by_cases hw : w = a
        · subst hw
          rw [fupd_self] at hfix
          exact absurd hfix.symm hab
        · rw [fupd_other p b hw] at hfix
          exact Or.inl ⟨Reaches.root hfix, hw⟩
    | step h ih =>
        rename_i w s2
        by_cases hw : w = a
        · subst hw
          rw [fupd_self] at ih
          rcases ih with ⟨hbs, hsa⟩ | ⟨hba, hsb⟩
          · have hs : s2 = b := reaches_of_fix hfb hbs
            exact Or.inr ⟨Reaches.root hfa, hs⟩
          · exact absurd (reaches_of_fix hfb hba) hab
        · rw [fupd_other p b hw] at ih
          rcases ih with ⟨h1, h2⟩ | ⟨h1, h2⟩
          · exact Or.inl ⟨Reaches.step h1, h2⟩
          · exact Or.inr ⟨Reaches.step h1, h2⟩
  · rintro (⟨hxs, hsa⟩ | ⟨hxa, hsb⟩)
    · exact aux1 x s hxs hsa
    · exact hsb ▸ aux2 x a hxa rfl

/-- `find` from components_quickunion (dicts.py 470-473): follow parent
pointers to the root, repointing every visited vertex at the root (full path
compression).  Python's recursion is modelled with fuel; `none` stands for
exhausted fuel and is proved unreachable for the fuel used below. -/
def quFind : Nat → (Vtx → Vtx) → Vtx → Option (Vtx × (Vtx → Vtx))
  | 0, _, _ => none
  | fuel + 1, p, v =>
      if p v = v then some (v, p)
      else
        match quFind fuel p (p v) with
        | none => none
        | some rp => some (rp.1, fupd rp.2 v rp.1)

/-- Parent map and rank map of components_quickunion (dicts.py 467-468),
as total functions: every vertex starts as its own parent with rank 0,
which agrees with the Python dicts on all vertices they mention. -/
structure QU where
  par : Vtx → Vtx
  rnk : Vtx → Nat

/-- `union` from components_quickunion (dicts.py 475-488): find both roots,
stop if equal, otherwise attach the lower-rank root under the higher-rank
root, bumping the surviving root's rank on a tie (ties attach `v`'s root
under `u`'s root). -/
def quUnion (fuel : Nat) (st : QU) (u v : Vtx) : Option QU :=
  match quFind fuel st.par u with
  | none => none
  | some rpu =>
    match quFind fuel rpu.2 v with
    | none => none
    | some rpv =>
      if rpu.1 = rpv.1 then some { par := rpv.2, rnk := st.rnk }
      else if st.rnk rpu.1 < st.rnk rpv.1 then
        some { par := fupd rpv.2 rpu.1 rpv.1, rnk := st.rnk }
      else if st.rnk rpu.1 = st.rnk rpv.1 then
        some { par := fupd rpv.2 rpv.1 rpu.1,
               rnk := fun x => if x = rpu.1 then st.rnk rpu.1 + 1 else st.rnk x }
      else
        some { par := fupd rpv.2 rpv.1 rpu.1, rnk := st.rnk }

/-- The union loop of components_quickunion (dicts.py 490-491). -/
def quRun (fuel : Nat) (edges : Edges) : Option QU :=
  edges.foldl (fun ost e => ost.bind (fun st => quUnion fuel st e.1 e.2))
    (some { par := fun v => v, rnk := fun _ => 0 })

/-- `sets_by_ancestor[find(vertex)].append(vertex)` (dicts.py 493-495):
append `v` to the group keyed `r`, creating the group if absent. -/
def addGroup : List (Vtx × List Vtx) → Vtx → Vtx → List (Vtx × List Vtx)
  | [], r, v => [(r, [v])]
  | (k, l) :: rest, r, v =>
      if k = r then (k, l ++ [v]) :: rest else (k, l) :: addGroup rest r v

/-- The grouping loop of components_quickunion (dicts.py 493-495); each
`find` call keeps compressing paths, so the parent map is threaded. -/
def quCollect (fuel : Nat) :
    List Vtx → (Vtx → Vtx) → List (Vtx × List Vtx) →
    Option ((Vtx → Vtx) × List (Vtx × List Vtx))
  | [], p, groups => some (p, groups)
  | v :: rest, p, groups =>
      match quFind fuel p v with
      | none => none
      | some rp => quCollect fuel rest rp.2 (addGroup groups rp.1 v)

/-- Fuel that provably suffices for every `find` in a run. -/
def quFuel (edges : Edges) : Nat := (vtxList edges).length + 1

/-- components_quickunion (dicts.py, lines 453-496).  The Python grouping
loop iterates the parent dict's keys (first occurrences of the vertices);
we iterate `(vtxList edges).dedup`, which lists the same vertices, possibly
in another order — the resulting set of frozen sets is the same.  The `∅`
branch is proved unreachable. -/
def components_quickunion (edges : Edges) : Finset (Finset Vtx) :=
  match (quRun (quFuel edges) edges).bind
      (fun st => quCollect (quFuel edges) (vtxList edges).dedup st.par []) with
  | some pg => (pg.2.map (fun g => g.2.toFinset)).toFinset
  | none => ∅

/-- What a successful `find` guarantees: the returned vertex is the root,
and compression changes no vertex's root, preserves the rank invariant, and
keeps the parent map closed over `V`. -/
lemma quFind_spec {V : Finset Vtx} {rnk : Vtx → Nat} :
    ∀ fuel p v r p', quFind fuel p v = some (r, p') →
    (∀ w, p w ≠ w → rnk w < rnk (p w)) →
    Reaches p v r ∧
    (∀ x s, Reaches p' x s ↔ Reaches p x s) ∧
    (∀ w, p' w ≠ w → rnk w < rnk (p' w)) ∧
    ((∀ w ∈ V, p w ∈ V) → v ∈ V → ∀ w ∈ V, p' w ∈ V) := by
  intro fuel
  induction fuel with
  | zero => intro p v r p' h; exact absurd h (by simp [quFind])
  | succ f ih =>
      intro p v r p' h hrk
      by_cases hfix : p v = v
      · rw [show quFind (f + 1) p v = some (v, p) from by simp [quFind, hfix]] at h
        obtain ⟨hr, hp⟩ : v = r ∧ p = p' := by
          constructor
          · exact congrArg Prod.fst (Option.some_injective _ h)
          · exact congrArg Prod.snd (Option.some_injective _ h)
        subst hr
        subst hp
        refine ⟨Reaches.root hfix, fun x s => Iff.rfl, hrk, ?_⟩
        intro hcl _ w hw
        exact hcl w hw
      · rcases hrec : quFind f p (p v) with _ | ⟨r₁, p₁⟩
        · rw [show quFind (f + 1) p v = none from by simp [quFind, hfix, hrec]] at h
          exact absurd h (by simp)
        · rw [show quFind (f + 1) p v = some (r₁, fupd p₁ v r₁) from by
            simp [quFind, hfix, hrec]] at h
          obtain ⟨hr, hp⟩ : r₁ = r ∧ fupd p₁ v r₁ = p' := by
            constructor
            · exact congrArg Prod.fst (Option.some_injective _ h)
            · exact congrArg Prod.snd (Option.some_injective _ h)
          subst hr
          subst hp
          obtain ⟨hv1, hiff1, hrk1, hcl1⟩ := ih p (p v) r₁ p₁ hrec hrk
          have hvr : Reaches p v r₁ := Reaches.step hv1
          have hvr1 : Reaches p₁ v r₁ := (hiff1 v r₁).mpr hvr
          have hiff2 := reaches_update hvr1
          refine ⟨hvr, ?_, ?_, ?_⟩
          · intro x s
            exact (hiff2 x s).trans (hiff1 x s)
          · intro w hw
            by_cases hwv : w = v
            · subst hwv
              rw [fupd_self] at hw ⊢
              exact reaches_rank_lt hrk hvr (fun hh => hw hh.symm)
            · rw [fupd_other p₁ r₁ hwv] at hw ⊢
              exact hrk1 w hw
          · intro hcl hvV w hw
            by_cases hwv : w = v
            · subst hwv
              rw [fupd_self]
              exact reaches_mem hcl hvV hvr
            · rw [fupd_other p₁ r₁ hwv]
              exact hcl1 hcl (hcl v hvV) w hw

/-- Fuel sufficiency for `find`: under the rank invariant the parent chain
from `v` strictly climbs in rank inside `V`, so fuel exceeding the number
of higher-ranked vertices of `V` suffices. -/
lemma quFind_some {V : Finset Vtx} {rnk : Vtx → Nat} :
    ∀ fuel p v, (∀ w, p w ≠ w → rnk w < rnk (p w)) →
    (∀ w ∈ V, p w ∈ V) → v ∈ V →
    (V.filter (fun w => rnk v < rnk w)).card < fuel →
    ∃ r p', quFind fuel p v = some (r, p') := by
  intro fuel
  induction fuel with
  | zero => intro p v _ _ _ hcard; exact absurd hcard (by simp)
  | succ f ih =>
      intro p v hrk hcl hv hcard
      by_cases hfix : p v = v
      · exact ⟨v, p, by simp [quFind, hfix]⟩
      · have hsub : V.filter (fun w => rnk (p v) < rnk w) ⊂
            V.filter (fun w => rnk v < rnk w) := by
          refine Finset.ssubset_iff_of_subset ?_ |>.mpr ?_
          · intro w hw
            rw [Finset.mem_filter] at hw ⊢
            exact ⟨hw.1, lt_trans (hrk v hfix) hw.2⟩
          · refine ⟨p v, ?_, ?_⟩
            · rw [Finset.mem_filter]
              exact ⟨hcl v hv, hrk v hfix⟩
            · rw [Finset.mem_filter]
              push_neg
              intro _
              exact le_refl _
        have hcard2 : (V.filter (fun w => rnk (p v) < rnk w)).card < f := by
          have h1 := Finset.card_lt_card hsub
          omega
        obtain ⟨r, p₁, hrec⟩ := ih p (p v) hrk hcl (hcl v hv) hcard2
        exact ⟨r, fupd p₁ v r, by simp [quFind, hfix, hrec]⟩

/-- Invariant of the union loop: the parent map is closed over the vertex
set, ranks strictly climb along parent pointers, every vertex is connected
(through the processed edges) to its root, and both endpoints of every
processed edge share a root. -/
def QUInv (V : Finset Vtx) (done : Edges) (st : QU) : Prop :=
  (∀ w ∈ V, st.par w ∈ V) ∧
  (∀ w, st.par w ≠ w → st.rnk w < st.rnk (st.par w)) ∧
  (∀ w ∈ V, ∀ r, Reaches st.par w r → conn done w r) ∧
  (∀ e ∈ done, ∀ r, Reaches st.par e.1 r ↔ Reaches st.par e.2 r)

/-- Effect of linking root `a` under root `b` on the non-rank parts of the
invariant, for an edge whose endpoints have roots `a` and `b` (in either
order). -/
lemma quLink_inv {V : Finset Vtx} {done : Edges} {p2 : Vtx → Vtx}
    {u v a b : Vtx}
    (hconn2 : ∀ w ∈ V, ∀ r, Reaches p2 w r → conn done w r)
    (hclo2 : ∀ e ∈ done, ∀ r, Reaches p2 e.1 r ↔ Reaches p2 e.2 r)
    (hfa : p2 a = a) (hfb : p2 b = b) (hab : a ≠ b)
    (huV : u ∈ V) (hvV : v ∈ V) (haV : a ∈ V) (hbV : b ∈ V)
    (hroots : (Reaches p2 u a ∧ Reaches p2 v b) ∨
              (Reaches p2 u b ∧ Reaches p2 v a)) :
    ((∀ w ∈ V, p2 w ∈ V) → ∀ w ∈ V, fupd p2 a b w ∈ V) ∧
    (∀ w ∈ V, ∀ r, Reaches (fupd p2 a b) w r → conn (done ++ [(u, v)]) w r) ∧
    (∀ e ∈ done ++ [(u, v)], ∀ r,
      Reaches (fupd p2 a b) e.1 r ↔ Reaches (fupd p2 a b) e.2 r) := by
  have hlink := reaches_link hfa hfb hab
  have hsub : ∀ e, e ∈ done → e ∈ done ++ [(u, v)] := by
    intro e he
    exact List.mem_append_left _ he
  have hedge : rel (done ++ [(u, v)]) u v :=
    Or.inl (List.mem_append_right _ (List.mem_singleton.mpr rfl))
  have hconnab : conn (done ++ [(u, v)]) a b := by
    rcases hroots with ⟨hua, hvb⟩ | ⟨hub, hva⟩
    · refine conn_trans (conn_symm (conn_of_subset hsub (hconn2 u huV a hua)))
        (conn_trans (rel_conn hedge)
          (conn_of_subset hsub (hconn2 v hvV b hvb)))
    · refine conn_trans (conn_symm (conn_of_subset hsub (hconn2 v hvV a hva)))
        (conn_trans (rel_conn (rel_symm hedge))
          (conn_of_subset hsub (hconn2 u huV b hub)))
  refine ⟨?_, ?_, ?_⟩
  · intro hcl w hw
    by_cases hwa : w = a
    · subst hwa
      rw [fupd_self]
      exact hbV
    · rw [fupd_other p2 b hwa]
      exact hcl w hw
  · intro w hw r h3
    rcases (hlink w r).mp h3 with ⟨h2, _⟩ | ⟨h2, hrb⟩
    · exact conn_of_subset hsub (hconn2 w hw r h2)
    · subst hrb
      exact conn_trans (conn_of_subset hsub (hconn2 w hw a h2)) hconnab
  · intro e he r
    rcases List.mem_append.mp he with he | he
    · rw [hlink e.1 r, hlink e.2 r, hclo2 e he r, hclo2 e he a]
    · rw [List.mem_singleton.mp he]
      rw [hlink u r, hlink v r]
      rcases hroots with ⟨hua, hvb⟩ | ⟨hub, hva⟩
      · constructor
        · rintro (⟨h1, h2⟩ | ⟨h1, h2⟩)
          · exact absurd (reaches_unique h1 hua) h2
          · subst h2
            exact Or.inl ⟨hvb, Ne.symm hab⟩
        · rintro (⟨h1, h2⟩ | ⟨h1, h2⟩)
          · rw [reaches_unique h1 hvb]
            exact Or.inr ⟨hua, rfl⟩
          · exact absurd (reaches_unique h1 hvb) hab
      · constructor
        · rintro (⟨h1, h2⟩ | ⟨h1, h2⟩)
          · rw [reaches_unique h1 hub]
            exact Or.inr ⟨hva, rfl⟩
          · exact absurd (reaches_unique h1 hub) hab
        · rintro (⟨h1, h2⟩ | ⟨h1, h2⟩)
          · exact absurd (reaches_unique h1 hva) h2
          · subst h2
            exact Or.inl ⟨hub, Ne.symm hab⟩

/-- One `union` call succeeds and preserves the invariant, extending the
processed edge list by the edge just handled. -/
lemma quUnion_inv {V : Finset Vtx} {done : Edges} {st : QU} {u v : Vtx}
    {fuel : Nat} (hu : u ∈ V) (hv : v ∈ V) (hinv : QUInv V done st)
    (hfuel : V.card < fuel) :
    ∃ st₂, quUnion fuel st u v = some st₂ ∧ QUInv V (done ++ [(u, v)]) st₂ := by
  obtain ⟨hcl, hrk, hconn, hclo⟩ := hinv
  have hcard : ∀ x : Vtx, (V.filter (fun w => st.rnk x < st.rnk w)).card < fuel :=
    fun x => lt_of_le_of_lt (Finset.card_le_card (Finset.filter_subset _ _)) hfuel
  obtain ⟨ru, p1, hfu⟩ := quFind_some fuel st.par u hrk hcl hu (hcard u)
  obtain ⟨hru, hiff1, hrk1, hcl1aux⟩ := quFind_spec fuel st.par u ru p1 hfu hrk
  have hcl1 : ∀ w ∈ V, p1 w ∈ V := hcl1aux hcl hu
  obtain ⟨rv, p2, hfv⟩ := quFind_some fuel p1 v hrk1 hcl1 hv (hcard v)
  obtain ⟨hrv1, hiff2, hrk2, hcl2aux⟩ := quFind_spec fuel p1 v rv p2 hfv hrk1
  have hcl2 : ∀ w ∈ V, p2 w ∈ V := hcl2aux hcl1 hv
  have hiff : ∀ x s, Reaches p2 x s ↔ Reaches st.par x s :=
    fun x s => (hiff2 x s).trans (hiff1 x s)
  have hru2 : Reaches p2 u ru := (hiff u ru).mpr hru
  have hrv2 : Reaches p2 v rv := (hiff2 v rv).mpr hrv1
  have hfixu : p2 ru = ru := reaches_fix hru2
  have hfixv : p2 rv = rv := reaches_fix hrv2
  have hruV : ru ∈ V := reaches_mem hcl hu hru
  have hrvV : rv ∈ V := reaches_mem hcl1 hv hrv1
  have hconn2 : ∀ w ∈ V, ∀ r, Reaches p2 w r → conn done w r :=
    fun w hw r h => hconn w hw r ((hiff w r).mp h)
  have hclo2 : ∀ e ∈ done, ∀ r, Reaches p2 e.1 r ↔ Reaches p2 e.2 r :=
    fun e he r => (hiff e.1 r).trans ((hclo e he r).trans (hiff e.2 r).symm)
  have hsub : ∀ e, e ∈ done → e ∈ done ++ [(u, v)] := by
    intro e he
    exact List.mem_append_left _ he
  have hstep : quUnion fuel st u v =
      (if ru = rv then some { par := p2, rnk := st.rnk }
       else if st.rnk ru < st.rnk rv then
         some { par := fupd p2 ru rv, rnk := st.rnk }
       else if st.rnk ru = st.rnk rv then
         some { par := fupd p2 rv ru,
                rnk := fun x => if x = ru then st.rnk ru + 1 else st.rnk x }
       else some { par := fupd p2 rv ru, rnk := st.rnk }) := by
    unfold quUnion
    rw [hfu]
    dsimp only
    rw [hfv]
  by_cases heq : ru = rv
  · refine ⟨{ par := p2, rnk := st.rnk }, by rw [hstep, if_pos heq], ?_, hrk2, ?_, ?_⟩
    · exact hcl2
    · intro w hw r h
      exact conn_of_subset hsub (hconn2 w hw r h)
    · intro e he r
      rcases List.mem_append.mp he with he | he
      · exact hclo2 e he r
      · rw [List.mem_singleton.mp he]
        constructor
        · intro h
          rw [reaches_unique h hru2, heq]
          exact hrv2
        · intro h
          rw [reaches_unique h hrv2, ← heq]
          exact hru2
  · by_cases hlt : st.rnk ru < st.rnk rv
    · obtain ⟨hA, hB, hC⟩ := quLink_inv hconn2 hclo2 hfixu hfixv heq hu hv hruV
        hrvV (Or.inl ⟨hru2, hrv2⟩)
      refine ⟨{ par := fupd p2 ru rv, rnk := st.rnk },
        by rw [hstep, if_neg heq, if_pos hlt], hA hcl2, ?_, hB, hC⟩
      intro w hw
      dsimp only at hw ⊢
      by_cases hwu : w = ru
      · subst hwu
        rw [fupd_self] at hw ⊢
        exact hlt
      · rw [fupd_other p2 rv hwu] at hw ⊢
        exact hrk2 w hw
    · have hvu : rv ≠ ru := fun h => heq h.symm
      by_cases htie : st.rnk ru = st.rnk rv
      · obtain ⟨hA, hB, hC⟩ := quLink_inv hconn2 hclo2 hfixv hfixu hvu hu hv hrvV
          hruV (Or.inr ⟨hru2, hrv2⟩)
        refine ⟨{ par := fupd p2 rv ru,
                  rnk := fun x => if x = ru then st.rnk ru + 1 else st.rnk x },
          by rw [hstep, if_neg heq, if_neg hlt, if_pos htie], hA hcl2, ?_, hB, hC⟩
        intro w hw
        dsimp only at hw ⊢
        have hbump : ∀ x, st.rnk x ≤ if x = ru then st.rnk ru + 1 else st.rnk x := by
          intro x
          by_cases hx : x = ru
          · rw [if_pos hx, hx]
            exact Nat.le_succ _
          · rw [if_neg hx]
        by_cases hwv : w = rv
        · subst hwv
          rw [fupd_self] at hw ⊢
          rw [if_neg hvu, if_pos rfl, ← htie]
          exact Nat.lt_succ_self _
        · rw [fupd_other p2 ru hwv] at hw ⊢
          by_cases hwu : w = ru
          · subst hwu
            exact absurd hfixu hw
          · rw [if_neg hwu]
            exact lt_of_lt_of_le (hrk2 w hw) (hbump (p2 w))
      · have hgt : st.rnk rv < st.rnk ru := by omega
        obtain ⟨hA, hB, hC⟩ := quLink_inv hconn2 hclo2 hfixv hfixu hvu hu hv hrvV
          hruV (Or.inr ⟨hru2, hrv2⟩)
        refine ⟨{ par := fupd p2 rv ru, rnk := st.rnk },
          by rw [hstep, if_neg heq, if_neg hlt, if_neg htie], hA hcl2, ?_, hB, hC⟩
        intro w hw
        dsimp only at hw ⊢
        by_cases hwv : w = rv
        · subst hwv
          rw [fupd_self] at hw ⊢
          exact hgt
        · rw [fupd_other p2 ru hwv] at hw ⊢
          exact hrk2 w hw

/-- The whole union loop succeeds and establishes the invariant for the
full edge list. -/
lemma quFold_inv {V : Finset Vtx} {fuel : Nat} (hfuel : V.card < fuel) :
    ∀ (suf pre : Edges) (st : QU), QUInv V pre st →
    (∀ e ∈ suf, e.1 ∈ V ∧ e.2 ∈ V) →
    ∃ st', suf.foldl (fun ost e => ost.bind (fun s => quUnion fuel s e.1 e.2))
        (some st) = some st' ∧ QUInv V (pre ++ suf) st' := by
  intro suf
  induction suf with
  | nil =>
      intro pre st hinv _
      refine ⟨st, rfl, ?_⟩
      rw [List.append_nil]
      exact hinv
  | cons e rest ih =>
      intro pre st hinv hv
      obtain ⟨st₂, hstep, hinv₂⟩ :=
        quUnion_inv (hv e (List.mem_cons_self e rest)).1
          (hv e (List.mem_cons_self e rest)).2 hinv hfuel
      have hinv₂' : QUInv V (pre ++ [e]) st₂ := by
        rw [show ((e.1, e.2) : Vtx × Vtx) = e from rfl] at hinv₂
        exact hinv₂
      obtain ⟨st', hrun, hinv'⟩ := ih (pre ++ [e]) st₂ hinv₂'
        (fun e' he' => hv e' (List.mem_cons_of_mem e he'))
      refine ⟨st', ?_, ?_⟩
      · rw [List.foldl_cons, Option.some_bind, hstep]
        exact hrun
      · rw [List.append_assoc, List.singleton_append] at hinv'
        exact hinv'

lemma quInit_inv (V : Finset Vtx) :
    QUInv V [] { par := fun v => v, rnk := fun _ => 0 } := by
  refine ⟨fun w hw => hw, fun w hw => absurd rfl hw, ?_, ?_⟩
  · intro w _ r h
    rw [reaches_of_fix rfl h]
    exact conn_refl _ _
  · intro e he
    exact absurd he (List.not_mem_nil e)

/-! Entry-level facts about `addGroup` (the `defaultdict(list)` append). -/

lemma addGroup_cons_pos {k : Vtx} {l : List Vtx} (rest : List (Vtx × List Vtx))
    (r v : Vtx) (h : k = r) :
    addGroup ((k, l) :: rest) r v = (k, l ++ [v]) :: rest := by
  simp only [addGroup, if_pos h]

lemma addGroup_cons_neg {k : Vtx} {l : List Vtx} (rest : List (Vtx × List Vtx))
    (r v : Vtx) (h : k ≠ r) :
    addGroup ((k, l) :: rest) r v = (k, l) :: addGroup rest r v := by
  simp only [addGroup, if_neg h]

lemma addGroup_keys_mem :
    ∀ (groups : List (Vtx × List Vtx)) (r v : Vtx),
    r ∈ groups.map Prod.fst →
    (addGroup groups r v).map Prod.fst = groups.map Prod.fst := by
  intro groups
  induction groups with
  | nil =>
      intro r v h
      exact absurd h (by simp)
  | cons g rest ih =>
      obtain ⟨k₀, l₀⟩ := g
      intro r v h
      by_cases hk : k₀ = r
      · rw [addGroup_cons_pos rest r v hk]
        simp only [List.map_cons]
      · rw [addGroup_cons_neg rest r v hk]
        have hr : r ∈ rest.map Prod.fst := by
          rcases List.mem_map.mp h with ⟨g', hg', hfst⟩
          rcases List.mem_cons.mp hg' with hg' | hg'
          · exact absurd (by rw [hg'] at hfst; exact hfst) hk
          · exact List.mem_map.mpr ⟨g', hg', hfst⟩
        simp only [List.map_cons]
        rw [ih r v hr]

lemma addGroup_keys_not :
    ∀ (groups : List (Vtx × List Vtx)) (r v : Vtx),
    r ∉ groups.map Prod.fst →
    (addGroup groups r v).map Prod.fst = groups.map Prod.fst ++ [r] := by
  intro groups
  induction groups with
  | nil =>
      intro r v _
      rfl
  | cons g rest ih =>
      obtain ⟨k₀, l₀⟩ := g
      intro r v h
      have hk : k₀ ≠ r := by
        intro hk
        exact h (List.mem_map.mpr ⟨(k₀, l₀), List.mem_cons_self _ rest, hk⟩)
      have hr : r ∉ rest.map Prod.fst := by
        intro hr
        rcases List.mem_map.mp hr with ⟨g', hg', hfst⟩
        exact h (List.mem_map.mpr ⟨g', List.mem_cons_of_mem _ hg', hfst⟩)
      rw [addGroup_cons_neg rest r v hk]
      simp only [List.map_cons]
      rw [ih r v hr]
      rfl

lemma addGroup_mem :
    ∀ (groups : List (Vtx × List Vtx)) (r v k : Vtx) (l : List Vtx),
    (k, l) ∈ addGroup groups r v →
    (k, l) ∈ groups ∨ (k = r ∧ l = [v]) ∨
      (k = r ∧ ∃ l₀, (r, l₀) ∈ groups ∧ l = l₀ ++ [v]) := by
  intro groups
  induction groups with
  | nil =>
      intro r v k l h
      have h2 : ((k, l) : Vtx × List Vtx) = (r, [v]) := List.mem_singleton.mp h
      exact Or.inr (Or.inl ⟨congrArg Prod.fst h2, congrArg Prod.snd h2⟩)
  | cons g rest ih =>
      obtain ⟨k₀, l₀⟩ := g
      intro r v k l h
      by_cases hk : k₀ = r
      · rw [addGroup_cons_pos rest r v hk] at h
        rcases List.mem_cons.mp h with h | h
        · refine Or.inr (Or.inr ⟨(congrArg Prod.fst h).trans hk, l₀, ?_, ?_⟩)
          · rw [← hk]
            exact List.mem_cons_self _ rest
          · exact congrArg Prod.snd h
        · exact Or.inl (List.mem_cons_of_mem _ h)
      · rw [addGroup_cons_neg rest r v hk] at h
        rcases List.mem_cons.mp h with h | h
        · rw [h]
          exact Or.inl (List.mem_cons_self _ rest)
        · rcases ih r v k l h with h | h | ⟨hkr, l₁, hl₁, hl⟩
          · exact Or.inl (List.mem_cons_of_mem _ h)
          · exact Or.inr (Or.inl h)
          · exact Or.inr (Or.inr ⟨hkr, l₁, List.mem_cons_of_mem _ hl₁, hl⟩)

lemma addGroup_old :
    ∀ (groups : List (Vtx × List Vtx)) (r v k : Vtx) (l : List Vtx),
    (k, l) ∈ groups → k ≠ r → (k, l) ∈ addGroup groups r v := by
  intro groups
  induction groups with
  | nil =>
      intro r v k l h _
      exact absurd h (List.not_mem_nil _)
  | cons g rest ih =>
      obtain ⟨k₀, l₀⟩ := g
      intro r v k l h hkr
      by_cases hk : k₀ = r
      · rw [addGroup_cons_pos rest r v hk]
        rcases List.mem_cons.mp h with h | h
        · exact absurd ((congrArg Prod.fst h).trans hk) hkr
        · exact List.mem_cons_of_mem _ h
      · rw [addGroup_cons_neg rest r v hk]
        rcases List.mem_cons.mp h with h | h
        · rw [h]
          exact List.mem_cons_self _ _
        · exact List.mem_cons_of_mem _ (ih r v k l h hkr)

lemma addGroup_upd :
    ∀ (groups : List (Vtx × List Vtx)) (r v : Vtx) (l : List Vtx),
    (groups.map Prod.fst).Nodup → (r, l) ∈ groups →
    (r, l ++ [v]) ∈ addGroup groups r v := by
  intro groups
  induction groups with
  | nil =>
      intro r v l _ h
      exact absurd h (List.not_mem_nil _)
  | cons g rest ih =>
      obtain ⟨k₀, l₀⟩ := g
      intro r v l hnd h
      rcases List.mem_cons.mp h with h | h
      · have hk : k₀ = r := (congrArg Prod.fst h).symm
        have hl : l₀ = l := (congrArg Prod.snd h).symm
        rw [addGroup_cons_pos rest r v hk, hk, hl]
        exact List.mem_cons_self _ _
      · have hk : k₀ ≠ r := by
          intro hk
          have hmem : r ∈ rest.map Prod.fst := List.mem_map.mpr ⟨(r, l), h, rfl⟩
          rw [List.map_cons] at hnd
          exact (List.nodup_cons.mp hnd).1 (hk ▸ hmem)
        rw [addGroup_cons_neg rest r v hk]
        refine List.mem_cons_of_mem _ (ih r v l ?_ h)
        rw [List.map_cons] at hnd
        exact (List.nodup_cons.mp hnd).2

lemma addGroup_new :
    ∀ (groups : List (Vtx × List Vtx)) (r v : Vtx),
    r ∉ groups.map Prod.fst → (r, [v]) ∈ addGroup groups r v := by
  intro groups
  induction groups with
  | nil =>
      intro r v _
      exact List.mem_singleton.mpr rfl
  | cons g rest ih =>
      obtain ⟨k₀, l₀⟩ := g
      intro r v h
      have hk : k₀ ≠ r := by
        intro hk
        exact h (List.mem_map.mpr ⟨(k₀, l₀), List.mem_cons_self _ rest, hk⟩)
      have hr : r ∉ rest.map Prod.fst := by
        intro hr
        rcases List.mem_map.mp hr with ⟨g', hg', hfst⟩
        exact h (List.mem_map.mpr ⟨g', List.mem_cons_of_mem _ hg', hfst⟩)
      rw [addGroup_cons_neg rest r v hk]
      exact List.mem_cons_of_mem _ (ih r v hr)

/-- With pairwise-distinct keys, an association list determines the value
of each key. -/
lemma nodup_keys_val :
    ∀ (groups : List (Vtx × List Vtx)) (k : Vtx) (l₁ l₂ : List Vtx),
    (groups.map Prod.fst).Nodup → (k, l₁) ∈ groups → (k, l₂) ∈ groups →
    l₁ = l₂ := by
  intro groups
  induction groups with
  | nil =>
      intro k l₁ l₂ _ h
      exact absurd h (List.not_mem_nil _)
  | cons g rest ih =>
      intro k l₁ l₂ hnd h₁ h₂
      rw [List.map_cons] at hnd
      rcases List.mem_cons.mp h₁ with h₁ | h₁ <;>
        rcases List.mem_cons.mp h₂ with h₂ | h₂
      · rw [← h₂] at h₁
        exact congrArg Prod.snd h₁
      · exfalso
        refine (List.nodup_cons.mp hnd).1 ?_
        rw [← congrArg Prod.fst h₁]
        exact List.mem_map.mpr ⟨(k, l₂), h₂, rfl⟩
      · exfalso
        refine (List.nodup_cons.mp hnd).1 ?_
        rw [← congrArg Prod.fst h₂]
        exact List.mem_map.mpr ⟨(k, l₁), h₁, rfl⟩
      · exact ih k l₁ l₂ (List.nodup_cons.mp hnd).2 h₁ h₂

/-- The grouping loop succeeds and produces, for each distinct root, the
group of processed vertices reaching that root. -/
lemma quCollect_spec {V : Finset Vtx} {rnk : Vtx → Nat} {p0 : Vtx → Vtx}
    {fuel : Nat} (hfuel : V.card < fuel) :
    ∀ (vs doneVs : List Vtx) (p : Vtx → Vtx) (groups : List (Vtx × List Vtx)),
    (∀ x s, Reaches p x s ↔ Reaches p0 x s) →
    (∀ w ∈ V, p w ∈ V) →
    (∀ w, p w ≠ w → rnk w < rnk (p w)) →
    (∀ w ∈ vs, w ∈ V) →
    (∀ k l, (k, l) ∈ groups → ∀ w ∈ l, w ∈ doneVs ∧ Reaches p0 w k) →
    (∀ w ∈ doneVs, ∃ k l, (k, l) ∈ groups ∧ w ∈ l) →
    (groups.map Prod.fst).Nodup →
    (∀ k l, (k, l) ∈ groups → l ≠ []) →
    ∃ pf gf, quCollect fuel vs p groups = some (pf, gf) ∧
      (∀ k l, (k, l) ∈ gf → ∀ w ∈ l, w ∈ doneVs ++ vs ∧ Reaches p0 w k) ∧
      (∀ w ∈ doneVs ++ vs, ∃ k l, (k, l) ∈ gf ∧ w ∈ l) ∧
      (gf.map Prod.fst).Nodup ∧
      (∀ k l, (k, l) ∈ gf → l ≠ []) := by
  intro vs
  induction vs with
  | nil =>
      intro doneVs p groups hA hcl hrk _ hD hE hF hG
      refine ⟨p, groups, rfl, ?_, ?_, hF, hG⟩
      · rw [List.append_nil]
        exact hD
      · rw [List.append_nil]
        exact hE
  | cons v rest ih =>
      intro doneVs p groups hA hcl hrk hvs hD hE hF hG
      have hvV : v ∈ V := hvs v (List.mem_cons_self v rest)
      have hcard : (V.filter (fun w => rnk v < rnk w)).card < fuel :=
        lt_of_le_of_lt (Finset.card_le_card (Finset.filter_subset _ _)) hfuel
      obtain ⟨r, p₁, hfv⟩ := quFind_some fuel p v hrk hcl hvV hcard
      obtain ⟨hvr, hiff1, hrk1, hcl1aux⟩ := quFind_spec fuel p v r p₁ hfv hrk
      have hcl1 : ∀ w ∈ V, p₁ w ∈ V := hcl1aux hcl hvV
      have hvr0 : Reaches p0 v r := (hA v r).mp hvr
      have hA1 : ∀ x s, Reaches p₁ x s ↔ Reaches p0 x s :=
        fun x s => (hiff1 x s).trans (hA x s)
      set g' := addGroup groups r v with hg'
      have hD' : ∀ k l, (k, l) ∈ g' → ∀ w ∈ l,
          w ∈ doneVs ++ [v] ∧ Reaches p0 w k := by
        intro k l hkl w hw
        rcases addGroup_mem groups r v k l hkl with hkl | ⟨hkr, hl⟩ |
            ⟨hkr, l₀, hl₀, hl⟩
        · obtain ⟨hw1, hw2⟩ := hD k l hkl w hw
          exact ⟨List.mem_append_left _ hw1, hw2⟩
        · rw [hl] at hw
          rw [List.mem_singleton.mp hw, hkr]
          exact ⟨List.mem_append_right _ (List.mem_singleton.mpr rfl), hvr0⟩
        · rw [hl] at hw
          rcases List.mem_append.mp hw with hw | hw
          · obtain ⟨hw1, hw2⟩ := hD r l₀ hl₀ w hw
            rw [hkr]
            exact ⟨List.mem_append_left _ hw1, hw2⟩
          · rw [List.mem_singleton.mp hw, hkr]
            exact ⟨List.mem_append_right _ (List.mem_singleton.mpr rfl), hvr0⟩
      have hE' : ∀ w ∈ doneVs ++ [v], ∃ k l, (k, l) ∈ g' ∧ w ∈ l := by
        intro w hw
        rcases List.mem_append.mp hw with hw | hw
        · obtain ⟨k, l, hkl, hwl⟩ := hE w hw
          by_cases hkr : k = r
          · subst hkr
            exact ⟨k, l ++ [v], addGroup_upd groups k v l hF hkl,
              List.mem_append_left _ hwl⟩
          · exact ⟨k, l, addGroup_old groups r v k l hkl hkr, hwl⟩
        · rw [List.mem_singleton.mp hw]
          by_cases hrk2 : r ∈ groups.map Prod.fst
          · rcases List.mem_map.mp hrk2 with ⟨⟨k₁, l₁⟩, hmem, hfst⟩
            rw [show k₁ = r from hfst] at hmem
            exact ⟨r, l₁ ++ [v], addGroup_upd groups r v l₁ hF hmem,
              List.mem_append_right _ (List.mem_singleton.mpr rfl)⟩
          · exact ⟨r, [v], addGroup_new groups r v hrk2,
              List.mem_singleton.mpr rfl⟩
      have hF' : (g'.map Prod.fst).Nodup := by
        by_cases hrk2 : r ∈ groups.map Prod.fst
        · rw [hg', addGroup_keys_mem groups r v hrk2]
          exact hF
        · rw [hg', addGroup_keys_not groups r v hrk2, List.nodup_append]
          refine ⟨hF, List.nodup_singleton r, ?_⟩
          intro a ha hra
          rw [List.mem_singleton.mp hra] at ha
          exact hrk2 ha
      have hG' : ∀ k l, (k, l) ∈ g' → l ≠ [] := by
        intro k l hkl
        rcases addGroup_mem groups r v k l hkl with hkl | ⟨_, hl⟩ |
            ⟨_, l₀, _, hl⟩
        · exact hG k l hkl
        · rw [hl]
          exact List.cons_ne_nil _ _
        · rw [hl]
          exact List.append_ne_nil_of_right_ne_nil _ (List.cons_ne_nil _ _)
      obtain ⟨pf, gf, hrun, hDf, hEf, hFf, hGf⟩ := ih (doneVs ++ [v]) p₁ g'
        hA1 hcl1 hrk1 (fun w hw => hvs w (List.mem_cons_of_mem v hw))
        hD' hE' hF' hG'
      refine ⟨pf, gf, ?_, ?_, ?_, hFf, hGf⟩
      · rw [show quCollect fuel (v :: rest) p groups =
            quCollect fuel rest p₁ (addGroup groups r v) from by
          simp only [quCollect, hfv]]
        exact hrun
      · rw [List.append_assoc, List.singleton_append] at hDf
        exact hDf
      · rw [List.append_assoc, List.singleton_append] at hEf
        exact hEf

/-- Correctness of components_quickunion: its result satisfies the
components specification (with no extra vertices). -/
theorem components_quickunion_isComponents (edges : Edges) :
    IsComponents edges [] (components_quickunion edges) := by
  have hfuel : (vset edges).card < quFuel edges := by
    have hle := List.toFinset_card_le (vtxList edges)
    unfold quFuel vset
    omega
  have hends : ∀ e ∈ edges, e.1 ∈ vset edges ∧ e.2 ∈ vset edges := by
    intro e he
    have hrel : rel edges e.1 e.2 := Or.inl (by rw [Prod.mk.eta]; exact he)
    exact ⟨rel_fst_mem hrel, rel_snd_mem hrel⟩
  obtain ⟨st, hrun, hinv⟩ :=
    quFold_inv hfuel edges [] _ (quInit_inv (vset edges)) hends
  rw [List.nil_append] at hinv
  obtain ⟨hcl, hrk, hconn, hclo⟩ := hinv
  have hvs : ∀ w ∈ (vtxList edges).dedup, w ∈ vset edges :=
    fun w hw => List.mem_toFinset.mpr (List.mem_dedup.mp hw)
  obtain ⟨pf, gf, hcol, hD, hE, hF, hG⟩ :=
    @quCollect_spec (vset edges) st.rnk st.par (quFuel edges) hfuel
      (vtxList edges).dedup
      [] st.par [] (fun x s => Iff.rfl) hcl hrk hvs
      (fun k l h => absurd h (List.not_mem_nil _))
      (fun w hw => absurd hw (List.not_mem_nil _))
      List.nodup_nil
      (fun k l h => absurd h (List.not_mem_nil _))
  rw [List.nil_append] at hE
  have hD' : ∀ k l, (k, l) ∈ gf → ∀ w ∈ l,
      w ∈ (vtxList edges).dedup ∧ Reaches st.par w k := by
    intro k l hkl w hw
    have := hD k l hkl w hw
    rwa [List.nil_append] at this
  have hres : components_quickunion edges =
      (gf.map (fun g => g.2.toFinset)).toFinset := by
    unfold components_quickunion
    rw [show quRun (quFuel edges) edges = some st from hrun]
    simp only [Option.some_bind]
    rw [hcol]
  have hmemC : ∀ C, C ∈ components_quickunion edges ↔
      ∃ k l, (k, l) ∈ gf ∧ C = l.toFinset := by
    intro C
    rw [hres, List.mem_toFinset, List.mem_map]
    constructor
    · rintro ⟨⟨k, l⟩, hmem, hC⟩
      exact ⟨k, l, hmem, hC.symm⟩
    · rintro ⟨k, l, hmem, hC⟩
      exact ⟨(k, l), hmem, hC.symm⟩
  have hroot_closed : ∀ w x k, Reaches st.par w k → rel edges w x →
      Reaches st.par x k := by
    intro w x k hw hrel
    rcases hrel with he | he
    · exact (hclo (w, x) he k).mp hw
    · exact (hclo (x, w) he k).mpr hw
  refine ⟨?_, ?_, ?_, ?_, ?_⟩
  · intro C hC
    obtain ⟨k, l, hkl, hCeq⟩ := (hmemC C).mp hC
    obtain ⟨x, hx⟩ := List.exists_mem_of_ne_nil l (hG k l hkl)
    exact ⟨x, by rw [hCeq]; exact List.mem_toFinset.mpr hx⟩
  · intro C hC w hw
    obtain ⟨k, l, hkl, hCeq⟩ := (hmemC C).mp hC
    rw [hCeq] at hw
    rw [uset_nil]
    exact hvs w (hD' k l hkl w (List.mem_toFinset.mp hw)).1
  · intro w hw
    rw [uset_nil] at hw
    have hwd : w ∈ (vtxList edges).dedup :=
      List.mem_dedup.mpr (List.mem_toFinset.mp hw)
    obtain ⟨k, l, hkl, hwl⟩ := hE w hwd
    exact ⟨l.toFinset, (hmemC _).mpr ⟨k, l, hkl, rfl⟩, List.mem_toFinset.mpr hwl⟩
  · intro C hC u hu v hv
    obtain ⟨k, l, hkl, hCeq⟩ := (hmemC C).mp hC
    rw [hCeq] at hu hv
    obtain ⟨hud, hur⟩ := hD' k l hkl u (List.mem_toFinset.mp hu)
    obtain ⟨hvd, hvr⟩ := hD' k l hkl v (List.mem_toFinset.mp hv)
    exact conn_trans (hconn u (hvs u hud) k hur)
      (conn_symm (hconn v (hvs v hvd) k hvr))
  · intro C hC w hw x hrel
    obtain ⟨k, l, hkl, hCeq⟩ := (hmemC C).mp hC
    rw [hCeq] at hw ⊢
    obtain ⟨hwd, hwr⟩ := hD' k l hkl w (List.mem_toFinset.mp hw)
    have hxr : Reaches st.par x k := hroot_closed w x k hwr hrel
    have hxd : x ∈ (vtxList edges).dedup :=
      List.mem_dedup.mpr (List.mem_toFinset.mp (rel_snd_mem hrel))
    obtain ⟨k', l', hkl', hxl'⟩ := hE x hxd
    have hk' : k' = k :=
      reaches_unique (hD' k' l' hkl' x hxl').2 hxr
    rw [hk'] at hkl'
    rw [nodup_keys_val gf k l l' hF hkl hkl']
    exact List.mem_toFinset.mpr hxl'

/-! ## `components_dict` / `components_d` (dicts.py, lines 222-289)

`components_dict` maintains a dict from vertex to a *shared mutable list*.
We model the heap explicitly: `cells` maps a numeric cell id (the Python
object identity) to the list's contents, `assign` is the dict as an
association list from vertex to cell id, and `next` is a fresh-id counter.
`components_d` is `_setofsets(components_dict(...))` (dicts.py 236, 239-243):
it deduplicates the dict's values by object identity and freezes them, i.e.
it is the set of frozen cell contents over all keys. -/

structure CD where
  assign : List (Vtx × Nat)
  cells : Nat → List Vtx
  next : Nat

/-- Dict lookup (`v in comp_dict` / `comp_dict[v]`). -/
def cdFind : List (Vtx × Nat) → Vtx → Option Nat
  | [], _ => none
  | (k, i) :: rest, v => if k = v then some i else cdFind rest v

/-- Dict store `comp_dict[v] = i` (replace if present, else append). -/
def cdSet : List (Vtx × Nat) → Vtx → Nat → List (Vtx × Nat)
  | [], v, i => [(v, i)]
  | (k, j) :: rest, v, i =>
      if k = v then (v, i) :: rest else (k, j) :: cdSet rest v i

/-- One iteration of the edge loop of components_dict (dicts.py 268-285).
The four branches: both endpoints known (merge the two cells unless they
are the same object, extending the bigger in place and repointing every
member of the smaller); only one endpoint known (append the other vertex
to the known cell *without giving it a dict entry*); neither known (fresh
two-element cell shared by both endpoints). -/
def cdEdgeStep (st : CD) (s d : Vtx) : CD :=
  match cdFind st.assign s, cdFind st.assign d with
  | some i, some j =>
      if i = j then st
      else
        let p := if (st.cells i).length < (st.cells j).length then (i, j)
                 else (j, i)
        { assign := (st.cells p.1).foldl (fun a elm => cdSet a elm p.2) st.assign,
          cells := fun n => if n = p.2 then st.cells p.2 ++ st.cells p.1
                            else st.cells n,
          next := st.next }
  | some i, none =>
      { assign := st.assign,
        cells := fun n => if n = i then st.cells i ++ [d] else st.cells n,
        next := st.next }
  | none, some j =>
      { assign := st.assign,
        cells := fun n => if n = j then st.cells j ++ [s] else st.cells n,
        next := st.next }
  | none, none =>
      { assign := cdSet (cdSet st.assign s st.next) d st.next,
        cells := fun n => if n = st.next then [s, d] else st.cells n,
        next := st.next + 1 }

/-- One iteration of the vertex loop of components_dict (dicts.py 286-288):
an unknown explicit vertex becomes its own fresh singleton cell. -/
def cdVertexStep (st : CD) (v : Vtx) : CD :=
  match cdFind st.assign v with
  | some _ => st
  | none =>
      { assign := cdSet st.assign v st.next,
        cells := fun n => if n = st.next then [v] else st.cells n,
        next := st.next + 1 }

/-- components_dict (dicts.py, lines 251-289): the final dict state. -/
def components_dict (edges : Edges) (vertices : List Vtx) : CD :=
  vertices.foldl cdVertexStep
    (edges.foldl (fun st e => cdEdgeStep st e.1 e.2)
      { assign := [], cells := fun _ => [], next := 0 })

/-- components_d (dicts.py, lines 222-236): freeze the dict's values,
deduplicated by object identity. -/
def components_d (edges : Edges) (vertices : List Vtx) : Finset (Finset Vtx) :=
  ((components_dict edges vertices).assign.map
    (fun kv => ((components_dict edges vertices).cells kv.2).toFinset)).toFinset

lemma cdFind_set (a : List (Vtx × Nat)) (v : Vtx) (i : Nat) (w : Vtx) :
    cdFind (cdSet a v i) w = if v = w then some i else cdFind a w := by
  induction a with
  | nil =>
      by_cases hvw : v = w
      · rw [if_pos hvw]
        exact if_pos hvw
      · rw [if_neg hvw]
        exact if_neg hvw
  | cons kj rest ih =>
      obtain ⟨k, j⟩ := kj
      by_cases hkv : k = v
      · rw [show cdSet ((k, j) :: rest) v i = (v, i) :: rest from by
          simp only [cdSet, if_pos hkv]]
        by_cases hvw : v = w
        · rw [show cdFind ((v, i) :: rest) w = some i from by
            simp only [cdFind, if_pos hvw], if_pos hvw]
        · rw [show cdFind ((v, i) :: rest) w = cdFind rest w from by
            simp only [cdFind, if_neg hvw], if_neg hvw]
          rw [show cdFind ((k, j) :: rest) w = cdFind rest w from by
            simp only [cdFind, if_neg (hkv ▸ hvw : ¬k = w)]]
      · rw [show cdSet ((k, j) :: rest) v i = (k, j) :: cdSet rest v i from by
          simp only [cdSet, if_neg hkv]]
        by_cases hkw : k = w
        · have hvw : ¬v = w := fun h => hkv (h ▸ hkw)
          rw [show cdFind ((k, j) :: cdSet rest v i) w = some j from by
            simp only [cdFind, if_pos hkw], if_neg hvw]
          rw [show cdFind ((k, j) :: rest) w = some j from by
            simp only [cdFind, if_pos hkw]]
        · rw [show cdFind ((k, j) :: cdSet rest v i) w = cdFind (cdSet rest v i) w
            from by simp only [cdFind, if_neg hkw]]
          rw [ih]
          by_cases hvw : v = w
          · rw [if_pos hvw, if_pos hvw]
          · rw [if_neg hvw, if_neg hvw]
            rw [show cdFind ((k, j) :: rest) w = cdFind rest w from by
              simp only [cdFind, if_neg hkw]]

lemma cdFind_mem : ∀ (a : List (Vtx × Nat)) (v : Vtx) (i : Nat),
    cdFind a v = some i → (v, i) ∈ a := by
  intro a
  induction a with
  | nil =>
      intro v i h
      exact absurd h (by simp [cdFind])
  | cons kj rest ih =>
      obtain ⟨k, j⟩ := kj
      intro v i h
      by_cases hkv : k = v
      · rw [show cdFind ((k, j) :: rest) v = some j from by
          simp only [cdFind, if_pos hkv]] at h
        rw [hkv, Option.some_injective _ h]
        exact List.mem_cons_self _ _
      · rw [show cdFind ((k, j) :: rest) v = cdFind rest v from by
          simp only [cdFind, if_neg hkv]] at h
        exact List.mem_cons_of_mem _ (ih v i h)

/-- The bookkeeping invariant of components_dict that the isolated-vertex
analysis needs: stored cell ids are below the fresh counter, every key is
an edge endpoint, and unallocated cells are empty. -/
def CDInv (edges : Edges) (st : CD) : Prop :=
  (∀ k i, cdFind st.assign k = some i → i < st.next ∧ k ∈ vset edges) ∧
  (∀ n, st.next ≤ n → st.cells n = []) ∧
  (∀ n w, w ∈ st.cells n → w ∈ vset edges)

lemma cdRepoint_find (val : Nat) :
    ∀ (lst : List Vtx) (a : List (Vtx × Nat)) (k : Vtx) (i : Nat),
    cdFind (lst.foldl (fun a elm => cdSet a elm val) a) k = some i →
    i = val ∨ cdFind a k = some i := by
  intro lst
  induction lst with
  | nil => exact fun a k i h => Or.inr h
  | cons x rest ih =>
      intro a k i h
      rw [List.foldl_cons] at h
      rcases ih (cdSet a x val) k i h with h | h
      · exact Or.inl h
      · rw [cdFind_set] at h
        by_cases hxk : x = k
        · rw [if_pos hxk] at h
          exact Or.inl (Option.some_injective _ h).symm
        · rw [if_neg hxk] at h
          exact Or.inr h

lemma cdRepoint_find_eq (val : Nat) :
    ∀ (lst : List Vtx) (a : List (Vtx × Nat)) (k : Vtx),
    cdFind (lst.foldl (fun a elm => cdSet a elm val) a) k =
      if k ∈ lst then some val else cdFind a k := by
  intro lst
  induction lst with
  | nil =>
      intro a k
      rw [if_neg (List.not_mem_nil k)]
      rfl
  | cons x rest ih =>
      intro a k
      rw [List.foldl_cons, ih (cdSet a x val) k]
      by_cases hkr : k ∈ rest
      · rw [if_pos hkr, if_pos (List.mem_cons_of_mem x hkr)]
      · rw [if_neg hkr, cdFind_set]
        by_cases hxk : x = k
        · rw [if_pos hxk, if_pos (by rw [hxk]; exact List.mem_cons_self _ _)]
        · rw [if_neg hxk, if_neg (by
            intro hk
            rcases List.mem_cons.mp hk with hk | hk
            · exact hxk hk.symm
            · exact hkr hk)]

lemma cdEdgeStep_inv {edges : Edges} {st : CD} {s d : Vtx}
    (hs : s ∈ vset edges) (hd : d ∈ vset edges) (hinv : CDInv edges st) :
    CDInv edges (cdEdgeStep st s d) := by
  obtain ⟨hkeys, hempty, hcells⟩ := hinv
  unfold cdEdgeStep
  rcases hfs : cdFind st.assign s with _ | i <;>
    rcases hfd : cdFind st.assign d with _ | j
  · -- fresh cell for both endpoints
    refine ⟨?_, ?_, ?_⟩
    · intro k i h
      simp only at h ⊢
      rw [cdFind_set] at h
      by_cases hdk : d = k
      · rw [if_pos hdk] at h
        have hin : st.next = i := Option.some_injective _ h
        exact ⟨by omega, hdk ▸ hd⟩
      · rw [if_neg hdk, cdFind_set] at h
        by_cases hsk : s = k
        · rw [if_pos hsk] at h
          have hin : st.next = i := Option.some_injective _ h
          exact ⟨by omega, hsk ▸ hs⟩
        · rw [if_neg hsk] at h
          obtain ⟨h1, h2⟩ := hkeys k i h
          exact ⟨by omega, h2⟩
    · intro n hn
      simp only at hn ⊢
      rw [if_neg (by omega : ¬n = st.next)]
      exact hempty n (by omega)
    · intro n w hw
      simp only at hw
      by_cases hn : n = st.next
      · rw [if_pos hn] at hw
        rcases List.mem_cons.mp hw with hw | hw
        · exact hw ▸ hs
        · exact (List.mem_singleton.mp hw) ▸ hd
      · rw [if_neg hn] at hw
        exact hcells n w hw
  · -- only d known
    refine ⟨hkeys, ?_, ?_⟩
    · intro n hn
      simp only at hn ⊢
      have hj : j < st.next := (hkeys d j hfd).1
      rw [if_neg (by omega : ¬n = j)]
      exact hempty n hn
    · intro n w hw
      simp only at hw
      by_cases hn : n = j
      · rw [if_pos hn] at hw
        rcases List.mem_append.mp hw with hw | hw
        · exact hcells j w hw
        · exact (List.mem_singleton.mp hw) ▸ hs
      · rw [if_neg hn] at hw
        exact hcells n w hw
  · -- only s known
    refine ⟨hkeys, ?_, ?_⟩
    · intro n hn
      simp only at hn ⊢
      have hi : i < st.next := (hkeys s i hfs).1
      rw [if_neg (by omega : ¬n = i)]
      exact hempty n hn
    · intro n w hw
      simp only at hw
      by_cases hn : n = i
      · rw [if_pos hn] at hw
        rcases List.mem_append.mp hw with hw | hw
        · exact hcells i w hw
        · exact (List.mem_singleton.mp hw) ▸ hd
      · rw [if_neg hn] at hw
        exact hcells n w hw
  · -- both known: merge unless same cell
    dsimp only
    by_cases hij : i = j
    · rw [if_pos hij]
      exact ⟨hkeys, hempty, hcells⟩
    · rw [if_neg hij]
      have hi : i < st.next := (hkeys s i hfs).1
      have hj : j < st.next := (hkeys d j hfd).1
      set p := if (st.cells i).length < (st.cells j).length then (i, j)
        else (j, i) with hp
      have hp2 : p.2 < st.next := by
        rw [hp]
        by_cases hlen : (st.cells i).length < (st.cells j).length
        · rw [if_pos hlen]
          exact hj
        · rw [if_neg hlen]
          exact hi
      refine ⟨?_, ?_, ?_⟩
      · intro k m h
        simp only at h ⊢
        rw [cdRepoint_find_eq] at h
        by_cases hk : k ∈ st.cells p.1
        · rw [if_pos hk] at h
          have hm : m = p.2 := (Option.some_injective _ h).symm
          exact ⟨hm ▸ hp2, hcells p.1 k hk⟩
        · rw [if_neg hk] at h
          obtain ⟨h1, h2⟩ := hkeys k m h
          exact ⟨h1, h2⟩
      · intro n hn
        simp only at hn ⊢
        rw [if_neg (by omega : ¬n = p.2)]
        exact hempty n hn
      · intro n w hw
        simp only at hw
        by_cases hn : n = p.2
        · rw [if_pos hn] at hw
          rcases List.mem_append.mp hw with hw | hw
          · exact hcells p.2 w hw
          · exact hcells p.1 w hw
        · rw [if_neg hn] at hw
          exact hcells n w hw

/-- The part of the invariant still meaningful during the explicit-vertex
loop (where keys need not be edge endpoints). -/
def CDInv2 (st : CD) : Prop :=
  (∀ k i, cdFind st.assign k = some i → i < st.next) ∧
  (∀ n, st.next ≤ n → st.cells n = [])

lemma cdInv_inv2 {edges : Edges} {st : CD} (h : CDInv edges st) : CDInv2 st :=
  ⟨fun k i hk => (h.1 k i hk).1, h.2.1⟩

lemma cdEdgeFold_inv {edges : Edges} :
    ∀ (l : Edges) (st : CD),
    (∀ e ∈ l, e.1 ∈ vset edges ∧ e.2 ∈ vset edges) → CDInv edges st →
    CDInv edges (l.foldl (fun st e => cdEdgeStep st e.1 e.2) st) := by
  intro l
  induction l with
  | nil => exact fun st _ hinv => hinv
  | cons e rest ih =>
      intro st hl hinv
      rw [List.foldl_cons]
      exact ih _ (fun e' he' => hl e' (List.mem_cons_of_mem e he'))
        (cdEdgeStep_inv (hl e (List.mem_cons_self e rest)).1
          (hl e (List.mem_cons_self e rest)).2 hinv)

lemma cdVertexStep_inv2 {st : CD} (w : Vtx) (hinv : CDInv2 st) :
    CDInv2 (cdVertexStep st w) := by
  obtain ⟨hkeys, hempty⟩ := hinv
  unfold cdVertexStep
  rcases hfw : cdFind st.assign w with _ | i
  · refine ⟨?_, ?_⟩
    · intro k i h
      simp only at h ⊢
      rw [cdFind_set] at h
      by_cases hwk : w = k
      · rw [if_pos hwk] at h
        have hin : st.next = i := Option.some_injective _ h
        omega
      · rw [if_neg hwk] at h
        have := hkeys k i h
        omega
    · intro n hn
      simp only at hn ⊢
      rw [if_neg (by omega : ¬n = st.next)]
      exact hempty n (by omega)
  · exact ⟨hkeys, hempty⟩

lemma cdVertexFold_keep :
    ∀ (vs : List Vtx) (st : CD) (k : Vtx) (i : Nat), CDInv2 st →
    cdFind st.assign k = some i →
    cdFind (vs.foldl cdVertexStep st).assign k = some i ∧
    (vs.foldl cdVertexStep st).cells i = st.cells i ∧
    CDInv2 (vs.foldl cdVertexStep st) := by
  intro vs
  induction vs with
  | nil => exact fun st k i hinv hk => ⟨hk, rfl, hinv⟩
  | cons w rest ih =>
      intro st k i hinv hk
      rw [List.foldl_cons]
      have hinv' := cdVertexStep_inv2 w hinv
      have hk' : cdFind (cdVertexStep st w).assign k = some i := by
        unfold cdVertexStep
        rcases hfw : cdFind st.assign w with _ | m
        · simp only
          rw [cdFind_set]
          have hwk : ¬w = k := by
            intro hwk
            rw [hwk, hk] at hfw
            exact Option.noConfusion hfw
          rw [if_neg hwk]
          exact hk
        · exact hk
      have hc' : (cdVertexStep st w).cells i = st.cells i := by
        unfold cdVertexStep
        rcases hfw : cdFind st.assign w with _ | m
        · simp only
          rw [if_neg (by have := hinv.1 k i hk; omega : ¬i = st.next)]
        · rfl
      obtain ⟨h1, h2, h3⟩ := ih (cdVertexStep st w) k i hinv' hk'
      exact ⟨h1, h2.trans hc', h3⟩

lemma cdVertexFold_new :
    ∀ (vs : List Vtx) (st : CD) (v : Vtx), CDInv2 st → v ∈ vs →
    cdFind st.assign v = none →
    ∃ i, cdFind (vs.foldl cdVertexStep st).assign v = some i ∧
      (vs.foldl cdVertexStep st).cells i = [v] := by
  intro vs
  induction vs with
  | nil => exact fun st v _ hv _ => absurd hv (List.not_mem_nil v)
  | cons w rest ih =>
      intro st v hinv hv hfv
      rw [List.foldl_cons]
      have hinv' := cdVertexStep_inv2 w hinv
      by_cases hwv : w = v
      · subst hwv
        have hstep : cdFind (cdVertexStep st w).assign w = some st.next ∧
            (cdVertexStep st w).cells st.next = [w] := by
          unfold cdVertexStep
          rw [hfv]
          simp only
          refine ⟨?_, ?_⟩
          · rw [cdFind_set, if_pos rfl]
          · simp
        obtain ⟨h1, h2, _⟩ := cdVertexFold_keep rest (cdVertexStep st w) w
          st.next hinv' hstep.1
        exact ⟨st.next, h1, h2.trans hstep.2⟩
      · have hv' : v ∈ rest := by
          rcases List.mem_cons.mp hv with hv | hv
          · exact absurd hv.symm hwv
          · exact hv
        have hfv' : cdFind (cdVertexStep st w).assign v = none := by
          unfold cdVertexStep
          rcases hfw : cdFind st.assign w with _ | m
          · simp only
            rw [cdFind_set, if_neg hwv]
            exact hfv
          · exact hfv
        exact ih (cdVertexStep st w) v hinv' hv' hfv'

/-- An explicitly supplied vertex with no edges ends up as its own fresh
singleton cell in components_dict, hence as the singleton component `{v}`
in components_d. -/
lemma components_d_isolated {edges : Edges} {vertices : List Vtx} {v : Vtx}
    (hv : v ∈ vertices) (hnv : v ∉ vset edges) :
    {v} ∈ components_d edges vertices := by
  have hends : ∀ e ∈ edges, e.1 ∈ vset edges ∧ e.2 ∈ vset edges := by
    intro e he
    have hrel : rel edges e.1 e.2 := Or.inl (by rw [Prod.mk.eta]; exact he)
    exact ⟨rel_fst_mem hrel, rel_snd_mem hrel⟩
  have hinit : CDInv edges { assign := [], cells := fun _ => [], next := 0 } := by
    refine ⟨?_, fun n _ => rfl, fun n w hw => absurd hw (List.not_mem_nil w)⟩
    intro k i h
    exact absurd h (by simp [cdFind])
  have hinv := cdEdgeFold_inv edges _ hends hinit
  set st₀ := edges.foldl (fun st e => cdEdgeStep st e.1 e.2)
    { assign := [], cells := fun _ => [], next := 0 } with hst₀
  have hfv : cdFind st₀.assign v = none := by
    rcases hfv : cdFind st₀.assign v with _ | i
    · rfl
    · exact absurd (hinv.1 v i hfv).2 hnv
  obtain ⟨i, h1, h2⟩ := cdVertexFold_new vertices st₀ v (cdInv_inv2 hinv) hv hfv
  have hmem : (v, i) ∈ (components_dict edges vertices).assign := by
    unfold components_dict
    exact cdFind_mem _ v i h1
  unfold components_d
  rw [List.mem_toFinset]
  refine List.mem_map.mpr ⟨(v, i), hmem, ?_⟩
  show ((components_dict edges vertices).cells i).toFinset = {v}
  rw [show (components_dict edges vertices).cells i = [v] from h2]
  rfl

lemma conn_isolated {edges : Edges} {v w : Vtx} (hnv : v ∉ vset edges)
    (h : conn edges v w) : w = v := by
  rcases Relation.ReflTransGen.cases_head h with h | ⟨x, hstep, _⟩
  · exact h.symm
  · exact absurd (rel_fst_mem hstep) hnv

/-- In any correct components answer, a vertex of the input that touches no
edge forms the singleton component `{v}`. -/
lemma isComponents_isolated {edges : Edges} {extra : List Vtx}
    {cs : Finset (Finset Vtx)} (h : IsComponents edges extra cs) {v : Vtx}
    (hv : v ∈ uset edges extra) (hnv : v ∉ vset edges) : {v} ∈ cs := by
  obtain ⟨-, -, hcov, hconn, -⟩ := h
  obtain ⟨C, hC, hvC⟩ := hcov v hv
  have hCeq : C = {v} := by
    ext w
    rw [Finset.mem_singleton]
    constructor
    · intro hw
      exact conn_isolated hnv (hconn C hC v hvC w hw)
    · intro hw
      exact hw ▸ hvC
  exact hCeq ▸ hC

/-! ## `devious` (dicts.py, lines 572-590) and decimal numerals

`devious()` builds the chain `(str(i), str(i+1))` for `i < 1337`.  Python's
`str` on a natural number is `Nat.repr`; we first relate core's
`Nat.toDigitsCore` to `Nat.digits` to obtain injectivity of `Nat.repr`. -/

lemma toDigitsCore_eq_digits :
    ∀ (fuel n : Nat) (ds : List Char), 0 < n → n ≤ fuel →
    Nat.toDigitsCore 10 fuel n ds =
      ((Nat.digits 10 n).map Nat.digitChar).reverse ++ ds := by
  intro fuel
  induction fuel with
  | zero =>
      intro n ds hn hfuel
      omega
  | succ f ih =>
      intro n ds hn hfuel
      have hdig : Nat.digits 10 n = n % 10 :: Nat.digits 10 (n / 10) :=
        Nat.digits_def' (by norm_num) hn
      by_cases h10 : n / 10 = 0
      · have hlt : n < 10 := by omega
        have hmod : n % 10 = n := Nat.mod_eq_of_lt hlt
        rw [show Nat.toDigitsCore 10 (f + 1) n ds = Nat.digitChar (n % 10) :: ds
          from by simp only [Nat.toDigitsCore, h10, if_pos]]
        rw [hdig, h10, Nat.digits_zero]
        simp only [List.map_cons, List.map_nil, List.reverse_cons,
          List.reverse_nil, List.nil_append, List.singleton_append]
      · have hn' : 0 < n / 10 := Nat.pos_of_ne_zero h10
        have hf : n / 10 ≤ f := by omega
        rw [show Nat.toDigitsCore 10 (f + 1) n ds =
            Nat.toDigitsCore 10 f (n / 10) (Nat.digitChar (n % 10) :: ds)
          from by simp only [Nat.toDigitsCore, h10, if_neg, ite_false]]
        rw [ih (n / 10) (Nat.digitChar (n % 10) :: ds) hn' hf, hdig]
        simp only [List.map_cons, List.reverse_cons, List.append_assoc,
          List.singleton_append]

lemma repr_pos_eq {n : Nat} (hn : 0 < n) :
    Nat.repr n = (((Nat.digits 10 n).map Nat.digitChar).reverse).asString := by
  show (Nat.toDigits 10 n).asString = _
  rw [show Nat.toDigits 10 n = Nat.toDigitsCore 10 (n + 1) n [] from rfl,
    toDigitsCore_eq_digits (n + 1) n [] hn (by omega), List.append_nil]

lemma digitChar_inj_fin :
    ∀ a b : Fin 10, Nat.digitChar a.val = Nat.digitChar b.val → a = b := by
  decide

lemma map_digitChar_inj :
    ∀ l₁ l₂ : List Nat, (∀ d ∈ l₁, d < 10) → (∀ d ∈ l₂, d < 10) →
    l₁.map Nat.digitChar = l₂.map Nat.digitChar → l₁ = l₂ := by
  intro l₁
  induction l₁ with
  | nil =>
      intro l₂ _ _ h
      cases l₂ with
      | nil => rfl
      | cons b t => exact absurd h.symm (by simp)
  | cons a t₁ ih =>
      intro l₂ h₁ h₂ h
      cases l₂ with
      | nil => exact absurd h (by simp)
      | cons b t₂ =>
          simp only [List.map_cons, List.cons.injEq] at h
          have ha : a < 10 := h₁ a (List.mem_cons_self a t₁)
          have hb : b < 10 := h₂ b (List.mem_cons_self b t₂)
          have hab : a = b :=
            congrArg Fin.val (digitChar_inj_fin ⟨a, ha⟩ ⟨b, hb⟩ h.1)
          rw [hab, ih t₂ (fun d hd => h₁ d (List.mem_cons_of_mem a hd))
            (fun d hd => h₂ d (List.mem_cons_of_mem b hd)) h.2]

lemma asString_inj {l₁ l₂ : List Char} (h : l₁.asString = l₂.asString) :
    l₁ = l₂ := by
  have h2 := congrArg String.data h
  exact h2

lemma nat_repr_inj : ∀ {m n : Nat}, Nat.repr m = Nat.repr n → m = n := by
  have hdigits_inj : ∀ {m n : Nat}, Nat.digits 10 m = Nat.digits 10 n → m = n := by
    intro m n h
    have hm := Nat.ofDigits_digits 10 m
    have hn := Nat.ofDigits_digits 10 n
    rw [← hm, ← hn, h]
  have key : ∀ {m n : Nat}, 0 < m → 0 < n → Nat.repr m = Nat.repr n → m = n := by
    intro m n hm hn h
    rw [repr_pos_eq hm, repr_pos_eq hn] at h
    have h2 := List.reverse_injective (asString_inj h)
    exact hdigits_inj (map_digitChar_inj _ _
      (fun d hd => Nat.digits_lt_base (by norm_num) hd)
      (fun d hd => Nat.digits_lt_base (by norm_num) hd) h2)
  have hzero : ∀ {n : Nat}, 0 < n → Nat.repr n ≠ Nat.repr 0 := by
    intro n hn h
    rw [repr_pos_eq hn, show Nat.repr 0 = ('0' :: []).asString from rfl] at h
    have h2 := asString_inj h
    have h3 : (Nat.digits 10 n).map Nat.digitChar = ['0'] := by
      have := congrArg List.reverse h2
      rwa [List.reverse_reverse] at this
    have h4 : Nat.digits 10 n = [0] := by
      refine map_digitChar_inj _ [0] ?_ (by norm_num) ?_
      · exact fun d hd => Nat.digits_lt_base (by norm_num) hd
      · rw [h3]
        rfl
    have h5 : n = 0 := by
      have h6 := Nat.ofDigits_digits 10 n
      rw [h4] at h6
      simpa using h6.symm
    omega
  intro m n h
  rcases Nat.eq_zero_or_pos m with hm | hm <;>
    rcases Nat.eq_zero_or_pos n with hn | hn
  · rw [hm, hn]
  · rw [hm] at h
    exact absurd h.symm (hzero hn)
  · rw [hn] at h
    exact absurd h (hzero hm)
  · exact key hm hn h

/-- devious (dicts.py, lines 572-590): the chain
`[(str(0), str(1)), ..., (str(1336), str(1337))]`. -/
def devious : Edges :=
  (List.range 1337).map (fun i => (Nat.repr i, Nat.repr (i + 1)))

/-- The first `k` chain vertices, as a visited set. -/
def dV (k : Nat) : Finset Vtx := ((List.range k).map Nat.repr).toFinset

lemma mem_devious {u v : Vtx} :
    (u, v) ∈ devious ↔ ∃ i, i < 1337 ∧ u = Nat.repr i ∧ v = Nat.repr (i + 1) := by
  unfold devious
  rw [List.mem_map]
  constructor
  · rintro ⟨i, hi, heq⟩
    exact ⟨i, List.mem_range.mp hi, (congrArg Prod.fst heq).symm,
      (congrArg Prod.snd heq).symm⟩
  · rintro ⟨i, hi, hu, hv⟩
    exact ⟨i, List.mem_range.mpr hi, by rw [hu, hv]⟩

lemma rel_devious {u v : Vtx} :
    rel devious u v ↔ ∃ i, i < 1337 ∧
      ((u = Nat.repr i ∧ v = Nat.repr (i + 1)) ∨
       (v = Nat.repr i ∧ u = Nat.repr (i + 1))) := by
  unfold rel
  rw [mem_devious, mem_devious]
  constructor
  · rintro (⟨i, hi, h1, h2⟩ | ⟨i, hi, h1, h2⟩)
    · exact ⟨i, hi, Or.inl ⟨h1, h2⟩⟩
    · exact ⟨i, hi, Or.inr ⟨h1, h2⟩⟩
  · rintro ⟨i, hi, ⟨h1, h2⟩ | ⟨h1, h2⟩⟩
    · exact Or.inl ⟨i, hi, h1, h2⟩
    · exact Or.inr ⟨i, hi, h1, h2⟩

lemma repr_mem_dV {j k : Nat} : Nat.repr j ∈ dV k ↔ j < k := by
  unfold dV
  rw [List.mem_toFinset, List.mem_map]
  constructor
  · rintro ⟨i, hi, hij⟩
    rw [← nat_repr_inj hij]
    exact List.mem_range.mp hi
  · intro hj
    exact ⟨j, List.mem_range.mpr hj, rfl⟩

lemma dV_succ (k : Nat) : dV (k + 1) = insert (Nat.repr k) (dV k) := by
  unfold dV
  rw [List.range_succ, List.map_append, List.toFinset_append]
  simp [Finset.union_comm, Finset.insert_eq]

lemma devious_nbr_mem {k : Nat} {d : Vtx}
    (hd : d ∈ (adjacency_undirected devious).nbr (Nat.repr k)) :
    d ∈ dV (k + 1) ∨ d = Nat.repr (k + 1) := by
  have hrel := (adjacency_undirected_nbr devious (Nat.repr k) d).1 hd
  rcases rel_devious.mp hrel with ⟨i, hi, ⟨h1, h2⟩ | ⟨h1, h2⟩⟩
  · rw [← nat_repr_inj h1] at h2
    exact Or.inr h2
  · have hk : k = i + 1 := nat_repr_inj h2
    refine Or.inl ?_
    rw [h1, repr_mem_dV]
    omega

lemma devious_nbr_next {k : Nat} (hk : k < 1337) :
    Nat.repr (k + 1) ∈ (adjacency_undirected devious).nbr (Nat.repr k) :=
  (adjacency_undirected_nbr devious (Nat.repr k) (Nat.repr (k + 1))).2
    (Or.inl (mem_devious.mpr ⟨k, hk, rfl, rfl⟩))

lemma devious_nbr_last_ne :
    (adjacency_undirected devious).nbr (Nat.repr 1337) ≠ [] := by
  have h : Nat.repr 1336 ∈ (adjacency_undirected devious).nbr (Nat.repr 1337) :=
    (adjacency_undirected_nbr devious (Nat.repr 1337) (Nat.repr 1336)).2
      (Or.inr (mem_devious.mpr ⟨1336, by omega, rfl, rfl⟩))
  exact List.ne_nil_of_mem h

lemma repr_not_mem_dV_self (k : Nat) : Nat.repr k ∉ dV k := by
  rw [repr_mem_dV]
  omega

lemma adjInsert_keys_head {st : Adj} {k : Vtx} {rest : List Vtx}
    (h : st.keys = k :: rest) (s d : Vtx) :
    ∃ rest', (adjInsert st s d).keys = k :: rest' := by
  unfold adjInsert
  simp only
  by_cases hs : s ∈ st.keys
  · rw [if_pos hs, h]
    exact ⟨rest, rfl⟩
  · rw [if_neg hs, h]
    exact ⟨rest ++ [s], rfl⟩

lemma adjEdgeFold_keys_head :
    ∀ (l : Edges) (st : Adj) (k : Vtx) (rest : List Vtx),
    st.keys = k :: rest →
    ∃ rest', (l.foldl (adjEdgeStep false) st).keys = k :: rest' := by
  intro l
  induction l with
  | nil => exact fun st k rest h => ⟨rest, h⟩
  | cons e es ih =>
      intro st k rest h
      rw [List.foldl_cons]
      obtain ⟨r1, h1⟩ := adjInsert_keys_head h e.1 e.2
      obtain ⟨r2, h2⟩ := adjInsert_keys_head h1 e.2 e.1
      exact ih _ k r2 h2

lemma devious_keys_head :
    ∃ rest, (adjacency_undirected devious).keys = Nat.repr 0 :: rest := by
  have hdev : devious = (Nat.repr 0, Nat.repr 1) ::
      ((List.range 1336).map Nat.succ).map
        (fun i => (Nat.repr i, Nat.repr (i + 1))) := by
    unfold devious
    rw [show (1337 : Nat) = 1336 + 1 from rfl, List.range_succ_eq_map,
      List.map_cons]
  unfold adjacency_undirected
  rw [hdev, List.foldl_cons]
  have hstep : ∃ rest, ((adjEdgeStep false ⟨[], fun _ => []⟩
      (Nat.repr 0, Nat.repr 1)) : Adj).keys = Nat.repr 0 :: rest := by
    unfold adjEdgeStep
    simp only [cond_false]
    have h1 : ((adjInsert ⟨[], fun _ => []⟩ (Nat.repr 0) (Nat.repr 1)) : Adj).keys
        = Nat.repr 0 :: [] := by
      unfold adjInsert
      simp
    exact adjInsert_keys_head h1 (Nat.repr 1) (Nat.repr 0)
  obtain ⟨rest, hrest⟩ := hstep
  exact adjEdgeFold_keys_head _ _ _ rest hrest

lemma dfsFoldFail (adj : Vtx → List Vtx) (f : Nat) (t : Vtx) :
    ∀ (l : List Vtx) (V : Finset Vtx) (acc : List Vtx),
    t ∉ V → (∀ d ∈ l, d ∈ V ∨ d = t) → t ∈ l →
    (∀ acc', dfsRec adj f t (V, acc') = none) →
    l.foldl (fun ost d => ost.bind (dfsRec adj f d)) (some (V, acc)) = none := by
  intro l
  induction l with
  | nil =>
      intro V acc _ _ ht _
      exact absurd ht (List.not_mem_nil t)
  | cons d rest ih =>
      intro V acc htV hl ht hfail
      rw [List.foldl_cons, Option.some_bind]
      by_cases hdt : d = t
      · rw [hdt, hfail acc]
        exact bindFold_none _ rest
      · have hdV : d ∈ V := by
          rcases hl d (List.mem_cons_self d rest) with h | h
          · exact h
          · exact absurd h hdt
        have ht' : t ∈ rest := by
          rcases List.mem_cons.mp ht with h | h
          · exact absurd h.symm hdt
          · exact h
        cases f with
        | zero =>
            rw [show dfsRec adj 0 d (V, acc) = none from rfl]
            exact bindFold_none _ rest
        | succ s =>
            rw [show dfsRec adj (s + 1) d (V, acc) = some (V, acc) from by
              simp [dfsRec, hdV]]
            exact ih V acc htV (fun d' hd' => hl d' (List.mem_cons_of_mem d hd'))
              ht' hfail

lemma dfsChainFail :
    ∀ (fuel k : Nat) (acc : List Vtx), k ≤ 1337 → fuel + k ≤ 1338 →
    dfsRec (adjacency_undirected devious).nbr fuel (Nat.repr k) (dV k, acc) =
      none := by
  intro fuel
  induction fuel with
  | zero => intro k acc _ _; rfl
  | succ f ih =>
      intro k acc hk hfuel
      have hknot : Nat.repr k ∉ dV k := repr_not_mem_dV_self k
      rw [show dfsRec (adjacency_undirected devious).nbr (f + 1) (Nat.repr k)
            (dV k, acc) =
          ((adjacency_undirected devious).nbr (Nat.repr k)).foldl
            (fun ost d => ost.bind (dfsRec (adjacency_undirected devious).nbr f d))
            (some (insert (Nat.repr k) (dV k), acc ++ [Nat.repr k])) from by
        simp [dfsRec, hknot]]
      rw [← dV_succ k]
      by_cases hk37 : k = 1337
      · have hf : f = 0 := by omega
        rcases hl : (adjacency_undirected devious).nbr (Nat.repr k) with _ | ⟨d, rest⟩
        · rw [hk37] at hl
          exact absurd hl devious_nbr_last_ne
        · rw [List.foldl_cons, Option.some_bind, hf]
          rw [show dfsRec (adjacency_undirected devious).nbr 0 d
            (dV (k + 1), acc ++ [Nat.repr k]) = none from rfl]
          exact bindFold_none _ rest
      · have hklt : k < 1337 := lt_of_le_of_ne hk hk37
        refine dfsFoldFail _ f (Nat.repr (k + 1)) _ _ _
          (repr_not_mem_dV_self (k + 1)) (fun d hd => devious_nbr_mem hd)
          (devious_nbr_next hklt) ?_
        intro acc'
        exact ih (k + 1) acc' (by omega) (by omega)

lemma exploreFoldFail (adj : Vtx → List Vtx) (f : Nat) (t : Vtx) :
    ∀ (l : List Vtx) (V : Finset Vtx) (acc : List Vtx),
    t ∉ V → (∀ d ∈ l, d ∈ V ∨ d = t) → t ∈ l →
    (∀ acc', exploreRec adj f t (V, acc') = none) →
    l.foldl (fun ost d => ost.bind
        (fun st2 => if d ∈ st2.1 then some st2 else exploreRec adj f d st2))
      (some (V, acc)) = none := by
  intro l
  induction l with
  | nil =>
      intro V acc _ _ ht _
      exact absurd ht (List.not_mem_nil t)
  | cons d rest ih =>
      intro V acc htV hl ht hfail
      rw [List.foldl_cons, Option.some_bind]
      by_cases hdt : d = t
      · rw [show (if d ∈ (V, acc).1 then some (V, acc)
            else exploreRec adj f d (V, acc)) = none from by
          rw [if_neg (hdt ▸ htV : d ∉ (V, acc).1), hdt, hfail acc]]
        exact bindFold_none _ rest
      · have hdV : d ∈ V := by
          rcases hl d (List.mem_cons_self d rest) with h | h
          · exact h
          · exact absurd h hdt
        have ht' : t ∈ rest := by
          rcases List.mem_cons.mp ht with h | h
          · exact absurd h.symm hdt
          · exact h
        rw [show (if d ∈ (V, acc).1 then some (V, acc)
            else exploreRec adj f d (V, acc)) = some (V, acc) from by
          rw [if_pos (hdV : d ∈ (V, acc).1)]]
        exact ih V acc htV (fun d' hd' => hl d' (List.mem_cons_of_mem d hd'))
          ht' hfail

lemma exploreChainFail :
    ∀ (fuel k : Nat) (acc : List Vtx), fuel + k ≤ 1337 →
    exploreRec (adjacency_undirected devious).nbr fuel (Nat.repr k) (dV k, acc) =
      none := by
  intro fuel
  induction fuel with
  | zero => intro k acc _; rfl
  | succ f ih =>
      intro k acc hfuel
      have hklt : k < 1337 := by omega
      rw [show exploreRec (adjacency_undirected devious).nbr (f + 1) (Nat.repr k)
            (dV k, acc) =
          ((adjacency_undirected devious).nbr (Nat.repr k)).foldl
            (fun ost d => ost.bind (fun st2 => if d ∈ st2.1 then some st2
              else exploreRec (adjacency_undirected devious).nbr f d st2))
            (some (insert (Nat.repr k) (dV k), acc ++ [Nat.repr k])) from by
        simp [exploreRec]]
      rw [← dV_succ k]
      refine exploreFoldFail _ f (Nat.repr (k + 1)) _ _ _
        (repr_not_mem_dV_self (k + 1)) (fun d hd => devious_nbr_mem hd)
        (devious_nbr_next hklt) ?_
      intro acc'
      exact ih (k + 1) acc' (by omega)

lemma dV_zero : dV 0 = ∅ := by
  simp [dV]

/-- The outer loop fails as soon as the search from the first key fails. -/
lemma componentsLoop_none_head
    (search : Finset Vtx → Vtx → Option (Finset Vtx × List Vtx))
    (k : Vtx) (ks : List Vtx) (h : search ∅ k = none) :
    componentsLoop search (k :: ks) ∅ [] = none := by
  simp only [componentsLoop, if_neg (Finset.not_mem_empty k), h]

lemma components_dfs_rec_none {fuel : Nat} {edges : Edges}
    (h : componentsLoop
      (fun vis start => dfsRec (adjacency_undirected edges).nbr fuel start (vis, []))
      (adjacency_undirected edges).keys ∅ [] = none) :
    components_dfs_rec fuel edges = none := by
  unfold components_dfs_rec
  rw [h]

lemma components_dfs_none {fuel : Nat} {edges : Edges} {vertices : List Vtx}
    (h : componentsLoop
      (fun vis start =>
        exploreRec (adjacency edges vertices false).nbr fuel start (vis, []))
      (adjacency edges vertices false).keys ∅ [] = none) :
    components_dfs fuel edges vertices = none := by
  unfold components_dfs
  rw [h]

/-- At the Python recursion limit of 1000 frames, components_dfs_rec on the
devious chain fails: the outer loop starts at `str(0)` and the recursion
into the chain exhausts the depth budget. -/
lemma components_dfs_rec_devious : components_dfs_rec 1000 devious = none := by
  obtain ⟨rest, hkeys⟩ := devious_keys_head
  have hfail : dfsRec (adjacency_undirected devious).nbr 1000 (Nat.repr 0)
      (∅, []) = none := by
    rw [← dV_zero]
    exact dfsChainFail 1000 0 [] (by omega) (by omega)
  refine components_dfs_rec_none ?_
  rw [hkeys]
  exact componentsLoop_none_head _ _ _ hfail

lemma adjacency_undirected_eq (edges : Edges) :
    adjacency_undirected edges = adjacency edges [] false := rfl

/-- Same failure for components_dfs (no explicit vertices). -/
lemma components_dfs_devious : components_dfs 1000 devious [] = none := by
  obtain ⟨rest, hkeys⟩ := devious_keys_head
  rw [adjacency_undirected_eq devious] at hkeys
  have hfail : exploreRec (adjacency devious [] false).nbr 1000 (Nat.repr 0)
      (∅, []) = none := by
    rw [← adjacency_undirected_eq devious, ← dV_zero]
    exact exploreChainFail 1000 0 [] (by omega)
  refine components_dfs_none ?_
  rw [hkeys]
  exact componentsLoop_none_head _ _ _ hfail

lemma vset_devious : vset devious = ((List.range 1338).map Nat.repr).toFinset := by
  ext v
  rw [mem_vset, List.mem_toFinset, List.mem_map]
  constructor
  · rintro ⟨e, he, hv⟩
    obtain ⟨i, hi, h1, h2⟩ := mem_devious.mp
      (show (e.1, e.2) ∈ devious from by rw [Prod.mk.eta]; exact he)
    rcases hv with hv | hv
    · exact ⟨i, List.mem_range.mpr (by omega), by rw [hv, h1]⟩
    · exact ⟨i + 1, List.mem_range.mpr (by omega), by rw [hv, h2]⟩
  · rintro ⟨i, hi, hv⟩
    have hi' : i < 1338 := List.mem_range.mp hi
    by_cases hi0 : i < 1337
    · exact ⟨(Nat.repr i, Nat.repr (i + 1)),
        mem_devious.mpr ⟨i, hi0, rfl, rfl⟩, Or.inl hv.symm⟩
    · have : i = 1337 := by omega
      subst this
      exact ⟨(Nat.repr 1336, Nat.repr 1337),
        mem_devious.mpr ⟨1336, by omega, rfl, rfl⟩, Or.inr hv.symm⟩

lemma devious_conn_zero : ∀ i, i ≤ 1337 →
    conn devious (Nat.repr 0) (Nat.repr i) := by
  intro i
  induction i with
  | zero => exact fun _ => conn_refl _ _
  | succ j ih =>
      intro hj
      refine conn_trans (ih (by omega)) (rel_conn ?_)
      exact Or.inl (mem_devious.mpr ⟨j, by omega, rfl, rfl⟩)

lemma mem_vset_devious {v : Vtx} :
    v ∈ vset devious ↔ ∃ i, i ≤ 1337 ∧ v = Nat.repr i := by
  rw [vset_devious, List.mem_toFinset, List.mem_map]
  constructor
  · rintro ⟨i, hi, hv⟩
    exact ⟨i, by have := List.mem_range.mp hi; omega, hv.symm⟩
  · rintro ⟨i, hi, hv⟩
    exact ⟨i, List.mem_range.mpr (by omega), hv.symm⟩

lemma isComponents_devious_single :
    IsComponents devious [] {vset devious} := by
  have hconn : ∀ u ∈ vset devious, ∀ v ∈ vset devious, conn devious u v := by
    intro u hu v hv
    obtain ⟨i, hi, hui⟩ := mem_vset_devious.mp hu
    obtain ⟨j, hj, hvj⟩ := mem_vset_devious.mp hv
    rw [hui, hvj]
    exact conn_trans (conn_symm (devious_conn_zero i hi)) (devious_conn_zero j hj)
  refine ⟨?_, ?_, ?_, ?_, ?_⟩
  · intro C hC
    rw [Finset.mem_singleton.mp hC]
    exact ⟨Nat.repr 0, mem_vset_devious.mpr ⟨0, by omega, rfl⟩⟩
  · intro C hC v hv
    rw [uset_nil]
    rw [Finset.mem_singleton.mp hC] at hv
    exact hv
  · intro v hv
    rw [uset_nil] at hv
    exact ⟨vset devious, Finset.mem_singleton_self _, hv⟩
  · intro C hC u hu v hv
    rw [Finset.mem_singleton.mp hC] at hu hv
    exact hconn u hu v hv
  · intro C hC u hu v hrel
    rw [Finset.mem_singleton.mp hC] at hu ⊢
    exact rel_snd_mem hrel

lemma card_vset_devious : (vset devious).card = 1338 := by
  rw [vset_devious]
  rw [List.toFinset_card_of_nodup]
  · rw [List.length_map, List.length_range]
  · exact List.Nodup.map (fun a b h => nat_repr_inj h) (List.nodup_range 1338)

/-! ## Remaining supporting lemmas for the claim theorems. -/

lemma explore_searchSpecWhen (edges : Edges) (vertices : List Vtx) (fuel : Nat) :
    SearchSpecWhen (uset edges vertices) (rel edges)
      (fun vis start =>
        exploreRec (adjacency edges vertices false).nbr fuel start (vis, [])) := by
  intro visited start out hvU hstartU hstart hrun
  obtain ⟨δ, hout, hfresh, hreach, hclosed, hsrcδ⟩ :=
    exploreRec_spec (adjacency edges vertices false).nbr (rel edges)
      (fun v w hw => (adjacency_und_nbr edges vertices v w).1 hw)
      fuel start (visited, []) out hrun
  simp only [List.nil_append] at hout
  refine ⟨δ, hout, hsrcδ, ?_, ?_, hreach, ?_⟩
  · intro w hw
    rcases hfresh w hw with h | h
    · exact h ▸ hstart
    · exact h
  · intro w hw
    exact rtg_mem (fun a b hab => mem_uset.2 (Or.inl (rel_snd_mem hab)))
      hstartU (hreach w hw)
  · intro w hw x hR
    exact hclosed w hw x ((adjacency_und_nbr edges vertices w x).2 hR)

/-- Conditional correctness of components_dfs: whenever the recursion depth
permits a result, the result is the canonical components. -/
theorem components_dfs_isComponents {fuel : Nat} {edges : Edges}
    {vertices : List Vtx} {cs : Finset (Finset Vtx)}
    (h : components_dfs fuel edges vertices = some cs) :
    IsComponents edges vertices cs := by
  unfold components_dfs at h
  rcases hrun : componentsLoop
      (fun vis start =>
        exploreRec (adjacency edges vertices false).nbr fuel start (vis, []))
      (adjacency edges vertices false).keys ∅ [] with _ | comps
  · rw [hrun] at h
    exact absurd h (by simp)
  · rw [hrun] at h
    simp only [Option.some.injEq] at h
    subst h
    refine componentsLoopWhen_isComponents edges vertices _ ?_ _ ?_ comps hrun
    · exact explore_searchSpecWhen edges vertices fuel
    · intro k
      rw [adjacency_und_keys, mem_uset]

/-- IsComponents transfers along any change of the edge list that preserves
the mentioned vertices and the link relation (e.g. appending a duplicate or
reversed copy of an existing edge). -/
lemma isComponents_congr_rel {edges₁ edges₂ : Edges} {extra : List Vtx}
    (hvset : ∀ v, v ∈ vset edges₁ ↔ v ∈ vset edges₂)
    (hrel : ∀ a b, rel edges₁ a b ↔ rel edges₂ a b)
    {cs : Finset (Finset Vtx)} (h : IsComponents edges₁ extra cs) :
    IsComponents edges₂ extra cs := by
  have huset : uset edges₁ extra = uset edges₂ extra := by
    unfold uset
    congr 1
    ext v
    exact hvset v
  have hconn : ∀ a b, conn edges₁ a b → conn edges₂ a b :=
    fun a b hc => Relation.ReflTransGen.mono (fun x y hxy => (hrel x y).mp hxy) hc
  obtain ⟨h₁, h₂, h₃, h₄, h₅⟩ := h
  refine ⟨h₁, ?_, ?_, ?_, ?_⟩
  · intro C hC v hv
    rw [← huset]
    exact h₂ C hC v hv
  · intro v hv
    rw [← huset] at hv
    exact h₃ v hv
  · intro C hC u hu v hv
    exact hconn u v (h₄ C hC u hu v hv)
  · intro C hC u hu v hrel2
    exact h₅ C hC u hu v ((hrel u v).mpr hrel2)

/-- In a correct components answer over edges with distinct endpoints, the
component of any mentioned vertex has at least two members. -/
lemma isComponents_card_two {edges : Edges} {extra : List Vtx}
    {cs : Finset (Finset Vtx)} (h : IsComponents edges extra cs)
    (hdist : ∀ e ∈ edges, e.1 ≠ e.2) {v : Vtx} (hv : v ∈ vset edges)
    {C : Finset Vtx} (hC : C ∈ cs) (hvC : v ∈ C) : 2 ≤ C.card := by
  obtain ⟨e, he, hve⟩ := mem_vset.mp hv
  obtain ⟨-, -, -, -, hclosed⟩ := h
  have hrel12 : rel edges e.1 e.2 := Or.inl (by rw [Prod.mk.eta]; exact he)
  rcases hve with hve | hve
  · have hrelv : rel edges v e.2 := by rw [hve]; exact hrel12
    have hw : e.2 ∈ C := hclosed C hC v hvC e.2 hrelv
    have hne : v ≠ e.2 := by rw [hve]; exact hdist e he
    exact Finset.one_lt_card.mpr ⟨v, hvC, e.2, hw, hne⟩
  · have hrelv : rel edges v e.1 := by rw [hve]; exact rel_symm hrel12
    have hw : e.1 ∈ C := hclosed C hC v hvC e.1 hrelv
    have hne : v ≠ e.1 := by rw [hve]; exact Ne.symm (hdist e he)
    exact Finset.one_lt_card.mpr ⟨v, hvC, e.1, hw, hne⟩

lemma rel_single {a b u x : Vtx} :
    rel [(a, b)] u x ↔ (u = a ∧ x = b) ∨ (u = b ∧ x = a) := by
  unfold rel
  simp [Prod.ext_iff, and_comm]

lemma mem_vset_single {a b x : Vtx} : x ∈ vset [(a, b)] ↔ x = a ∨ x = b := by
  simp [vset]

/-- The canonical components of one edge plus one isolated explicit vertex. -/
lemma isComponents_single_iso {a b c : Vtx} (hca : c ≠ a) (hcb : c ≠ b) :
    IsComponents [(a, b)] [c] {({a, b} : Finset Vtx), {c}} := by
  have hmemC : ∀ C : Finset Vtx, C ∈ ({({a, b} : Finset Vtx), {c}} :
      Finset (Finset Vtx)) ↔ C = {a, b} ∨ C = {c} := by
    intro C
    rw [Finset.mem_insert, Finset.mem_singleton]
  have huset : ∀ x, x ∈ uset [(a, b)] [c] ↔ x = a ∨ x = b ∨ x = c := by
    intro x
    rw [mem_uset, mem_vset_single]
    simp [or_assoc]
  have hrelab : rel [(a, b)] a b := Or.inl (List.mem_singleton.mpr rfl)
  refine ⟨?_, ?_, ?_, ?_, ?_⟩
  · intro C hC
    rcases (hmemC C).mp hC with h | h
    · exact ⟨a, h ▸ Finset.mem_insert_self a {b}⟩
    · exact ⟨c, h ▸ Finset.mem_singleton_self c⟩
  · intro C hC v hv
    rw [huset v]
    rcases (hmemC C).mp hC with h | h
    · rw [h] at hv
      rcases Finset.mem_insert.mp hv with hv | hv
      · exact Or.inl hv
      · exact Or.inr (Or.inl (Finset.mem_singleton.mp hv))
    · rw [h] at hv
      exact Or.inr (Or.inr (Finset.mem_singleton.mp hv))
  · intro v hv
    rcases (huset v).mp hv with h | h | h
    · exact ⟨{a, b}, (hmemC _).mpr (Or.inl rfl), h ▸ Finset.mem_insert_self a {b}⟩
    · refine ⟨{a, b}, (hmemC _).mpr (Or.inl rfl), ?_⟩
      rw [h]
      exact Finset.mem_insert_of_mem (Finset.mem_singleton_self b)
    · exact ⟨{c}, (hmemC _).mpr (Or.inr rfl), h ▸ Finset.mem_singleton_self c⟩
  · intro C hC u hu v hv
    rcases (hmemC C).mp hC with h | h
    · rw [h] at hu hv
      have hcase : ∀ w, w ∈ ({a, b} : Finset Vtx) → conn [(a, b)] a w := by
        intro w hw
        rcases Finset.mem_insert.mp hw with hw | hw
        · exact hw ▸ conn_refl _ _
        · rw [Finset.mem_singleton.mp hw]
          exact rel_conn hrelab
      exact conn_trans (conn_symm (hcase u hu)) (hcase v hv)
    · rw [h] at hu hv
      rw [Finset.mem_singleton.mp hu, Finset.mem_singleton.mp hv]
      exact conn_refl _ _
  · intro C hC u hu v hrel2
    rcases (hmemC C).mp hC with h | h
    · rw [h]
      rcases rel_single.mp hrel2 with ⟨-, hx⟩ | ⟨-, hx⟩
      · rw [hx]
        exact Finset.mem_insert_of_mem (Finset.mem_singleton_self b)
      · rw [hx]
        exact Finset.mem_insert_self a {b}
    · rw [h] at hu
      rcases rel_single.mp hrel2 with ⟨hu2, -⟩ | ⟨hu2, -⟩
      · exact absurd ((Finset.mem_singleton.mp hu) ▸ hu2) hca
      · exact absurd ((Finset.mem_singleton.mp hu) ▸ hu2) hcb

/-- components_d on one edge plus one isolated explicit vertex. -/
lemma components_d_single_iso {a b c : Vtx} (hca : c ≠ a) (hcb : c ≠ b) :
    components_d [(a, b)] [c] = {({a, b} : Finset Vtx), {c}} := by
  have hac : ¬a = c := fun h => hca h.symm
  have hbc : ¬b = c := fun h => hcb h.symm
  by_cases hab : a = b
  · subst hab
    simp [components_d, components_dict, cdEdgeStep, cdVertexStep, cdFind,
      cdSet, hac]
  · simp [components_d, components_dict, cdEdgeStep, cdVertexStep, cdFind,
      cdSet, hab, hac, hbc]

/-- components_dfs on one edge plus one isolated explicit vertex, at the
default recursion limit. -/
lemma components_dfs_single_iso {a b c : Vtx} (hca : c ≠ a) (hcb : c ≠ b) :
    components_dfs 1000 [(a, b)] [c] = some {({a, b} : Finset Vtx), {c}} := by
  have hsub : uset [(a, b)] [c] ⊆ {a, b, c} := by
    intro x hx
    rcases mem_uset.mp hx with hx | hx
    · rcases mem_vset_single.mp hx with h | h
      · rw [h]
        exact Finset.mem_insert_self _ _
      · rw [h]
        exact Finset.mem_insert_of_mem (Finset.mem_insert_self _ _)
    · rw [List.mem_singleton.mp hx]
      exact Finset.mem_insert_of_mem
        (Finset.mem_insert_of_mem (Finset.mem_singleton_self _))
  have hcard : (uset [(a, b)] [c]).card ≤ 1000 := by
    have h1 := Finset.card_le_card hsub
    have h2 : ({a, b, c} : Finset Vtx).card ≤ 3 :=
      le_trans (Finset.card_insert_le _ _)
        (by
          have := Finset.card_insert_le b ({c} : Finset Vtx)
          simp only [Finset.card_singleton] at this
          omega)
    omega
  obtain ⟨cs, heq, hIC⟩ := components_dfs_some 1000 [(a, b)] [c] hcard
  rw [heq, isComponents_unique hIC (isComponents_single_iso hca hcb)]

/-- The stack search's outer loop always returns a result. -/
lemma stack_loop_some (edges : Edges) :
    ∃ comps, componentsLoop (stack_search edges)
      (adjacency_undirected edges).keys ∅ [] = some comps := by
  have hs : SearchSpec (uset edges []) (rel edges) (stack_search edges) := by
    rw [uset_nil]
    exact searchGo_searchSpec edges stackPush
      (fun w v x => by simp [stackPush, List.mem_cons, or_comm])
      (fun w v => by simp [stackPush])
  obtain ⟨comps2, h₁, -⟩ :=
    componentsLoop_isComponents edges [] (stack_search edges) hs
      (adjacency_undirected edges).keys
      (fun k => by rw [adjacency_undirected_keys, uset_nil])
  exact ⟨comps2, h₁⟩

/-- The BFS outer loop always returns a result. -/
lemma bfs_loop_some (edges : Edges) :
    ∃ comps, componentsLoop (bfs_search edges)
      (adjacency_undirected edges).keys ∅ [] = some comps := by
  have hs : SearchSpec (uset edges []) (rel edges) (bfs_search edges) := by
    rw [uset_nil]
    exact searchGo_searchSpec edges queuePush
      (fun w v x => by simp [queuePush])
      (fun w v => by simp [queuePush])
  obtain ⟨comps2, h₁, -⟩ :=
    componentsLoop_isComponents edges [] (bfs_search edges) hs
      (adjacency_undirected edges).keys
      (fun k => by rw [adjacency_undirected_keys, uset_nil])
  exact ⟨comps2, h₁⟩

/-- Both stages of components_quickunion always return a result. -/
lemma quickunion_stages_some (edges : Edges) :
    ∃ st pg, quRun (quFuel edges) edges = some st ∧
      quCollect (quFuel edges) (vtxList edges).dedup st.par [] = some pg := by
  have hfuel : (vset edges).card < quFuel edges := by
    have hle := List.toFinset_card_le (vtxList edges)
    unfold quFuel vset
    omega
  have hends : ∀ e ∈ edges, e.1 ∈ vset edges ∧ e.2 ∈ vset edges := by
    intro e he
    have hrel : rel edges e.1 e.2 := Or.inl (by rw [Prod.mk.eta]; exact he)
    exact ⟨rel_fst_mem hrel, rel_snd_mem hrel⟩
  obtain ⟨st, hrun, hinv⟩ :=
    quFold_inv hfuel edges [] _ (quInit_inv (vset edges)) hends
  rw [List.nil_append] at hinv
  obtain ⟨hcl, hrk, -, -⟩ := hinv
  have hvs : ∀ w ∈ (vtxList edges).dedup, w ∈ vset edges :=
    fun w hw => List.mem_toFinset.mpr (List.mem_dedup.mp hw)
  obtain ⟨pf, gf, hcol, -⟩ :=
    @quCollect_spec (vset edges) st.rnk st.par (quFuel edges) hfuel
      (vtxList edges).dedup [] st.par [] (fun x s => Iff.rfl) hcl hrk hvs
      (fun k l h => absurd h (List.not_mem_nil _))
      (fun w hw => absurd hw (List.not_mem_nil _))
      List.nodup_nil
      (fun k l h => absurd h (List.not_mem_nil _))
  exact ⟨st, (pf, gf), hrun, hcol⟩

/-! ## The claims -/

/-- Modelled from the spec: the Python interpreter's default recursion
limit (1000 call frames), the depth budget that the recursive traversals
exhaust on a long chain.  The limit itself is interpreter state, not code
of the repository. -/
def pythonRecursionLimit : Nat := 1000

/-- C1: the spec claims the result of components_dict / components_d is a
partition of the mentioned vertices (pairwise disjoint).  It is not: on
[(a,b),(b,c),(c,d)] the append branch of components_dict extends a's cell
by c without giving c a dict key, a later edge then builds a second
component containing c, and the result {{a,b,c},{c,d}} has two distinct
members both containing "c". -/
theorem C1_partition_code_bug :
    components_d [("a", "b"), ("b", "c"), ("c", "d")] [] =
      {({"a", "b", "c"} : Finset Vtx), {"c", "d"}} ∧
    ∃ C₁ ∈ components_d [("a", "b"), ("b", "c"), ("c", "d")] [],
      ∃ C₂ ∈ components_d [("a", "b"), ("b", "c"), ("c", "d")] [],
        C₁ ≠ C₂ ∧ "c" ∈ C₁ ∧ "c" ∈ C₂ := by
  decide

/-- C2: components (naive merge), components_quickfind,
components_quickfind_classic, components_quickunion, components_stack,
components_bfs, and components_dfs_rec (when the recursion depth permits a
result) all return the same set of frozen vertex sets, and the result is
invariant under permutation of the edge list. -/
theorem C2_algorithms_agree (edges edges2 : Edges) (hperm : edges.Perm edges2)
    (fuel : Nat) (cs : Finset (Finset Vtx))
    (hdfs : components_dfs_rec fuel edges = some cs) :
    components_quickfind edges = components edges ∧
    components_quickfind_classic edges = components edges ∧
    components_quickunion edges = components edges ∧
    components_stack edges = components edges ∧
    components_bfs edges = components edges ∧
    cs = components edges ∧
    components edges2 = components edges := by
  have hbase := components_isComponents edges
  refine ⟨isComponents_unique (components_quickfind_isComponents edges) hbase,
    isComponents_unique (components_quickfind_classic_isComponents edges) hbase,
    isComponents_unique (components_quickunion_isComponents edges) hbase,
    isComponents_unique (components_stack_isComponents edges) hbase,
    isComponents_unique (components_bfs_isComponents edges) hbase,
    isComponents_unique (components_dfs_rec_isComponents hdfs) hbase,
    isComponents_unique ?_ hbase⟩
  exact isComponents_congr (fun e => (hperm.mem_iff).symm) (fun v => Iff.rfl)
    (components_isComponents edges2)

theorem C2_algorithms_agree_witness :
    components_quickfind [("a", "b"), ("c", "d")] =
      components [("a", "b"), ("c", "d")] ∧
    components_quickfind_classic [("a", "b"), ("c", "d")] =
      components [("a", "b"), ("c", "d")] ∧
    components_quickunion [("a", "b"), ("c", "d")] =
      components [("a", "b"), ("c", "d")] ∧
    components_stack [("a", "b"), ("c", "d")] =
      components [("a", "b"), ("c", "d")] ∧
    components_bfs [("a", "b"), ("c", "d")] =
      components [("a", "b"), ("c", "d")] ∧
    ({({"a", "b"} : Finset Vtx), {"c", "d"}} : Finset (Finset Vtx)) =
      components [("a", "b"), ("c", "d")] ∧
    components [("c", "d"), ("a", "b")] = components [("a", "b"), ("c", "d")] :=
  C2_algorithms_agree [("a", "b"), ("c", "d")] [("c", "d"), ("a", "b")]
    (by decide) 10 {({"a", "b"} : Finset Vtx), {"c", "d"}} (by decide)

/-- C3: on the devious chain (str(i), str(i+1)) for i < 1337, the recursive
variants components_dfs and components_dfs_rec fail with a recursion-depth
error at the Python recursion limit (the `none` result), while the
iterative components_stack and components_bfs return exactly one component
holding all 1338 chain vertices. -/
theorem C3_devious_depth_limit :
    components_dfs pythonRecursionLimit devious [] = none ∧
    components_dfs_rec pythonRecursionLimit devious = none ∧
    components_stack devious = {vset devious} ∧
    components_bfs devious = {vset devious} ∧
    (vset devious).card = 1338 := by
  refine ⟨components_dfs_devious, components_dfs_rec_devious, ?_, ?_,
    card_vset_devious⟩
  · exact isComponents_unique (components_stack_isComponents devious)
      isComponents_devious_single
  · exact isComponents_unique (components_bfs_isComponents devious)
      isComponents_devious_single

/-- C4 counterexample: a self-loop refutes the claim as stated.  With
edges = [("a","a")] the vertex "a" appears as an endpoint of an edge, yet
both components_quickfind and components return the singleton component
{"a"} of cardinality 1. -/
theorem C4_counterexample :
    components_quickfind [("a", "a")] = {({"a"} : Finset Vtx)} ∧
    components [("a", "a")] = {({"a"} : Finset Vtx)} ∧
    "a" ∈ vset [("a", "a")] ∧
    ({"a"} : Finset Vtx).card = 1 := by
  decide

/-- C4 (amended): provided every edge has two distinct endpoints, the
component of any vertex mentioned in an edge has cardinality at least 2,
for components_quickfind and likewise components. -/
theorem C4_endpoint_component_card (edges : Edges)
    (hdist : ∀ e ∈ edges, e.1 ≠ e.2) (v : Vtx) (hv : v ∈ vset edges) :
    (∀ C ∈ components_quickfind edges, v ∈ C → 2 ≤ C.card) ∧
    (∀ C ∈ components edges, v ∈ C → 2 ≤ C.card) :=
  ⟨fun _ hC hvC =>
    isComponents_card_two (components_quickfind_isComponents edges) hdist hv hC hvC,
   fun _ hC hvC =>
    isComponents_card_two (components_isComponents edges) hdist hv hC hvC⟩

theorem C4_endpoint_component_card_witness :
    (∀ e ∈ ([(("a" : Vtx), ("b" : Vtx))] : Edges), e.1 ≠ e.2) ∧
    ((∀ C ∈ components_quickfind [("a", "b")], "a" ∈ C → 2 ≤ C.card) ∧
     (∀ C ∈ components [("a", "b")], "a" ∈ C → 2 ≤ C.card)) :=
  ⟨by decide,
   C4_endpoint_component_card [("a", "b")] (by decide) "a" (by decide)⟩

/-- C5: with directed=False each edge (a,b) contributes membership both
ways; with directed=True the neighbor set of b contains a exactly when
some edge (b,a) supplies it; and an explicitly supplied vertex that is in
no edge is mapped to the empty neighbor set (in either mode). -/
theorem C5_adjacency_membership (edges : Edges) (vertices : List Vtx) :
    (∀ e ∈ edges, e.2 ∈ (adjacency edges vertices false).nbr e.1 ∧
      e.1 ∈ (adjacency edges vertices false).nbr e.2) ∧
    (∀ a b : Vtx, a ∈ (adjacency edges vertices true).nbr b ↔ (b, a) ∈ edges) ∧
    (∀ v, v ∈ vertices → v ∉ vset edges →
      (adjacency edges vertices false).nbr v = [] ∧
      (adjacency edges vertices true).nbr v = []) := by
  refine ⟨?_, ?_, ?_⟩
  · intro e he
    have hrel : rel edges e.1 e.2 := Or.inl (by rw [Prod.mk.eta]; exact he)
    exact ⟨(adjacency_und_nbr edges vertices e.1 e.2).2 hrel,
      (adjacency_und_nbr edges vertices e.2 e.1).2 (rel_symm hrel)⟩
  · intro a b
    exact adjacency_dir_nbr edges vertices b a
  · intro v _ hnv
    constructor
    · refine List.eq_nil_iff_forall_not_mem.mpr ?_
      intro x hx
      exact hnv (rel_fst_mem ((adjacency_und_nbr edges vertices v x).1 hx))
    · refine List.eq_nil_iff_forall_not_mem.mpr ?_
      intro x hx
      have hmem : (v, x) ∈ edges := (adjacency_dir_nbr edges vertices v x).1 hx
      exact hnv (mem_vset.mpr ⟨(v, x), hmem, Or.inl rfl⟩)

theorem C5_adjacency_membership_witness :
    ("b" ∈ (adjacency [("a", "b")] ["c"] false).nbr "a" ∧
     "a" ∈ (adjacency [("a", "b")] ["c"] false).nbr "b") ∧
    ("a" ∈ (adjacency [("a", "b")] ["c"] true).nbr "b" ↔
      (("b", "a") : Vtx × Vtx) ∈ ([(("a" : Vtx), ("b" : Vtx))] : Edges)) ∧
    ((adjacency [("a", "b")] ["c"] false).nbr "c" = [] ∧
     (adjacency [("a", "b")] ["c"] true).nbr "c" = []) :=
  ⟨(C5_adjacency_membership [("a", "b")] ["c"]).1 ("a", "b") (by decide),
   (C5_adjacency_membership [("a", "b")] ["c"]).2.1 "a" "b",
   (C5_adjacency_membership [("a", "b")] ["c"]).2.2 "c" (by decide) (by decide)⟩

/-- C6: an explicitly supplied vertex that is an endpoint of no edge
appears as its own singleton component, for components_d (hence
components_dict) and for components_dfs whenever it returns; in
particular edges [(a,b)] with explicit vertices [c], c distinct from a and
b, yield exactly {{a,b},{c}}. -/
theorem C6_isolated_vertices :
    (∀ (edges : Edges) (vertices : List Vtx) (v : Vtx), v ∈ vertices →
      v ∉ vset edges → {v} ∈ components_d edges vertices) ∧
    (∀ (fuel : Nat) (edges : Edges) (vertices : List Vtx)
      (cs : Finset (Finset Vtx)) (v : Vtx),
      components_dfs fuel edges vertices = some cs → v ∈ vertices →
      v ∉ vset edges → {v} ∈ cs) ∧
    (∀ a b c : Vtx, c ≠ a → c ≠ b →
      components_d [(a, b)] [c] = {({a, b} : Finset Vtx), {c}} ∧
      components_dfs 1000 [(a, b)] [c] = some {({a, b} : Finset Vtx), {c}}) := by
  refine ⟨?_, ?_, ?_⟩
  · exact fun edges vertices v hv hnv => components_d_isolated hv hnv
  · intro fuel edges vertices cs v hdfs hv hnv
    exact isComponents_isolated (components_dfs_isComponents hdfs)
      (mem_uset.mpr (Or.inr hv)) hnv
  · intro a b c hca hcb
    exact ⟨components_d_single_iso hca hcb, components_dfs_single_iso hca hcb⟩

theorem C6_isolated_vertices_witness :
    components_d [("a", "b")] ["c"] = {({"a", "b"} : Finset Vtx), {"c"}} ∧
    components_dfs 1000 [("a", "b")] ["c"] =
      some {({"a", "b"} : Finset Vtx), {"c"}} :=
  C6_isolated_vertices.2.2 "a" "b" "c" (by decide) (by decide)

/-- C7: appending a duplicate copy or a reverse-direction copy of an edge
already present leaves the results of components_quickfind and
components_quickunion unchanged. -/
theorem C7_duplicate_edge_idempotent (edges : Edges) (u v : Vtx)
    (huv : (u, v) ∈ edges) :
    components_quickfind (edges ++ [(u, v)]) = components_quickfind edges ∧
    components_quickfind (edges ++ [(v, u)]) = components_quickfind edges ∧
    components_quickunion (edges ++ [(u, v)]) = components_quickunion edges ∧
    components_quickunion (edges ++ [(v, u)]) = components_quickunion edges := by
  have hrel_uv : rel edges u v := Or.inl huv
  have hvset1 : ∀ x, x ∈ vset (edges ++ [(u, v)]) ↔ x ∈ vset edges := by
    intro x
    rw [vset_snoc]
    constructor
    · rintro (h | h | h)
      · exact h
      · exact h ▸ rel_fst_mem hrel_uv
      · exact h ▸ rel_snd_mem hrel_uv
    · exact Or.inl
  have hvset2 : ∀ x, x ∈ vset (edges ++ [(v, u)]) ↔ x ∈ vset edges := by
    intro x
    rw [vset_snoc]
    constructor
    · rintro (h | h | h)
      · exact h
      · exact h ▸ rel_snd_mem hrel_uv
      · exact h ▸ rel_fst_mem hrel_uv
    · exact Or.inl
  have hrel1 : ∀ a b, rel (edges ++ [(u, v)]) a b ↔ rel edges a b := by
    intro a b
    rw [rel_snoc]
    constructor
    · rintro (h | ⟨h1, h2⟩ | ⟨h1, h2⟩)
      · exact h
      · rw [h1, h2]
        exact hrel_uv
      · rw [h1, h2]
        exact rel_symm hrel_uv
    · exact Or.inl
  have hrel2 : ∀ a b, rel (edges ++ [(v, u)]) a b ↔ rel edges a b := by
    intro a b
    rw [rel_snoc]
    constructor
    · rintro (h | ⟨h1, h2⟩ | ⟨h1, h2⟩)
      · exact h
      · rw [h1, h2]
        exact rel_symm hrel_uv
      · rw [h1, h2]
        exact hrel_uv
    · exact Or.inl
  refine ⟨?_, ?_, ?_, ?_⟩
  · exact isComponents_unique
      (isComponents_congr_rel hvset1 hrel1
        (components_quickfind_isComponents (edges ++ [(u, v)])))
      (components_quickfind_isComponents edges)
  · exact isComponents_unique
      (isComponents_congr_rel hvset2 hrel2
        (components_quickfind_isComponents (edges ++ [(v, u)])))
      (components_quickfind_isComponents edges)
  · exact isComponents_unique
      (isComponents_congr_rel hvset1 hrel1
        (components_quickunion_isComponents (edges ++ [(u, v)])))
      (components_quickunion_isComponents edges)
  · exact isComponents_unique
      (isComponents_congr_rel hvset2 hrel2
        (components_quickunion_isComponents (edges ++ [(v, u)])))
      (components_quickunion_isComponents edges)

theorem C7_duplicate_edge_idempotent_witness :
    components_quickfind ([("a", "b")] ++ [("a", "b")]) =
      components_quickfind [("a", "b")] ∧
    components_quickfind ([("a", "b")] ++ [("b", "a")]) =
      components_quickfind [("a", "b")] ∧
    components_quickunion ([("a", "b")] ++ [("a", "b")]) =
      components_quickunion [("a", "b")] ∧
    components_quickunion ([("a", "b")] ++ [("b", "a")]) =
      components_quickunion [("a", "b")] :=
  C7_duplicate_edge_idempotent [("a", "b")] "a" "b" (by decide)

/-- C8: every component-finding variant returns the empty set on the empty
edge list (the recursive-DFS variants included, at any depth budget), and
the non-recursive variants are total: the internal searches of the stack
and BFS loops and both stages of quick-union always return a result, so
the unreachable failure branches of the model are never taken. -/
theorem C8_empty_input_totality :
    components [] = ∅ ∧
    components_quickfind [] = ∅ ∧
    components_quickfind_classic [] = ∅ ∧
    components_quickunion [] = ∅ ∧
    components_stack [] = ∅ ∧
    components_bfs [] = ∅ ∧
    components_d [] [] = ∅ ∧
    (∀ fuel, components_dfs fuel [] [] = some ∅) ∧
    (∀ fuel, components_dfs_rec fuel [] = some ∅) ∧
    (∀ edges, ∃ comps, componentsLoop (stack_search edges)
      (adjacency_undirected edges).keys ∅ [] = some comps) ∧
    (∀ edges, ∃ comps, componentsLoop (bfs_search edges)
      (adjacency_undirected edges).keys ∅ [] = some comps) ∧
    (∀ edges, ∃ st pg, quRun (quFuel edges) edges = some st ∧
      quCollect (quFuel edges) (vtxList edges).dedup st.par [] = some pg) := by
  refine ⟨rfl, rfl, rfl, rfl, rfl, rfl, rfl, fun fuel => rfl, fun fuel => rfl,
    stack_loop_some, bfs_loop_some, quickunion_stages_some⟩

/-- C9: with directed=True (the default) a vertex that never occurs as an
edge source and is not explicitly supplied is absent from the keys of the
returned adjacency mapping, even when it occurs as a destination. -/
theorem C9_directed_keys_omit_dest (edges : Edges) (vertices : List Vtx)
    (v : Vtx) (hnsrc : ∀ d, (v, d) ∉ edges) (hnex : v ∉ vertices) :
    v ∉ (adjacency edges vertices true).keys := by
  intro hmem
  rcases (adjacency_dir_keys edges vertices v).mp hmem with ⟨d, hd⟩ | hv
  · exact hnsrc d hd
  · exact hnex hv

theorem C9_directed_keys_omit_dest_witness :
    "b" ∉ (adjacency [("a", "b")] [] true).keys :=
  C9_directed_keys_omit_dest [("a", "b")] [] "b"
    (by
      intro d hd
      have h1 : "b" = "a" := congrArg Prod.fst (List.mem_singleton.mp hd)
      exact absurd h1 (by decide))
    (by decide)

/-- C10: distinct keeps exactly one value per distinct key — the first
input value bearing that key — in input order: the result is a
subsequence of the input, its keys are pairwise distinct, every input key
is covered, and each kept value is what the first-match search over the
input finds for its key. -/
theorem C10_distinct_first_per_key {α β : Type} [DecidableEq β]
    (values : List α) (key : α → β) :
    (distinct values key).Sublist values ∧
    ((distinct values key).map key).Nodup ∧
    (∀ v ∈ values, ∃ w ∈ distinct values key, key w = key v) ∧
    (∀ w ∈ distinct values key,
      values.find? (fun v => decide (key v = key w)) = some w) :=
  distinct_spec values key

theorem C10_distinct_first_per_key_witness :
    distinct [10, 11, 20, 23] (fun n : Nat => n % 10) = [10, 11, 23] ∧
    (([10, 11, 20, 23].map (fun n : Nat => n % 10)).Nodup → False) ∧
    ((distinct [10, 11, 20, 23] (fun n : Nat => n % 10)).map
      (fun n : Nat => n % 10)).Nodup :=
  ⟨by decide, by decide,
    (C10_distinct_first_per_key [10, 11, 20, 23] (fun n : Nat => n % 10)).2.1⟩

end Hiss
